import Mathlib

/-!
# Computer club event replay: a shallow embedding of `src/code.cpp`

The C++ program replays a log of client events against a club with a fixed
number of tables.  This file embeds the classes `TimeUtils`, `Table`,
`Client`, `Event` and `ComputerClub` as Lean definitions and proves
properties of them.

Modelling conventions.

* C++ `int` is modelled by `Int`.  An `int` of the compiled program has 32
  bits in two's complement.  Where the source computes with values that the
  checks on the input do not bound (the time, the revenue and the busy minutes
  in `Table::release`, the minutes in `TimeUtils::timeToMinutes`), the result
  of each operation is reduced to that range by `wrapInt`; `std::stoi` and the
  table numbers stay within the range by themselves.  `/` on `int` truncates
  towards zero and is modelled by `Int.tdiv`.
* `std::vector<Table>` is a `List Table`; an out-of-range subscript is
  undefined behaviour and is modelled by the result `none`.
* `std::map<string, Client>` is an association list kept in key order.
  The functions do not require the list to be duplicate free, but they
  preserve that property (`ClientMap.WF`).
* `std::queue<string>` is a `List String` with the front at the head.
* An uncaught exception (`std::stoi` on a string without digits) is modelled
  by the result `none`.
* `std::sort` is library code.  A property of every implementation is stated
  for the contract `StdSort`; the order that the program prints on a given
  input is computed with `Libstdcxx.sort`, the implementation of libstdc++.
-/

namespace Club

/-! ## The type `int` -/

/-- The values of a 32-bit `int`. -/
abbrev fitsInt (x : Int) : Prop := -2147483648 ≤ x ∧ x ≤ 2147483647

/-- The `int` that the machine stores for the exact result `x` of an
operation: `x` itself when it is in range, otherwise the value in range that
differs from `x` by a multiple of `2 ^ 32`. -/
def wrapInt (x : Int) : Int := (x + 2147483648) % 4294967296 - 2147483648

/-! ## Strings and `std::stoi` -/

/-- Lexicographic comparison of character sequences by character code, the
order of `std::string::operator<`. -/
def strLess : List Char → List Char → Bool
  | [], [] => false
  | [], _ :: _ => true
  | _ :: _, [] => false
  | a :: as, b :: bs =>
    if a.toNat < b.toNat then true
    else if b.toNat < a.toNat then false
    else strLess as bs

/-- The characters skipped by `std::stoi` before the number (`isspace`). -/
def isSpaceChar (c : Char) : Bool :=
  c.toNat = 32 || (9 ≤ c.toNat && c.toNat ≤ 13)

/-- The decimal digits. -/
def isDigitChar (c : Char) : Bool :=
  48 ≤ c.toNat && c.toNat ≤ 57

/-- The value of a run of decimal digits. -/
def digitsValue (ds : List Char) : Int :=
  ds.foldl (fun acc d => acc * 10 + ((d.toNat : Int) - 48)) 0

/-- The number `std::stoi` reads from a character sequence: leading white
space is skipped, an optional sign is read, then the longest run of digits.
The result is `none` when `std::stoi` throws (no digit, or a value that does
not fit in a 32-bit `int`). -/
def stoiChars (cs : List Char) : Option Int :=
  let body := cs.dropWhile isSpaceChar
  let signed : Bool × List Char :=
    match body with
    | [] => (false, [])
    | c :: rest =>
      if c.toNat = 45 then (true, rest)
      else if c.toNat = 43 then (false, rest)
      else (false, c :: rest)
  let ds := signed.2.takeWhile isDigitChar
  if ds.isEmpty then none
  else
    let v : Int := if signed.1 then - digitsValue ds else digitsValue ds
    if v < -2147483648 ∨ 2147483647 < v then none else some v

/-- The function `std::stoi` on strings. -/
def stoi (s : String) : Option Int := stoiChars s.data

/-- The function `std::to_string` on `int`. -/
def to_string (n : Int) : String := toString n

/-! ## `TimeUtils` -/

/-- Method `TimeUtils::timeToMinutes`: the text before the first colon is the
hour, the text after it the minute.  When the string has no colon,
`find` returns `npos`, `substr(0, npos)` is the whole string and
`substr(npos + 1)` is `substr(0)`, the whole string again. -/
def TimeUtils.timeToMinutes (timeStr : String) : Option Int :=
  let cs := timeStr.data
  let hoursPart := cs.takeWhile (fun c => c.toNat ≠ 58)
  let minutesPart :=
    if cs.any (fun c => c.toNat = 58) then (cs.dropWhile (fun c => c.toNat ≠ 58)).drop 1
    else cs
  match stoiChars hoursPart, stoiChars minutesPart with
  | some hours, some minutes => some (wrapInt (wrapInt (hours * 60) + minutes))
  | _, _ => none

/-! ## `Table` -/

/-- Class `Table`. -/
structure Table where
  number : Int
  isOccupied : Bool
  currentClient : String
  startTime : Int
  revenue : Int
  totalTime : Int
deriving DecidableEq, Repr

/-- Constructor `Table(int num)`. -/
def Table.new (num : Int) : Table :=
  { number := num, isOccupied := false, currentClient := "", startTime := 0,
    revenue := 0, totalTime := 0 }

/-- Method `Table::occupy`. -/
def Table.occupy (t : Table) (client : String) (time : Int) : Table :=
  { t with isOccupied := true, currentClient := client, startTime := time }

/-- Method `Table::release`. -/
def Table.release (t : Table) (time rent : Int) : Table :=
  if !t.isOccupied then t
  else
    let timeSpent := wrapInt (time - t.startTime)
    let hours := (wrapInt (timeSpent + 59)).tdiv 60
    { t with
      revenue := wrapInt (t.revenue + wrapInt (hours * rent))
      totalTime := wrapInt (t.totalTime + timeSpent)
      isOccupied := false
      currentClient := "" }

/-- No operation of `release` at the time `time` and the rate `rent` leaves
the range of `int` when it computes the revenue: the elapsed time plus 59,
the amount billed and the new revenue are in range. -/
abbrev Table.BillFits (t : Table) (time rent : Int) : Prop :=
  fitsInt (time - t.startTime + 59) ∧
  fitsInt ((time - t.startTime + 59).tdiv 60 * rent) ∧
  fitsInt (t.revenue + (time - t.startTime + 59).tdiv 60 * rent)

/-- No operation of `release` at the time `time` and the rate `rent` leaves
the range of `int`: the revenue is computed in range and the new busy minutes
are in range. -/
abbrev Table.ReleaseFits (t : Table) (time rent : Int) : Prop :=
  t.BillFits time rent ∧ fitsInt (t.totalTime + (time - t.startTime))

/-- Method `Table::forceRelease`. -/
def Table.forceRelease (t : Table) (time rent : Int) : Table :=
  if t.isOccupied then t.release time rent else t

/-! ## `Client` -/

/-- Class `Client`; `tableNumber = -1` means that the client has no seat. -/
structure Client where
  name : String
  arrivalTime : Int
  tableNumber : Int
deriving DecidableEq, Repr

/-- Constructor `Client(const string &s, int time)`. -/
def Client.new (s : String) (time : Int) : Client :=
  { name := s, arrivalTime := time, tableNumber := -1 }

/-- The value-initialised client that `std::map::operator[]` inserts for a
missing key: `Client() = default` leaves the empty name and zeroed integers. -/
def Client.default : Client :=
  { name := "", arrivalTime := 0, tableNumber := 0 }

/-- Method `Client::setTable`. -/
def Client.setTable (cl : Client) (table : Int) : Client :=
  { cl with tableNumber := table }

/-- Method `Client::isSeated`. -/
def Client.isSeated (cl : Client) : Bool := cl.tableNumber != -1

/-! ## `Event` -/

/-- Class `Event`: time in minutes, numeric kind, argument list. -/
structure Event where
  time : Int
  id : Int
  body : List String
deriving DecidableEq, Repr

/-! ## `std::map<string, Client>` -/

/-- The client registry, an association list in key order. -/
abbrev ClientMap := List (String × Client)

namespace ClientMap

/-- Lookup, `std::map::find`. -/
def find : ClientMap → String → Option Client
  | [], _ => none
  | (k', v) :: rest, k => if k' = k then some v else find rest k

/-- Insertion of a new entry at its place in key order. -/
def insertOrdered : ClientMap → String → Client → ClientMap
  | [], k, v => [(k, v)]
  | (k', v') :: rest, k, v =>
    if strLess k.data k'.data then (k, v) :: (k', v') :: rest
    else (k', v') :: insertOrdered rest k v

/-- Insertion that keeps an existing entry, `std::map::emplace`: nothing is
inserted when the key is present. -/
def emplace (m : ClientMap) (k : String) (v : Client) : ClientMap :=
  if (find m k).isSome then m else insertOrdered m k v

/-- Removal of a key, `std::map::erase`. -/
def erase : ClientMap → String → ClientMap
  | [], _ => []
  | (k', v) :: rest, k => if k' = k then erase rest k else (k', v) :: erase rest k

/-- The registry after `operator[]` was applied to `k`: a missing key is
inserted with a value-initialised client. -/
def subscript (m : ClientMap) (k : String) : ClientMap :=
  emplace m k Client.default

/-- The client that `m[k]` refers to. -/
def get (m : ClientMap) (k : String) : Client :=
  ((subscript m k).find k).getD Client.default

/-- Assignment to the value stored under `k`, when there is one. -/
def modify : ClientMap → String → (Client → Client) → ClientMap
  | [], _, _ => []
  | (k', v) :: rest, k, f =>
    if k' = k then (k', f v) :: modify rest k f else (k', v) :: modify rest k f

/-- Update through the reference returned by `m[k]`. -/
def update (m : ClientMap) (k : String) (f : Client → Client) : ClientMap :=
  modify (subscript m k) k f

/-- The keys in iteration order. -/
def keys (m : ClientMap) : List String := m.map Prod.fst

/-- Representation invariant of `std::map`: no key occurs twice. -/
def WF (m : ClientMap) : Prop := m.keys.Nodup

end ClientMap

/-! ## `std::vector<Table>` -/

/-- Read `tables[i]`; `none` when the subscript is out of range. -/
def vecGet (ts : List Table) (i : Int) : Option Table :=
  if 0 ≤ i then ts[i.toNat]? else none

/-- Apply a method to `tables[i]`; `none` when the subscript is out of range. -/
def vecModify (ts : List Table) (i : Int) (f : Table → Table) : Option (List Table) :=
  if 0 ≤ i ∧ i < ts.length then some (ts.modify f i.toNat) else none

/-! ## `ComputerClub` -/

/-- Class `ComputerClub`. -/
structure ComputerClub where
  openTime : Int
  closeTime : Int
  rent : Int
  tables : List Table
  clients : ClientMap
  waitingQueue : List String
  outputEvents : List Event
deriving DecidableEq, Repr

namespace ComputerClub

/-- Constructor `ComputerClub(numTables, openStr, closeStr, rate)`. -/
def new (numTables : Int) (openStr closeStr : String) (rate : Int) : Option ComputerClub :=
  match TimeUtils.timeToMinutes openStr, TimeUtils.timeToMinutes closeStr with
  | some o, some cl =>
    some
      { openTime := o
        closeTime := cl
        rent := rate
        tables := (List.range numTables.toNat).map (fun i => Table.new ((i : Int) + 1))
        clients := []
        waitingQueue := []
        outputEvents := [] }
  | _, _ => none

/-- Method `isClientInClub`. -/
def isClientInClub (c : ComputerClub) (clientName : String) : Bool :=
  (c.clients.find clientName).isSome

/-- Method `isTableNumberValid`. -/
def isTableNumberValid (c : ComputerClub) (tableNumber : Int) : Bool :=
  decide (1 ≤ tableNumber) && decide (tableNumber ≤ (c.tables.length : Int))

/-- Method `hasFreeTables`. -/
def hasFreeTables (c : ComputerClub) : Bool :=
  c.tables.any (fun t => !t.isOccupied)

/-- Method `addErrorEvent`. -/
def addErrorEvent (c : ComputerClub) (time : Int) (error : String) : ComputerClub :=
  { c with outputEvents := c.outputEvents ++ [{ time := time, id := 13, body := [error] }] }

/-- Method `processClientArrived`. -/
def processClientArrived (c : ComputerClub) (event : Event) : Option ComputerClub :=
  match event.body with
  | [] => none
  | clientName :: _ =>
    if c.isClientInClub clientName then
      some (c.addErrorEvent event.time "YouShallNotPass")
    else if event.time < c.openTime ∨ event.time ≥ c.closeTime then
      some (c.addErrorEvent event.time "NotOpenYet")
    else
      some { c with clients := c.clients.emplace clientName (Client.new clientName event.time) }

/-- Method `processClientSat`. -/
def processClientSat (c : ComputerClub) (event : Event) : Option ComputerClub :=
  match event.body with
  | clientName :: arg :: _ =>
    match stoi arg with
    | none => none
    | some tableNumber =>
      if !c.isClientInClub clientName then
        some (c.addErrorEvent event.time "ClientUnknown")
      else if !c.isTableNumberValid tableNumber then
        some (c.addErrorEvent event.time "PlaceIsBusy")
      else
        match vecGet c.tables (tableNumber - 1) with
        | none => none
        | some target =>
          if target.isOccupied then
            some (c.addErrorEvent event.time "PlaceIsBusy")
          else
            let client := c.clients.get clientName
            let released : Option (List Table) :=
              if client.isSeated then
                vecModify c.tables (client.tableNumber - 1)
                  (fun t => t.forceRelease event.time c.rent)
              else some c.tables
            match released with
            | none => none
            | some tables1 =>
              match vecModify tables1 (tableNumber - 1)
                  (fun t => t.occupy clientName event.time) with
              | none => none
              | some tables2 =>
                some { c with
                  tables := tables2
                  clients := c.clients.update clientName (fun cl => cl.setTable tableNumber) }
  | _ => none

/-- Method `processClientWaiting`. -/
def processClientWaiting (c : ComputerClub) (event : Event) : Option ComputerClub :=
  match event.body with
  | [] => none
  | clientName :: _ =>
    if !c.isClientInClub clientName then
      some (c.addErrorEvent event.time "ClientUnknown")
    else if c.hasFreeTables then
      some (c.addErrorEvent event.time "ICanWaitNoLonger!")
    else if c.waitingQueue.length ≥ c.tables.length then
      some { c with
        outputEvents := c.outputEvents ++ [{ time := event.time, id := 11, body := [clientName] }]
        clients := c.clients.erase clientName }
    else
      some { c with waitingQueue := c.waitingQueue ++ [clientName] }

/-- Method `processClientLeft`. -/
def processClientLeft (c : ComputerClub) (event : Event) : Option ComputerClub :=
  match event.body with
  | [] => none
  | clientName :: _ =>
    if !c.isClientInClub clientName then
      some (c.addErrorEvent event.time "ClientUnknown")
    else
      let client := c.clients.get clientName
      let clients1 := c.clients.subscript clientName
      if client.isSeated then
        let tableNumber := client.tableNumber
        match vecModify c.tables (tableNumber - 1) (fun t => t.release event.time c.rent) with
        | none => none
        | some tables1 =>
          match c.waitingQueue with
          | [] =>
            some { c with tables := tables1, clients := clients1.erase clientName }
          | nextClient :: rest =>
            match vecModify tables1 (tableNumber - 1)
                (fun t => t.occupy nextClient event.time) with
            | none => none
            | some tables2 =>
              some { c with
                tables := tables2
                waitingQueue := rest
                clients :=
                  (clients1.update nextClient (fun cl => cl.setTable tableNumber)).erase
                    clientName
                outputEvents := c.outputEvents ++
                  [{ time := event.time, id := 12,
                     body := [nextClient, to_string tableNumber] }] }
      else
        some { c with clients := clients1.erase clientName }

/-- Method `processEvent`: the event is echoed, then dispatched on its kind. -/
def processEvent (c : ComputerClub) (event : Event) : Option ComputerClub :=
  let c1 := { c with outputEvents := c.outputEvents ++ [event] }
  if event.id = 1 then processClientArrived c1 event
  else if event.id = 2 then processClientSat c1 event
  else if event.id = 3 then processClientWaiting c1 event
  else if event.id = 4 then processClientLeft c1 event
  else some c1

/-! ### `closeClub` -/

/-- Insertion of `x` into an ordered list of names. -/
def insertName (x : String) : List String → List String
  | [] => [x]
  | y :: ys => if strLess x.data y.data then x :: y :: ys else y :: insertName x ys

/-- The call `sort(remainingClients.begin(), remainingClients.end())`.  The
names are the keys of a map, hence pairwise distinct, so the ordered
arrangement is unique and does not depend on the sorting algorithm. -/
def sortNames : List String → List String
  | [] => []
  | x :: xs => insertName x (sortNames xs)

/-- The event that `closeClub` and the overflow branch of
`processClientWaiting` synthesise for a client that is forced out. -/
def leftEvent (time : Int) (clientName : String) : Event :=
  { time := time, id := 11, body := [clientName] }

/-- One iteration of the second loop of `closeClub`. -/
def closeClubStep (c : ComputerClub) (clientName : String) : Option ComputerClub :=
  let out := c.outputEvents ++ [leftEvent c.closeTime clientName]
  let client := c.clients.get clientName
  let clients1 := c.clients.subscript clientName
  if client.isSeated then
    match vecModify c.tables (client.tableNumber - 1)
        (fun t => t.forceRelease c.closeTime c.rent) with
    | none => none
    | some tables1 => some { c with outputEvents := out, clients := clients1, tables := tables1 }
  else
    some { c with outputEvents := out, clients := clients1 }

/-- The second loop of `closeClub` over the sorted names. -/
def closeClubLoop : ComputerClub → List String → Option ComputerClub
  | c, [] => some c
  | c, clientName :: rest =>
    match closeClubStep c clientName with
    | none => none
    | some c1 => closeClubLoop c1 rest

/-- Method `closeClub`. -/
def closeClub (c : ComputerClub) : Option ComputerClub :=
  closeClubLoop c (sortNames c.clients.keys)

/-! ### `printResults` -/

/-- The comparison lambda handed to `std::sort` in `printResults`. -/
def eventLess (a b : Event) : Bool :=
  if a.time ≠ b.time then decide (a.time < b.time) else decide (a.id < b.id)

end ComputerClub

/-- An implementation of `std::sort` for a comparison `less`.  The C++
standard promises that the result is a rearrangement of the input in which no
later element compares less than an earlier one; it promises nothing about the
relative order of equivalent elements. -/
structure StdSort (α : Type) (less : α → α → Bool) where
  run : List α → List α
  perm : ∀ l, (run l).Perm l
  ordered : ∀ l, (run l).Pairwise (fun a b => less b a = false)

namespace ComputerClub

/-- The local variable `sortedEvents` of `printResults`, the sequence of
events in the order in which they are printed: a copy of `outputEvents`
sorted by `std::sort` with the comparison `eventLess`. -/
def sortedEvents (S : StdSort Event eventLess) (c : ComputerClub) : List Event :=
  S.run c.outputEvents

/-- Insertion of an event into an ordered list, before the first element that
is not less than it. -/
def insertEvent (x : Event) : List Event → List Event
  | [] => [x]
  | y :: ys => if eventLess y x then y :: insertEvent x ys else x :: y :: ys

/-- Insertion sort of events by `eventLess`. -/
def insertionSortEvents : List Event → List Event
  | [] => []
  | x :: xs => insertEvent x (insertionSortEvents xs)

end ComputerClub

/-! ## Input validation in `main` and reachable states -/

/-- The lambda `isValidClientName` of `main`. -/
def isValidClientName (name : String) : Bool :=
  !name.data.isEmpty && name.data.all (fun ch =>
    (48 ≤ ch.toNat && ch.toNat ≤ 57) || (65 ≤ ch.toNat && ch.toNat ≤ 90) ||
    (97 ≤ ch.toNat && ch.toNat ≤ 122) || ch.toNat = 95 || ch.toNat = 45)

/-- The checks that `main` applies to a line before it constructs the event:
after `isValidTime` the time lies within one day, the kind is 1 to 4, and the
argument list has the shape required for the kind.  For kind 3 the source
checks the first argument only, so further arguments are accepted. -/
def validEvent (e : Event) : Bool :=
  decide (0 ≤ e.time) && decide (e.time < 1440) &&
  (if e.id = 1 then
    match e.body with
    | [name] => isValidClientName name
    | _ => false
  else if e.id = 2 then
    match e.body with
    | [name, arg] =>
      isValidClientName name &&
        (match stoi arg with
         | some table => decide (0 < table)
         | none => false)
    | _ => false
  else if e.id = 3 then
    match e.body with
    | name :: _ => isValidClientName name
    | [] => false
  else if e.id = 4 then
    match e.body with
    | [name] => isValidClientName name
    | _ => false
  else false)

/-- The run of `main` on a list of events: each is handed to `processEvent`
in turn. -/
def processEvents : ComputerClub → List Event → Option ComputerClub
  | c, [] => some c
  | c, e :: rest =>
    match c.processEvent e with
    | none => none
    | some c1 => processEvents c1 rest

/-- The states that `main` can reach: the freshly constructed club, and
every state obtained from a reachable one by processing a valid event. -/
inductive Reachable : ComputerClub → Prop
  | start (numTables : Int) (openStr closeStr : String) (rate : Int) (c : ComputerClub) :
      ComputerClub.new numTables openStr closeStr rate = some c → Reachable c
  | step (c : ComputerClub) (e : Event) (c1 : ComputerClub) :
      Reachable c → validEvent e = true → c.processEvent e = some c1 → Reachable c1

/-- The events that a call appended to `outputEvents`: what the later
state holds beyond the earlier one. -/
def emitted (c c1 : ComputerClub) : List Event :=
  c1.outputEvents.drop c.outputEvents.length

/-- The error event that `addErrorEvent` appends. -/
def errorEvent (time : Int) (code : String) : Event :=
  { time := time, id := 13, body := [code] }

/-- The call `processEvent e` in state `c` returns and appends the error
event with the given code. -/
def emitsError (c : ComputerClub) (e : Event) (code : String) : Prop :=
  ∃ c1, c.processEvent e = some c1 ∧ errorEvent e.time code ∈ emitted c c1

/-! ## The outcomes of `processEvent` and invariants of reachable states -/

/-- The outcomes of `processEvent c e` for a valid event, one constructor for
each path through the four handlers that returns. -/
inductive Outcome (c : ComputerClub) (e : Event) : ComputerClub → Prop
  | error (code : String) :
      Outcome c e { c with outputEvents := c.outputEvents ++ [e, errorEvent e.time code] }
  | arrived (name : String) :
      e.id = 1 → e.body = [name] → c.clients.find name = none →
      (c.openTime ≤ e.time ∧ e.time < c.closeTime) →
      Outcome c e
        { c with
          outputEvents := c.outputEvents ++ [e]
          clients := c.clients.emplace name (Client.new name e.time) }
  | sat (name arg : String) (n : Int) (cl : Client) (T : Table) :
      e.id = 2 → e.body = [name, arg] → stoi arg = some n →
      c.clients.find name = some cl →
      1 ≤ n → n ≤ c.tables.length →
      vecGet c.tables (n - 1) = some T → T.isOccupied = false →
      (cl.isSeated = true → 0 ≤ cl.tableNumber - 1 ∧ cl.tableNumber - 1 < c.tables.length) →
      Outcome c e
        { c with
          outputEvents := c.outputEvents ++ [e]
          tables :=
            (if cl.isSeated = true then
              c.tables.modify (fun P => P.forceRelease e.time c.rent) (cl.tableNumber - 1).toNat
            else c.tables).modify (fun P => P.occupy name e.time) (n - 1).toNat
          clients := c.clients.modify name (fun x => x.setTable n) }
  | overflow (name : String) (rest : List String) (cl : Client) :
      e.id = 3 → e.body = name :: rest → c.clients.find name = some cl →
      c.hasFreeTables = false → c.tables.length ≤ c.waitingQueue.length →
      Outcome c e
        { c with
          outputEvents := c.outputEvents ++ [e, ComputerClub.leftEvent e.time name]
          clients := c.clients.erase name }
  | enqueued (name : String) (rest : List String) (cl : Client) :
      e.id = 3 → e.body = name :: rest → c.clients.find name = some cl →
      c.hasFreeTables = false → c.waitingQueue.length < c.tables.length →
      Outcome c e
        { c with
          outputEvents := c.outputEvents ++ [e]
          waitingQueue := c.waitingQueue ++ [name] }
  | leftUnseated (name : String) (cl : Client) :
      e.id = 4 → e.body = [name] → c.clients.find name = some cl →
      cl.isSeated = false →
      Outcome c e
        { c with
          outputEvents := c.outputEvents ++ [e]
          clients := c.clients.erase name }
  | leftFreed (name : String) (cl : Client) :
      e.id = 4 → e.body = [name] → c.clients.find name = some cl →
      cl.isSeated = true →
      0 ≤ cl.tableNumber - 1 → cl.tableNumber - 1 < c.tables.length →
      c.waitingQueue = [] →
      Outcome c e
        { c with
          outputEvents := c.outputEvents ++ [e]
          tables := c.tables.modify (fun P => P.release e.time c.rent) (cl.tableNumber - 1).toNat
          clients := c.clients.erase name }
  | leftReseated (name : String) (cl : Client) (nextClient : String) (rest : List String) :
      e.id = 4 → e.body = [name] → c.clients.find name = some cl →
      cl.isSeated = true →
      0 ≤ cl.tableNumber - 1 → cl.tableNumber - 1 < c.tables.length →
      c.waitingQueue = nextClient :: rest →
      Outcome c e
        { c with
          outputEvents := c.outputEvents ++
            [e, { time := e.time, id := 12, body := [nextClient, to_string cl.tableNumber] }]
          tables :=
            (c.tables.modify (fun P => P.release e.time c.rent)
              (cl.tableNumber - 1).toNat).modify
              (fun P => P.occupy nextClient e.time) (cl.tableNumber - 1).toNat
          waitingQueue := rest
          clients :=
            (c.clients.update nextClient (fun x => x.setTable cl.tableNumber)).erase name }

/-- Seat pointers are consistent: the table that a registered client points
to exists, is occupied, and its occupant is that client. -/
def SeatsConsistent (c : ComputerClub) : Prop :=
  ∀ name cl, c.clients.find name = some cl → cl.isSeated = true →
    ∃ T, vecGet c.tables (cl.tableNumber - 1) = some T ∧
      T.isOccupied = true ∧ T.currentClient = name

/-- Every occupied table has been occupied at the time of an event that is
in the output. -/
def StartTimesEchoed (c : ComputerClub) : Prop :=
  ∀ i T, vecGet c.tables i = some T → T.isOccupied = true →
    ∃ x ∈ c.outputEvents, x.time = T.startTime

/-- The states reachable by `processEvent` on valid events and by `closeClub`. -/
inductive ReachableClosing : ComputerClub → Prop
  | start (numTables : Int) (openStr closeStr : String) (rate : Int) (c : ComputerClub) :
      ComputerClub.new numTables openStr closeStr rate = some c → ReachableClosing c
  | step (c : ComputerClub) (e : Event) (c1 : ComputerClub) :
      ReachableClosing c → validEvent e = true → c.processEvent e = some c1 →
      ReachableClosing c1
  | close (c c1 : ComputerClub) :
      ReachableClosing c → c.closeClub = some c1 → ReachableClosing c1

/-- The invariant of a table: it is occupied exactly when an occupant is
stored, that is, when `currentClient` is not the empty string. -/
def Table.FlagMatches (T : Table) : Prop :=
  T.isOccupied = true ↔ T.currentClient ≠ ""

/-- A waiting request is orderly when the client that sends it neither
occupies a table nor is in the queue already.  Events of the other kinds are
always orderly. -/
def OrderlyWaiting (c : ComputerClub) (e : Event) : Prop :=
  e.id = 3 → ∀ name rest, e.body = name :: rest →
    name ∉ c.waitingQueue ∧ ∀ T ∈ c.tables, T.isOccupied = true → T.currentClient ≠ name

/-- The states reachable by valid events whose waiting requests are orderly. -/
inductive ReachableOrderly : ComputerClub → Prop
  | start (numTables : Int) (openStr closeStr : String) (rate : Int) (c : ComputerClub) :
      ComputerClub.new numTables openStr closeStr rate = some c → ReachableOrderly c
  | step (c : ComputerClub) (e : Event) (c1 : ComputerClub) :
      ReachableOrderly c → validEvent e = true → OrderlyWaiting c e →
      c.processEvent e = some c1 → ReachableOrderly c1

/-- Every occupied table is the seat of its occupant, who is registered. -/
def OccupantsSeated (c : ComputerClub) : Prop :=
  ∀ i T, vecGet c.tables i = some T → T.isOccupied = true →
    ∃ cl, c.clients.find T.currentClient = some cl ∧ cl.tableNumber - 1 = i

/-- No name in the queue is the occupant of a table. -/
def QueueApart (c : ComputerClub) : Prop :=
  ∀ q ∈ c.waitingQueue, ∀ i T, vecGet c.tables i = some T → T.isOccupied = true →
    T.currentClient ≠ q

/-- As soon as a client is registered or queued, the output holds an event
whose time is not before `openTime`. -/
def ArrivalSeen (c : ComputerClub) : Prop :=
  ((∃ name cl, c.clients.find name = some cl) ∨ c.waitingQueue ≠ []) →
    ∃ x ∈ c.outputEvents, c.openTime ≤ x.time

/-- The busy minutes of every table are covered by the time since `openTime`
and by the time since midnight: up to the start of the current stay for an
occupied table, up to the time of some event of the output for a free table. -/
def BusyWithin (c : ComputerClub) : Prop :=
  ∀ i T, vecGet c.tables i = some T →
    0 ≤ T.totalTime ∧
    (T.isOccupied = true →
      c.openTime ≤ T.startTime ∧ T.totalTime ≤ T.startTime - c.openTime ∧
      0 ≤ T.startTime ∧ T.totalTime ≤ T.startTime) ∧
    (T.isOccupied = false →
      T.totalTime = 0 ∨
        ∃ x ∈ c.outputEvents, T.totalTime ≤ x.time - c.openTime ∧ T.totalTime ≤ x.time)

/-! ## An implementation of `std::sort` -/

/-- Insertion sort by `eventLess` is an implementation of `std::sort` for
that comparison, so the contract `StdSort` can be met. -/
def insertionStdSort : StdSort Event ComputerClub.eventLess where
  run := ComputerClub.insertionSortEvents
  perm := by
    have hins : ∀ (x : Event) (l : List Event),
        (ComputerClub.insertEvent x l).Perm (x :: l) := by
      intro x l
      induction l with
      | nil => exact List.Perm.refl _
      | cons y ys ih =>
        unfold ComputerClub.insertEvent
        split_ifs
        · exact (List.Perm.cons _ ih).trans (List.Perm.swap _ _ _)
        · exact List.Perm.refl _
    intro l
    induction l with
    | nil => exact List.Perm.refl _
    | cons x xs ih =>
      unfold ComputerClub.insertionSortEvents
      exact (hins x _).trans (List.Perm.cons _ ih)
  ordered := by
    have hins : ∀ (x : Event) (l : List Event),
        (ComputerClub.insertEvent x l).Perm (x :: l) := by
      intro x l
      induction l with
      | nil => exact List.Perm.refl _
      | cons y ys ih =>
        unfold ComputerClub.insertEvent
        split_ifs
        · exact (List.Perm.cons _ ih).trans (List.Perm.swap _ _ _)
        · exact List.Perm.refl _
    have hasymm : ∀ a b : Event, ComputerClub.eventLess a b = true →
        ComputerClub.eventLess b a = false := by
      intro a b h
      unfold ComputerClub.eventLess at h ⊢
      split_ifs at h ⊢ <;>
        simp only [decide_eq_true_eq, decide_eq_false_iff_not] at h ⊢ <;> omega
    have htrans : ∀ a b d : Event, ComputerClub.eventLess b a = false →
        ComputerClub.eventLess d b = false → ComputerClub.eventLess d a = false := by
      intro a b d h1 h2
      unfold ComputerClub.eventLess at h1 h2 ⊢
      split_ifs at h1 h2 ⊢ <;>
        simp only [decide_eq_true_eq, decide_eq_false_iff_not] at h1 h2 ⊢ <;> omega
    have hsorted : ∀ (x : Event) (l : List Event),
        l.Pairwise (fun a b => ComputerClub.eventLess b a = false) →
        (ComputerClub.insertEvent x l).Pairwise
          (fun a b => ComputerClub.eventLess b a = false) := by
      intro x l
      induction l with
      | nil => intro _; simp [ComputerClub.insertEvent]
      | cons y ys ih =>
        intro hl
        rw [List.pairwise_cons] at hl
        unfold ComputerClub.insertEvent
        split_ifs with hlt
        · rw [List.pairwise_cons]
          refine ⟨?_, ih hl.2⟩
          intro z hz
          rcases List.mem_cons.1 ((hins x ys).subset hz) with hzx | hzys
          · rw [hzx]; exact hasymm _ _ hlt
          · exact hl.1 z hzys
        · have hyx : ComputerClub.eventLess y x = false := by simpa using hlt
          rw [List.pairwise_cons]
          refine ⟨?_, List.pairwise_cons.2 hl⟩
          intro z hz
          rcases List.mem_cons.1 hz with hzy | hzys
          · rw [hzy]; exact hyx
          · exact htrans _ _ _ hyx (hl.1 z hzys)
    intro l
    induction l with
    | nil => exact List.Pairwise.nil
    | cons x xs ih =>
      unfold ComputerClub.insertionSortEvents
      exact hsorted x _ ih

/-! ## The implementation of `std::sort` in libstdc++

The functions of `bits/stl_algo.h` and `bits/stl_heap.h` of GCC that
`std::sort` runs, on a range stored as a list with positions counted from 0.
A result `none` stands for an access outside the range, which is undefined
behaviour.  Each loop is given as many rounds as the range has positions; a
loop of the source that has not ended by then has left the range. -/

namespace Libstdcxx

/-- The call `std::iter_swap(a, b)` on the positions `a` and `b` of a range. -/
def iter_swap {α : Type} (l : List α) (a b : Nat) : Option (List α) :=
  match l[a]?, l[b]? with
  | some x, some y => some ((l.set a y).set b x)
  | _, _ => none

/-- Function `std::__move_median_to_first`. -/
def move_median_to_first {α : Type} (less : α → α → Bool) (l : List α) (result a b c : Nat) :
    Option (List α) :=
  match l[a]?, l[b]?, l[c]? with
  | some x, some y, some z =>
    if less x y then
      if less y z then iter_swap l result b
      else if less x z then iter_swap l result c
      else iter_swap l result a
    else if less x z then iter_swap l result a
    else if less y z then iter_swap l result c
    else iter_swap l result b
  | _, _, _ => none

/-- The loop `while (comp(first, pivot)) ++first;` of `__unguarded_partition`;
the result is the final position `first`. -/
def partition_up {α : Type} (less : α → α → Bool) (l : List α) (pivot : Nat) : Nat → Nat → Option Nat
  | 0, _ => none
  | fuel + 1, first =>
    match l[first]?, l[pivot]? with
    | some x, some p =>
      if less x p then partition_up less l pivot fuel (first + 1) else some first
    | _, _ => none

/-- The loop `while (comp(pivot, last)) --last;` of `__unguarded_partition`;
the result is the final position `last`. -/
def partition_down {α : Type} (less : α → α → Bool) (l : List α) (pivot : Nat) : Nat → Nat → Option Nat
  | 0, _ => none
  | fuel + 1, last =>
    match l[pivot]?, l[last]? with
    | some p, some x =>
      if less p x then
        if last = 0 then none else partition_down less l pivot fuel (last - 1)
      else some last
    | _, _ => none

/-- Function `std::__unguarded_partition`; the result is the range after the
swaps and the position that the function returns. -/
def unguarded_partition {α : Type} (less : α → α → Bool) (pivot : Nat) :
    Nat → List α → Nat → Nat → Option (List α × Nat)
  | 0, _, _, _ => none
  | fuel + 1, l, first, last =>
    match partition_up less l pivot (l.length + 1) first with
    | none => none
    | some first1 =>
      if last = 0 then none
      else
        match partition_down less l pivot (l.length + 1) (last - 1) with
        | none => none
        | some last1 =>
          if !(first1 < last1) then some (l, first1)
          else
            match iter_swap l first1 last1 with
            | none => none
            | some l1 => unguarded_partition less pivot fuel l1 (first1 + 1) last1

/-- Function `std::__unguarded_partition_pivot`. -/
def unguarded_partition_pivot {α : Type} (less : α → α → Bool) (l : List α) (first last : Nat) :
    Option (List α × Nat) :=
  let mid := first + (last - first) / 2
  match move_median_to_first less l first (first + 1) mid (last - 1) with
  | none => none
  | some l1 => unguarded_partition less first (l1.length + 1) l1 (first + 1) last

/-- Function `std::__push_heap` on the heap that begins at `first`. -/
def push_heap {α : Type} (less : α → α → Bool) (first topIndex : Nat) (value : α) :
    Nat → List α → Nat → Option (List α)
  | 0, _, _ => none
  | fuel + 1, l, holeIndex =>
    let parent := (holeIndex - 1) / 2
    if holeIndex > topIndex then
      match l[first + parent]? with
      | none => none
      | some p =>
        if less p value then
          push_heap less first topIndex value fuel (l.set (first + holeIndex) p) parent
        else if first + holeIndex < l.length then some (l.set (first + holeIndex) value)
        else none
    else if first + holeIndex < l.length then some (l.set (first + holeIndex) value)
    else none

/-- The loop of `std::__adjust_heap`; the result is the range and the values
of `holeIndex` and `secondChild` after the loop. -/
def adjust_heap_down {α : Type} (less : α → α → Bool) (first len : Nat) :
    Nat → List α → Nat → Nat → Option (List α × Nat × Nat)
  | 0, _, _, _ => none
  | fuel + 1, l, holeIndex, secondChild =>
    if secondChild < (len - 1) / 2 then
      let second := 2 * (secondChild + 1)
      match l[first + second]?, l[first + (second - 1)]? with
      | some x, some y =>
        let second1 := if less x y then second - 1 else second
        match l[first + second1]? with
        | none => none
        | some z =>
          if first + holeIndex < l.length then
            adjust_heap_down less first len fuel (l.set (first + holeIndex) z) second1 second1
          else none
      | _, _ => none
    else some (l, holeIndex, secondChild)

/-- Function `std::__adjust_heap` on the heap that begins at `first`. -/
def adjust_heap {α : Type} (less : α → α → Bool) (l : List α) (first holeIndex len : Nat) (value : α) :
    Option (List α) :=
  match adjust_heap_down less first len (len + 1) l holeIndex holeIndex with
  | none => none
  | some (l1, hole1, second1) =>
    if len % 2 = 0 ∧ second1 = (len - 2) / 2 then
      let second2 := 2 * (second1 + 1)
      match l1[first + (second2 - 1)]? with
      | none => none
      | some z =>
        if first + hole1 < l1.length then
          push_heap less first holeIndex value (len + 1) (l1.set (first + hole1) z) (second2 - 1)
        else none
    else push_heap less first holeIndex value (len + 1) l1 hole1

/-- Function `std::__pop_heap`. -/
def pop_heap {α : Type} (less : α → α → Bool) (l : List α) (first last result : Nat) : Option (List α) :=
  match l[result]?, l[first]? with
  | some value, some top => adjust_heap less (l.set result top) first 0 (last - first) value
  | _, _ => none

/-- The loop of `std::__make_heap`. -/
def make_heap_loop {α : Type} (less : α → α → Bool) (first len : Nat) : Nat → List α → Option (List α)
  | parent, l =>
    match l[first + parent]? with
    | none => none
    | some value =>
      match adjust_heap less l first parent len value with
      | none => none
      | some l1 =>
        match parent with
        | 0 => some l1
        | p + 1 => make_heap_loop less first len p l1

/-- Function `std::__make_heap`. -/
def make_heap {α : Type} (less : α → α → Bool) (l : List α) (first last : Nat) : Option (List α) :=
  if last - first < 2 then some l
  else make_heap_loop less first (last - first) ((last - first - 2) / 2) l

/-- Function `std::__sort_heap`. -/
def sort_heap {α : Type} (less : α → α → Bool) (first : Nat) : Nat → List α → Nat → Option (List α)
  | 0, _, _ => none
  | fuel + 1, l, last =>
    if last - first > 1 then
      match pop_heap less l first (last - 1) (last - 1) with
      | none => none
      | some l1 => sort_heap less first fuel l1 (last - 1)
    else some l

/-- The call `std::__partial_sort(first, last, last, comp)` of
`__introsort_loop`: `__heap_select` builds a heap of the whole range, its loop
over the positions from `middle = last` to `last` is empty, and `__sort_heap`
sorts the heap. -/
def heap_sort_range {α : Type} (less : α → α → Bool) (l : List α) (first last : Nat) : Option (List α) :=
  match make_heap less l first last with
  | none => none
  | some l1 => sort_heap less first (l1.length + 1) l1 last

/-- Function `std::__introsort_loop`; each round of the loop and each
recursive call lowers `depth_limit` by one. -/
def introsort_loop {α : Type} (less : α → α → Bool) : Nat → List α → Nat → Nat → Option (List α)
  | 0, l, first, last =>
    if last - first > 16 then heap_sort_range less l first last else some l
  | depth_limit + 1, l, first, last =>
    if last - first > 16 then
      match unguarded_partition_pivot less l first last with
      | none => none
      | some (l1, cut) =>
        match introsort_loop less depth_limit l1 cut last with
        | none => none
        | some l2 => introsort_loop less depth_limit l2 first cut
    else some l

/-- Function `std::__unguarded_linear_insert` for the value `val` taken from
the position `last`. -/
def unguarded_linear_insert {α : Type} (less : α → α → Bool) (val : α) :
    Nat → List α → Nat → Option (List α)
  | 0, _, _ => none
  | fuel + 1, l, last =>
    if last = 0 then none
    else
      match l[last - 1]? with
      | none => none
      | some x =>
        if less val x then unguarded_linear_insert less val fuel (l.set last x) (last - 1)
        else if last < l.length then some (l.set last val)
        else none

/-- One round of the loops of `__insertion_sort` and
`__unguarded_insertion_sort` without the test against the first element. -/
def linear_insert {α : Type} (less : α → α → Bool) (l : List α) (i : Nat) : Option (List α) :=
  match l[i]? with
  | none => none
  | some val => unguarded_linear_insert less val (i + 1) l i

/-- The loop of `std::__insertion_sort`.  When the element at `i` is less than
the first one, `move_backward` shifts the elements from `first` to `i` by one
position and the element is stored at `first`. -/
def insertion_sort_loop {α : Type} (less : α → α → Bool) (first last : Nat) :
    Nat → List α → Nat → Option (List α)
  | 0, _, _ => none
  | fuel + 1, l, i =>
    if i = last then some l
    else
      match l[i]?, l[first]? with
      | some val, some x =>
        if less val x then
          insertion_sort_loop less first last fuel
            (l.take first ++ val :: (l.drop first).take (i - first) ++ l.drop (i + 1)) (i + 1)
        else
          match linear_insert less l i with
          | none => none
          | some l1 => insertion_sort_loop less first last fuel l1 (i + 1)
      | _, _ => none

/-- Function `std::__insertion_sort`. -/
def insertion_sort {α : Type} (less : α → α → Bool) (l : List α) (first last : Nat) : Option (List α) :=
  if first = last then some l
  else insertion_sort_loop less first last (last - first) l (first + 1)

/-- Function `std::__unguarded_insertion_sort`. -/
def unguarded_insertion_sort {α : Type} (less : α → α → Bool) (last : Nat) :
    Nat → List α → Nat → Option (List α)
  | 0, _, _ => none
  | fuel + 1, l, i =>
    if i = last then some l
    else
      match linear_insert less l i with
      | none => none
      | some l1 => unguarded_insertion_sort less last fuel l1 (i + 1)

/-- Function `std::__final_insertion_sort`. -/
def final_insertion_sort {α : Type} (less : α → α → Bool) (l : List α) (first last : Nat) :
    Option (List α) :=
  if last - first > 16 then
    match insertion_sort less l first (first + 16) with
    | none => none
    | some l1 => unguarded_insertion_sort less last (last - first) l1 (first + 16)
  else insertion_sort less l first last

/-- Function `std::__lg`: the position of the highest bit of `n`. -/
def lg : Nat → Nat → Nat
  | 0, _ => 0
  | fuel + 1, n => if n ≥ 2 then lg fuel (n / 2) + 1 else 0

/-- Function `std::sort` on a whole vector.  The result is `none` when the
algorithm leaves the range, which is undefined behaviour. -/
def sort {α : Type} (less : α → α → Bool) (l : List α) : Option (List α) :=
  if l.length = 0 then some l
  else
    match introsort_loop less (lg l.length l.length * 2) l 0 l.length with
    | none => none
    | some l1 => final_insertion_sort less l1 0 l.length

end Libstdcxx

/-- The local variable `sortedEvents` of `printResults` when `std::sort` is
the function of libstdc++. -/
def ComputerClub.sortedEventsLibstdcxx (c : ComputerClub) : Option (List Event) :=
  Libstdcxx.sort ComputerClub.eventLess c.outputEvents

/-! ## Example states -/

/-- The club of the scenario in the specification: one table, open from
09:00 to 19:00, rate 10, as `ComputerClub.new 1 "09:00" "19:00" 10` builds it. -/
def exampleClub : ComputerClub :=
  { openTime := 540
    closeTime := 1140
    rent := 10
    tables := [Table.new 1]
    clients := []
    waitingQueue := []
    outputEvents := [] }

/-- The state `exampleClub` after the rejected arrival `08:48 1 client1`. -/
def exampleClubRejected : ComputerClub :=
  { exampleClub with
    outputEvents := [⟨528, 1, ["client1"]⟩, ⟨528, 13, ["NotOpenYet"]⟩] }

/-- The state `exampleClub` after `09:00 1 A` and `09:01 2 A 1`: client `A`
sits at the only table. -/
def exampleClubSeated : ComputerClub :=
  { exampleClub with
    tables := [⟨1, true, "A", 541, 0, 0⟩]
    clients := [("A", ⟨"A", 540, 1⟩)]
    outputEvents := [⟨540, 1, ["A"]⟩, ⟨541, 2, ["A", "1"]⟩] }

/-- A club with two tables, open from 09:00 to 19:00, rate 10, as
`ComputerClub.new 2 "09:00" "19:00" 10` builds it. -/
def exampleClub2 : ComputerClub :=
  { openTime := 540
    closeTime := 1140
    rent := 10
    tables := [Table.new 1, Table.new 2]
    clients := []
    waitingQueue := []
    outputEvents := [] }

/-- The state `exampleClub2` after `09:00 1 A` and `09:01 2 A 1`. -/
def exampleClub2Seated : ComputerClub :=
  { exampleClub2 with
    tables := [⟨1, true, "A", 541, 0, 0⟩, Table.new 2]
    clients := [("A", ⟨"A", 540, 1⟩)]
    outputEvents := [⟨540, 1, ["A"]⟩, ⟨541, 2, ["A", "1"]⟩] }

/-- The state `exampleClubSeated` after `09:02 1 B`: `A` sits at the only
table and `B` is in the club without a seat. -/
def exampleClubTwo : ComputerClub :=
  { exampleClubSeated with
    clients := [("A", ⟨"A", 540, 1⟩), ("B", ⟨"B", 542, -1⟩)]
    outputEvents := [⟨540, 1, ["A"]⟩, ⟨541, 2, ["A", "1"]⟩, ⟨542, 1, ["B"]⟩] }

/-- The state `exampleClubTwo` after `09:03 3 B`: `B` waits in the queue,
which is full now. -/
def exampleClubQueued : ComputerClub :=
  { exampleClubTwo with
    waitingQueue := ["B"]
    outputEvents :=
      [⟨540, 1, ["A"]⟩, ⟨541, 2, ["A", "1"]⟩, ⟨542, 1, ["B"]⟩, ⟨543, 3, ["B"]⟩] }

/-- The state `exampleClubQueued` after `09:04 3 A`: the seated client `A`
asked to wait while the queue was full and was removed from the registry;
table 1 still names `A` as its occupant. -/
def exampleClubDropped : ComputerClub :=
  { exampleClubQueued with
    clients := [("B", ⟨"B", 542, -1⟩)]
    outputEvents :=
      [⟨540, 1, ["A"]⟩, ⟨541, 2, ["A", "1"]⟩, ⟨542, 1, ["B"]⟩, ⟨543, 3, ["B"]⟩,
       ⟨544, 3, ["A"]⟩, ⟨544, 11, ["A"]⟩] }

/-- The state `exampleClubDropped` after `closeClub`. -/
def exampleClubDroppedClosed : ComputerClub :=
  { exampleClubDropped with
    outputEvents :=
      [⟨540, 1, ["A"]⟩, ⟨541, 2, ["A", "1"]⟩, ⟨542, 1, ["B"]⟩, ⟨543, 3, ["B"]⟩,
       ⟨544, 3, ["A"]⟩, ⟨544, 11, ["A"]⟩, ⟨1140, 11, ["B"]⟩] }

/-- The state `exampleClubSeated` after `09:05 3 A`: the seated client `A`
is also the only entry of the waiting queue. -/
def exampleClubSelfQueued : ComputerClub :=
  { exampleClubSeated with
    waitingQueue := ["A"]
    outputEvents := [⟨540, 1, ["A"]⟩, ⟨541, 2, ["A", "1"]⟩, ⟨545, 3, ["A"]⟩] }

/-- The state `exampleClubSelfQueued` after `10:00 4 A`. -/
def exampleClubSelfReseated : ComputerClub :=
  { exampleClubSelfQueued with
    tables := [⟨1, true, "A", 600, 10, 59⟩]
    clients := []
    waitingQueue := []
    outputEvents :=
      [⟨540, 1, ["A"]⟩, ⟨541, 2, ["A", "1"]⟩, ⟨545, 3, ["A"]⟩, ⟨600, 4, ["A"]⟩,
       ⟨600, 12, ["A", "1"]⟩] }

/-- The state `exampleClub` after `18:00 1 A` and `20:00 2 A 1`: the club
closes at 19:00 and `A` takes the table an hour later. -/
def exampleClubLate : ComputerClub :=
  { exampleClub with
    tables := [⟨1, true, "A", 1200, 0, 0⟩]
    clients := [("A", ⟨"A", 1080, 1⟩)]
    outputEvents := [⟨1080, 1, ["A"]⟩, ⟨1200, 2, ["A", "1"]⟩] }

/-- The state `exampleClubLate` after `closeClub`. -/
def exampleClubLateClosed : ComputerClub :=
  { exampleClubLate with
    tables := [⟨1, false, "", 1200, 0, -60⟩]
    outputEvents := [⟨1080, 1, ["A"]⟩, ⟨1200, 2, ["A", "1"]⟩, ⟨1140, 11, ["A"]⟩] }

/-- The state `exampleClub2` after `09:00 1 bob`, `09:05 1 alice` and
`09:10 2 bob 1`: two clients are in the club, `bob` sits at table 1. -/
def exampleClub2Pair : ComputerClub :=
  { exampleClub2 with
    tables := [⟨1, true, "bob", 550, 0, 0⟩, Table.new 2]
    clients := [("alice", ⟨"alice", 545, -1⟩), ("bob", ⟨"bob", 540, 1⟩)]
    outputEvents := [⟨540, 1, ["bob"]⟩, ⟨545, 1, ["alice"]⟩, ⟨550, 2, ["bob", "1"]⟩] }

/-- The state `exampleClub2` after `09:00 1 A`, `09:00 1 B`, `09:00 1 C`,
`09:01 2 A 1`, `09:02 2 B 2`, `09:03 3 C` and `09:04 3 C`: both tables are
taken and `C` asked to wait twice. -/
def exampleClub2Double : ComputerClub :=
  { exampleClub2 with
    tables := [⟨1, true, "A", 541, 0, 0⟩, ⟨2, true, "B", 542, 0, 0⟩]
    clients := [("A", ⟨"A", 540, 1⟩), ("B", ⟨"B", 540, 2⟩), ("C", ⟨"C", 540, -1⟩)]
    waitingQueue := ["C", "C"]
    outputEvents :=
      [⟨540, 1, ["A"]⟩, ⟨540, 1, ["B"]⟩, ⟨540, 1, ["C"]⟩, ⟨541, 2, ["A", "1"]⟩,
       ⟨542, 2, ["B", "2"]⟩, ⟨543, 3, ["C"]⟩, ⟨544, 3, ["C"]⟩] }

/-- The state `exampleClub2Double` after `09:10 4 A` and `09:20 4 B`: each
departure hands its table to the head of the queue, which is `C` both times. -/
def exampleClub2Both : ComputerClub :=
  { exampleClub2Double with
    tables := [⟨1, true, "C", 550, 10, 9⟩, ⟨2, true, "C", 560, 10, 18⟩]
    clients := [("C", ⟨"C", 540, 2⟩)]
    waitingQueue := []
    outputEvents :=
      [⟨540, 1, ["A"]⟩, ⟨540, 1, ["B"]⟩, ⟨540, 1, ["C"]⟩, ⟨541, 2, ["A", "1"]⟩,
       ⟨542, 2, ["B", "2"]⟩, ⟨543, 3, ["C"]⟩, ⟨544, 3, ["C"]⟩,
       ⟨550, 4, ["A"]⟩, ⟨550, 12, ["C", "1"]⟩, ⟨560, 4, ["B"]⟩, ⟨560, 12, ["C", "2"]⟩] }

/-- The state `exampleClub` after the arrivals `09:00 1 c1`, `09:01 1 c2`, and
so on up to `09:08 1 c9`: nine clients are in the club. -/
def exampleClubNine : ComputerClub :=
  { exampleClub with
    clients :=
      [("c1", ⟨"c1", 540, -1⟩), ("c2", ⟨"c2", 541, -1⟩), ("c3", ⟨"c3", 542, -1⟩),
       ("c4", ⟨"c4", 543, -1⟩), ("c5", ⟨"c5", 544, -1⟩), ("c6", ⟨"c6", 545, -1⟩),
       ("c7", ⟨"c7", 546, -1⟩), ("c8", ⟨"c8", 547, -1⟩), ("c9", ⟨"c9", 548, -1⟩)]
    outputEvents :=
      [⟨540, 1, ["c1"]⟩, ⟨541, 1, ["c2"]⟩, ⟨542, 1, ["c3"]⟩, ⟨543, 1, ["c4"]⟩,
       ⟨544, 1, ["c5"]⟩, ⟨545, 1, ["c6"]⟩, ⟨546, 1, ["c7"]⟩, ⟨547, 1, ["c8"]⟩,
       ⟨548, 1, ["c9"]⟩] }

/-- The state `exampleClubNine` after `closeClub`: the events of kind 11 are
appended in the order of the names. -/
def exampleClubNineClosed : ComputerClub :=
  { exampleClubNine with
    outputEvents :=
      [⟨540, 1, ["c1"]⟩, ⟨541, 1, ["c2"]⟩, ⟨542, 1, ["c3"]⟩, ⟨543, 1, ["c4"]⟩,
       ⟨544, 1, ["c5"]⟩, ⟨545, 1, ["c6"]⟩, ⟨546, 1, ["c7"]⟩, ⟨547, 1, ["c8"]⟩,
       ⟨548, 1, ["c9"]⟩,
       ⟨1140, 11, ["c1"]⟩, ⟨1140, 11, ["c2"]⟩, ⟨1140, 11, ["c3"]⟩, ⟨1140, 11, ["c4"]⟩,
       ⟨1140, 11, ["c5"]⟩, ⟨1140, 11, ["c6"]⟩, ⟨1140, 11, ["c7"]⟩, ⟨1140, 11, ["c8"]⟩,
       ⟨1140, 11, ["c9"]⟩] }

/-- The events of `exampleClubNineClosed` in the order in which the program
prints them: the arrivals, then the events of kind 11 from `c9` down to `c1`. -/
def exampleClubNinePrinted : List Event :=
  [⟨540, 1, ["c1"]⟩, ⟨541, 1, ["c2"]⟩, ⟨542, 1, ["c3"]⟩, ⟨543, 1, ["c4"]⟩,
   ⟨544, 1, ["c5"]⟩, ⟨545, 1, ["c6"]⟩, ⟨546, 1, ["c7"]⟩, ⟨547, 1, ["c8"]⟩,
   ⟨548, 1, ["c9"]⟩,
   ⟨1140, 11, ["c9"]⟩, ⟨1140, 11, ["c8"]⟩, ⟨1140, 11, ["c7"]⟩, ⟨1140, 11, ["c6"]⟩,
   ⟨1140, 11, ["c5"]⟩, ⟨1140, 11, ["c4"]⟩, ⟨1140, 11, ["c3"]⟩, ⟨1140, 11, ["c2"]⟩,
   ⟨1140, 11, ["c1"]⟩]

/-- A club with two tables, open from 09:00 to 19:00, at the rate 2000000000,
as `ComputerClub.new 2 "09:00" "19:00" 2000000000` builds it. -/
def exampleClubDear : ComputerClub :=
  { exampleClub2 with rent := 2000000000 }

/-- The state `exampleClubDear` after `09:00 1 A` and `09:00 2 A 1`. -/
def exampleClubDearSeated : ComputerClub :=
  { exampleClubDear with
    tables := [⟨1, true, "A", 540, 0, 0⟩, Table.new 2]
    clients := [("A", ⟨"A", 540, 1⟩)]
    outputEvents := [⟨540, 1, ["A"]⟩, ⟨540, 2, ["A", "1"]⟩] }

/-- A club with one table at the rate 1 that opens at 00:00 and whose closing
time is the largest `int`, as `ComputerClub.new 1 "00:00" "35791394:07" 1`
builds it. -/
def exampleClubLong : ComputerClub :=
  { openTime := 0
    closeTime := 2147483647
    rent := 1
    tables := [Table.new 1]
    clients := []
    waitingQueue := []
    outputEvents := [] }

/-- The state `exampleClubLong` after `00:00 1 A` and `00:00 2 A 1`. -/
def exampleClubLongSeated : ComputerClub :=
  { exampleClubLong with
    tables := [⟨1, true, "A", 0, 0, 0⟩]
    clients := [("A", ⟨"A", 0, 1⟩)]
    outputEvents := [⟨0, 1, ["A"]⟩, ⟨0, 2, ["A", "1"]⟩] }

/-! ## Theorems -/

/-! ### Billing -/

/-- The hour count of `Table::release` is the elapsed time divided by 60 and
rounded up, as soon as the elapsed time is not negative. -/
theorem tdiv_add_59_eq_ceil (d : Int) (hd : 0 ≤ d) :
    (d + 59).tdiv 60 = ⌈((d : Int) : ℚ) / 60⌉ := by
  have h0 : (0 : Int) ≤ d + 59 := by omega
  rw [Int.tdiv_eq_ediv h0 (by norm_num)]
  symm
  rw [Int.ceil_eq_iff]
  have h1 : 60 * ((d + 59) / 60) ≤ d + 59 := Int.mul_ediv_self_le (by norm_num)
  have h2 : d + 59 < 60 * ((d + 59) / 60) + 60 := Int.lt_mul_ediv_self_add (by norm_num)
  constructor
  · rw [lt_div_iff₀ (by norm_num : (0 : ℚ) < 60)]
    have : (((d + 59) / 60 : Int) : ℚ) * 60 - 60 < (d : ℚ) := by
      have h3 : ((d + 59) / 60) * 60 - 60 < d := by omega
      exact_mod_cast h3
    linarith
  · rw [div_le_iff₀ (by norm_num : (0 : ℚ) < 60)]
    have h3 : d ≤ ((d + 59) / 60) * 60 := by omega
    exact_mod_cast h3

/-- In range, `wrapInt` is the identity. -/
theorem wrapInt_of_fits (x : Int) (h : fitsInt x) : wrapInt x = x := by
  obtain ⟨h1, h2⟩ := h
  unfold wrapInt
  omega

/-- The result of `wrapInt` is in range. -/
theorem fitsInt_wrapInt (x : Int) : fitsInt (wrapInt x) := by
  unfold wrapInt
  constructor <;> omega

/-- The busy minutes after a release whose elapsed time and sum stay in range. -/
theorem Table.release_totalTime_of_fits (T : Table) (t r : Int) (hocc : T.isOccupied = true)
    (hd : fitsInt (t - T.startTime)) (hsum : fitsInt (T.totalTime + (t - T.startTime))) :
    (T.release t r).totalTime = T.totalTime + (t - T.startTime) := by
  simp only [Table.release, hocc, Bool.not_true, Bool.false_eq_true, if_false]
  rw [wrapInt_of_fits _ hd, wrapInt_of_fits _ hsum]

/-- A release that stays in range computes with the exact values. -/
theorem Table.release_of_fits (T : Table) (t r : Int) (hocc : T.isOccupied = true)
    (hst : T.startTime ≤ t) (hfit : T.ReleaseFits t r) :
    T.release t r =
      { T with
        isOccupied := false
        currentClient := ""
        revenue := T.revenue + (t - T.startTime + 59).tdiv 60 * r
        totalTime := T.totalTime + (t - T.startTime) } := by
  obtain ⟨⟨h59, hprod, hsum⟩, htot⟩ := hfit
  have hd : fitsInt (t - T.startTime) := by
    obtain ⟨_, h2⟩ := h59
    constructor <;> omega
  simp only [Table.release, hocc, Bool.not_true, Bool.false_eq_true, if_false]
  rw [wrapInt_of_fits _ hd, wrapInt_of_fits _ h59, wrapInt_of_fits _ hprod,
    wrapInt_of_fits _ hsum, wrapInt_of_fits _ htot]

/-- C1, counterexample.  A table occupied since 09:00 is released at 10:01,
after 61 minutes, at the rate 2000000000: the amount `2 * 2000000000` is not
an `int`, and the revenue becomes -294967296 instead of `2 * r`.  A table
with the revenue 2147483647 that is released after one minute at the rate 1
ends with the revenue -2147483648.  A table occupied since 00:00 and released
at the minute 2147483647 at the rate 1 is billed -35791393 hours, because the
elapsed time plus 59 is not an `int`.  A table with 2147483647 busy minutes
that is released after one minute ends with -2147483648 busy minutes. -/
theorem release_accounting_counterexample :
    (((⟨1, true, "a", 540, 0, 0⟩ : Table).release 601 2000000000).revenue = -294967296 ∧
      (-294967296 : Int) ≠ 0 + 2 * 2000000000) ∧
    (((⟨1, true, "a", 540, 2147483647, 0⟩ : Table).release 541 1).revenue = -2147483648 ∧
      (-2147483648 : Int) ≠ 2147483647 + 1) ∧
    (((⟨1, true, "a", 0, 0, 0⟩ : Table).release 2147483647 1).revenue = -35791393 ∧
      (-35791393 : Int) ≠ 0 + ⌈((2147483647 - 0 : Int) : ℚ) / 60⌉ * 1) ∧
    (((⟨1, true, "a", 540, 0, 2147483647⟩ : Table).release 541 1).totalTime = -2147483648 ∧
      (-2147483648 : Int) ≠ 2147483647 + (541 - 540)) := by
  have hceil : ⌈((2147483647 - 0 : Int) : ℚ) / 60⌉ = 35791395 := by
    rw [Int.ceil_eq_iff]
    norm_num
  rw [hceil]
  exact ⟨⟨by decide, by decide⟩, ⟨by decide, by decide⟩, ⟨by decide, by decide⟩,
    ⟨by decide, by decide⟩⟩

/-- C1, amended.  `Table.release` accounting: on a table occupied since `s`,
a release at a time `t ≥ s` with a rate `r ≥ 0` for which no operation leaves
the range of a 32-bit `int` (the elapsed time plus 59, the amount billed, the
new revenue and the new busy minutes are in range) adds
`ceil((t - s) / 60) * r` to the revenue and `t - s` to the busy minutes, frees
the table, clears the occupant and keeps the table number; 0 minutes bill
nothing, 1 to 60 minutes bill `r`, 61 minutes bill `2 * r`. -/
theorem release_accounting (T : Table) (s t r : Int)
    (hocc : T.isOccupied = true) (hs : T.startTime = s) (hst : s ≤ t) (_hr : 0 ≤ r)
    (hfit : T.ReleaseFits t r) :
    (T.release t r).revenue = T.revenue + ⌈((t - s : Int) : ℚ) / 60⌉ * r ∧
    (T.release t r).totalTime = T.totalTime + (t - s) ∧
    (T.release t r).isOccupied = false ∧
    (T.release t r).currentClient = "" ∧
    (T.release t r).number = T.number ∧
    (t - s = 0 → (T.release t r).revenue = T.revenue) ∧
    (1 ≤ t - s → t - s ≤ 60 → (T.release t r).revenue = T.revenue + r) ∧
    (t - s = 61 → (T.release t r).revenue = T.revenue + 2 * r) := by
  subst hs
  have hd : 0 ≤ t - T.startTime := by omega
  have hrel := Table.release_of_fits T t r hocc hst hfit
  have hrev : (T.release t r).revenue = T.revenue + (t - T.startTime + 59).tdiv 60 * r := by
    rw [hrel]
  have hdiv : (t - T.startTime + 59).tdiv 60 = (t - T.startTime + 59) / 60 :=
    Int.tdiv_eq_ediv (by omega) (by norm_num)
  refine ⟨?_, ?_, ?_, ?_, ?_, ?_, ?_, ?_⟩
  · rw [hrev, tdiv_add_59_eq_ceil _ hd]
  · rw [hrel]
  · rw [hrel]
  · rw [hrel]
  · rw [hrel]
  · intro h
    rw [hrev, hdiv]
    have : (t - T.startTime + 59) / 60 = 0 := by omega
    rw [this]; simp
  · intro h1 h2
    rw [hrev, hdiv]
    have : (t - T.startTime + 59) / 60 = 1 := by omega
    rw [this]; simp
  · intro h
    rw [hrev, hdiv]
    have : (t - T.startTime + 59) / 60 = 2 := by omega
    rw [this]

/-- Witness for C1: a table occupied since 09:00 and released at 10:01 at
rate 10 is billed two hours. -/
theorem release_accounting_witness :
    ((⟨1, true, "a", 540, 0, 0⟩ : Table).release 601 10).revenue = 0 + 2 * 10 :=
  (release_accounting ⟨1, true, "a", 540, 0, 0⟩ 540 601 10
    (by decide) rfl (by decide) (by decide) (by decide)).2.2.2.2.2.2.2 (by decide)

/-! ### The registry -/

namespace ClientMap

/-- Lookup after the insertion of a new key. -/
theorem find_insertOrdered (m : ClientMap) (k : String) (v : Client) (h : m.find k = none)
    (k' : String) : (m.insertOrdered k v).find k' = if k' = k then some v else m.find k' := by
  induction m with
  | nil =>
    by_cases hk : k' = k
    · subst hk; simp [insertOrdered, find]
    · have hk2 : ¬ k = k' := fun h => hk h.symm
      simp [insertOrdered, find, hk, hk2]
  | cons p rest ih =>
    obtain ⟨a, b⟩ := p
    have ha : a ≠ k := by
      intro hak
      simp [find, hak] at h
    have hrest : find rest k = none := by
      simpa [find, ha] using h
    by_cases hlt : strLess k.data a.data = true
    · by_cases hk : k' = k
      · subst hk; simp [insertOrdered, find, ha, hlt]
      · have hk2 : ¬ k = k' := fun h => hk h.symm
        simp [insertOrdered, find, ha, hlt, hk, hk2]
    · by_cases hk : k' = k
      · subst hk
        simp [insertOrdered, find, ha, hlt, ih hrest]
      · simp [insertOrdered, find, ha, hlt, ih hrest, hk]

/-- The call `emplace` on a registered key changes nothing. -/
theorem emplace_of_find_some (m : ClientMap) (k : String) (v x : Client)
    (h : m.find k = some x) : m.emplace k v = m := by
  simp [emplace, h]

/-- The call `emplace` on a new key inserts it at its place. -/
theorem emplace_of_find_none (m : ClientMap) (k : String) (v : Client)
    (h : m.find k = none) : m.emplace k v = m.insertOrdered k v := by
  simp [emplace, h]

/-- Lookup after `emplace` of a new key. -/
theorem find_emplace_of_none (m : ClientMap) (k : String) (v : Client) (h : m.find k = none)
    (k' : String) : (m.emplace k v).find k' = if k' = k then some v else m.find k' := by
  rw [emplace_of_find_none m k v h, find_insertOrdered m k v h]

/-- Insertion adds one entry and keeps the others. -/
theorem insertOrdered_perm (m : ClientMap) (k : String) (v : Client) :
    (m.insertOrdered k v).Perm ((k, v) :: m) := by
  induction m with
  | nil => simp [insertOrdered]
  | cons p rest ih =>
    obtain ⟨a, b⟩ := p
    by_cases hlt : strLess k.data a.data = true
    · simp [insertOrdered, hlt]
    · simp only [insertOrdered, hlt]
      exact (List.Perm.cons _ ih).trans (List.Perm.swap _ _ _)

/-- Lookup after `erase`. -/
theorem find_erase (m : ClientMap) (k k' : String) :
    (m.erase k).find k' = if k' = k then none else m.find k' := by
  induction m with
  | nil => simp [erase, find]
  | cons p rest ih =>
    obtain ⟨a, b⟩ := p
    by_cases ha : a = k
    · subst ha
      by_cases hk : k' = a
      · subst hk; simpa [erase, find] using ih
      · have hk2 : ¬ a = k' := fun h => hk h.symm
        simpa [erase, find, hk, hk2] using ih
    · by_cases hk : k' = k
      · subst hk
        simpa [erase, find, ha] using ih
      · by_cases hak : a = k'
        · simp [erase, find, ha, hak, hk]
        · simpa [erase, find, ha, hk, hak] using ih

/-- The call `operator[]` on a registered key changes nothing. -/
theorem subscript_of_find_some (m : ClientMap) (k : String) (x : Client)
    (h : m.find k = some x) : m.subscript k = m :=
  emplace_of_find_some m k _ x h

/-- The reference `m[k]` of a registered key is its record. -/
theorem get_of_find_some (m : ClientMap) (k : String) (x : Client)
    (h : m.find k = some x) : m.get k = x := by
  simp [get, subscript_of_find_some m k x h, h]

/-- The reference `m[k]` of a new key is the value-initialised client. -/
theorem get_of_find_none (m : ClientMap) (k : String)
    (h : m.find k = none) : m.get k = Client.default := by
  simp [get, subscript, find_emplace_of_none m k _ h]

/-- Lookup after an assignment to the record of `k`. -/
theorem find_modify (m : ClientMap) (k : String) (f : Client → Client) (k' : String) :
    (m.modify k f).find k' = if k' = k then (m.find k).map f else m.find k' := by
  induction m with
  | nil => simp [find, modify]
  | cons p rest ih =>
    obtain ⟨a, b⟩ := p
    by_cases ha : a = k
    · subst ha
      by_cases hk : k' = a
      · subst hk; simp [find, modify]
      · have hk2 : ¬ a = k' := fun h => hk h.symm
        simp [find, modify, hk, hk2, ih]
    · by_cases hk : k' = k
      · subst hk
        simp [find, modify, ha, ih]
      · by_cases hak : a = k'
        · simp [find, modify, ha, hak, hk]
        · simp [find, modify, ha, hk, hak, ih]

/-- Lookup after an update through `m[k]`. -/
theorem find_update (m : ClientMap) (k : String) (f : Client → Client) (k' : String) :
    (m.update k f).find k' = if k' = k then some (f (m.get k)) else m.find k' := by
  unfold update
  rw [find_modify]
  cases h : m.find k with
  | none =>
    by_cases hk : k' = k
    · simp [hk, subscript, find_emplace_of_none m k _ h, get_of_find_none m k h]
    · simp [hk, subscript, find_emplace_of_none m k _ h]
  | some x =>
    simp [subscript_of_find_some m k x h, h, get_of_find_some m k x h]

end ClientMap

/-! ### Business-rule errors -/

namespace ComputerClub

/-- A valid event has one of the four input kinds with the matching argument shape. -/
theorem validEvent_cases (e : Event) (hv : validEvent e = true) :
    (∃ name, e.id = 1 ∧ e.body = [name]) ∨
    (∃ name arg n, e.id = 2 ∧ e.body = [name, arg] ∧ stoi arg = some n ∧ 0 < n) ∨
    (∃ name rest, e.id = 3 ∧ e.body = name :: rest) ∨
    (∃ name, e.id = 4 ∧ e.body = [name]) := by
  obtain ⟨t, k, body⟩ := e
  unfold validEvent at hv
  simp only [Bool.and_eq_true, decide_eq_true_eq] at hv
  obtain ⟨_, hshape⟩ := hv
  split_ifs at hshape with h1 h2 h3 h4
  · left
    split at hshape
    · exact ⟨_, h1, rfl⟩
    · cases hshape
  · right; left
    split at hshape
    · rename_i name arg
      simp only [Bool.and_eq_true] at hshape
      obtain ⟨_, hs⟩ := hshape
      split at hs
      · rename_i n hn
        exact ⟨name, arg, n, h2, rfl, hn, by simpa using hs⟩
      · cases hs
    · cases hshape
  · right; right; left
    split at hshape
    · exact ⟨_, _, h3, rfl⟩
    · cases hshape
  · right; right; right
    split at hshape
    · exact ⟨_, h4, rfl⟩
    · cases hshape

/-- A call of `processEvent` on a valid event either answers with an error
event and changes nothing else, or emits no event of kind 13. -/
theorem error_or_quiet (c c1 : ComputerClub) (e : Event) (hv : validEvent e = true)
    (hp : c.processEvent e = some c1) :
    (∃ code : String,
      c1 = { c with outputEvents := c.outputEvents ++ [e, errorEvent e.time code] }) ∨
    (∀ x ∈ emitted c c1, x.id ≠ 13) := by
  obtain ⟨t, k, body⟩ := e
  rcases validEvent_cases _ hv with ⟨name, hk, hb⟩ | ⟨name, arg, n, hk, hb, hst, hn⟩ |
    ⟨name, rest, hk, hb⟩ | ⟨name, hk, hb⟩
  · simp only at hk hb
    subst hk hb
    simp only [processEvent, processClientArrived, if_true] at hp
    repeat' split at hp
    all_goals first
      | (cases hp; left;
         simp only [addErrorEvent, errorEvent, List.append_assoc, List.singleton_append];
         exact ⟨_, rfl⟩)
      | (cases hp; right; intro x hx; simp [emitted] at hx; subst hx; simp)
  · simp only at hk hb
    subst hk hb
    simp only [processEvent, processClientSat, hst, if_true, if_false,
      show ¬ ((2 : Int) = 1) by decide] at hp
    repeat' split at hp
    all_goals first
      | (cases hp; done)
      | (cases hp; left;
         simp only [addErrorEvent, errorEvent, List.append_assoc, List.singleton_append];
         exact ⟨_, rfl⟩)
      | (cases hp; right; intro x hx; simp [emitted] at hx; subst hx; simp)
  · simp only at hk hb
    subst hk hb
    simp only [processEvent, processClientWaiting, if_true, if_false,
      show ¬ ((3 : Int) = 1) by decide, show ¬ ((3 : Int) = 2) by decide] at hp
    repeat' split at hp
    all_goals first
      | (cases hp; done)
      | (cases hp; left;
         simp only [addErrorEvent, errorEvent, List.append_assoc, List.singleton_append];
         exact ⟨_, rfl⟩)
      | (cases hp; right; intro x hx; simp [emitted] at hx; subst hx; simp)
      | (cases hp; right; intro x hx; simp [emitted] at hx; rcases hx with hx | hx <;> subst hx <;> simp)
  · simp only at hk hb
    subst hk hb
    simp only [processEvent, processClientLeft, if_true, if_false,
      show ¬ ((4 : Int) = 1) by decide, show ¬ ((4 : Int) = 2) by decide,
      show ¬ ((4 : Int) = 3) by decide] at hp
    repeat' split at hp
    all_goals first
      | (cases hp; done)
      | (cases hp; left;
         simp only [addErrorEvent, errorEvent, List.append_assoc, List.singleton_append];
         exact ⟨_, rfl⟩)
      | (cases hp; right; intro x hx; simp [emitted] at hx; subst hx; simp)
      | (cases hp; right; intro x hx; simp [emitted] at hx; rcases hx with hx | hx <;> subst hx <;> simp)

/-- C2. Business-rule errors are atomic: when `processEvent` on a valid
event emits an event of kind 13, the tables, the registry and the waiting
queue are as before the call, and `outputEvents` has grown by two entries,
the event itself followed by one event of kind 13 that carries the time of
the event and a single error code. -/
theorem error_atomic (c c1 : ComputerClub) (e : Event) (hv : validEvent e = true)
    (hp : c.processEvent e = some c1)
    (herr : ∃ x ∈ emitted c c1, x.id = 13) :
    c1.tables = c.tables ∧ c1.clients = c.clients ∧ c1.waitingQueue = c.waitingQueue ∧
    c1.openTime = c.openTime ∧ c1.closeTime = c.closeTime ∧ c1.rent = c.rent ∧
    ∃ code : String,
      c1.outputEvents = c.outputEvents ++ [e, { time := e.time, id := 13, body := [code] }] := by
  rcases error_or_quiet c c1 e hv hp with ⟨code, hc⟩ | hq
  · subst hc
    exact ⟨rfl, rfl, rfl, rfl, rfl, rfl, code, rfl⟩
  · obtain ⟨x, hx, hx13⟩ := herr
    exact absurd hx13 (hq x hx)

/-- Witness for C2: the arrival `08:48 1 client1` at a club that opens at
09:00 is answered with `NotOpenYet` and changes nothing but the output. -/
theorem error_atomic_witness :
    exampleClubRejected.tables = exampleClub.tables ∧
    exampleClubRejected.clients = exampleClub.clients ∧
    exampleClubRejected.waitingQueue = exampleClub.waitingQueue ∧
    exampleClubRejected.openTime = exampleClub.openTime ∧
    exampleClubRejected.closeTime = exampleClub.closeTime ∧
    exampleClubRejected.rent = exampleClub.rent ∧
    ∃ code : String, exampleClubRejected.outputEvents =
      exampleClub.outputEvents ++
        [⟨528, 1, ["client1"]⟩, { time := 528, id := 13, body := [code] }] :=
  error_atomic exampleClub exampleClubRejected ⟨528, 1, ["client1"]⟩ (by decide) (by decide)
    ⟨⟨528, 13, ["NotOpenYet"]⟩, by decide, rfl⟩

end ComputerClub

/-! ### Arrival -/

namespace ComputerClub

/-- An arrival of a registered client is answered with `YouShallNotPass`. -/
theorem arrived_registered (c : ComputerClub) (t : Int) (name : String) (rest : List String)
    (hreg : c.isClientInClub name = true) :
    c.processEvent ⟨t, 1, name :: rest⟩ = some
      { c with outputEvents :=
          c.outputEvents ++ [⟨t, 1, name :: rest⟩, errorEvent t "YouShallNotPass"] } := by
  have h : (c.clients.find name).isSome = true := hreg
  simp [processEvent, processClientArrived, isClientInClub, h, addErrorEvent, errorEvent]

/-- An arrival outside the opening hours is answered with `NotOpenYet`. -/
theorem arrived_closed (c : ComputerClub) (t : Int) (name : String) (rest : List String)
    (hreg : c.isClientInClub name = false) (htime : t < c.openTime ∨ t ≥ c.closeTime) :
    c.processEvent ⟨t, 1, name :: rest⟩ = some
      { c with outputEvents :=
          c.outputEvents ++ [⟨t, 1, name :: rest⟩, errorEvent t "NotOpenYet"] } := by
  have h : (c.clients.find name).isSome = false := hreg
  simp only [processEvent, processClientArrived, isClientInClub, h, if_true]
  simp [htime, addErrorEvent, errorEvent]

/-- An arrival of a new client within the opening hours registers the client. -/
theorem arrived_accepted (c : ComputerClub) (t : Int) (name : String) (rest : List String)
    (hreg : c.isClientInClub name = false) (htime : ¬ (t < c.openTime ∨ t ≥ c.closeTime)) :
    c.processEvent ⟨t, 1, name :: rest⟩ = some
      { c with
        outputEvents := c.outputEvents ++ [⟨t, 1, name :: rest⟩]
        clients := c.clients.emplace name (Client.new name t) } := by
  have h : (c.clients.find name).isSome = false := hreg
  simp only [processEvent, processClientArrived, isClientInClub, h, if_true]
  simp [htime]

/-- C3. Arrived rule: `YouShallNotPass` is emitted exactly when the name is
registered, whatever the time; for an unregistered name `NotOpenYet` is
emitted exactly when the time is before `openTime` or not before `closeTime`;
otherwise only the echo is emitted and the registry is the old one plus the
name, mapped to a client with `arrivalTime = t` and no seat.  An arrival
rejected with `NotOpenYet` leaves the name unregistered, and a following
arrival of that name inside the opening hours is accepted. -/
theorem arrived_rule (c : ComputerClub) (t : Int) (name : String) :
    (emitsError c ⟨t, 1, [name]⟩ "YouShallNotPass" ↔ c.isClientInClub name = true) ∧
    (c.isClientInClub name = false →
      (emitsError c ⟨t, 1, [name]⟩ "NotOpenYet" ↔ (t < c.openTime ∨ t ≥ c.closeTime))) ∧
    (c.isClientInClub name = false → ¬ (t < c.openTime ∨ t ≥ c.closeTime) →
      ∃ c1, c.processEvent ⟨t, 1, [name]⟩ = some c1 ∧
        emitted c c1 = [⟨t, 1, [name]⟩] ∧
        (∀ k, c1.clients.find k =
          if k = name then some { name := name, arrivalTime := t, tableNumber := -1 }
          else c.clients.find k) ∧
        c1.clients.Perm
          ((name, { name := name, arrivalTime := t, tableNumber := -1 }) :: c.clients) ∧
        c1.tables = c.tables ∧ c1.waitingQueue = c.waitingQueue) ∧
    (c.isClientInClub name = false → (t < c.openTime ∨ t ≥ c.closeTime) →
      ∃ c1, c.processEvent ⟨t, 1, [name]⟩ = some c1 ∧
        c1.isClientInClub name = false ∧
        ∀ t2 : Int, c1.openTime ≤ t2 → t2 < c1.closeTime →
          ∃ c2, c1.processEvent ⟨t2, 1, [name]⟩ = some c2 ∧
            emitted c1 c2 = [⟨t2, 1, [name]⟩] ∧
            c2.clients.find name =
              some { name := name, arrivalTime := t2, tableNumber := -1 }) := by
  refine ⟨?_, ?_, ?_, ?_⟩
  · constructor
    · rintro ⟨c1, h1, hmem⟩
      by_contra hreg
      have hreg : c.isClientInClub name = false := by simpa using hreg
      by_cases htime : t < c.openTime ∨ t ≥ c.closeTime
      · rw [arrived_closed c t name [] hreg htime] at h1
        cases h1
        simp [emitted, errorEvent] at hmem
      · rw [arrived_accepted c t name [] hreg htime] at h1
        cases h1
        simp [emitted, errorEvent] at hmem
    · intro hreg
      refine ⟨_, arrived_registered c t name [] hreg, ?_⟩
      simp [emitted, errorEvent]
  · intro hreg
    constructor
    · rintro ⟨c1, h1, hmem⟩
      by_contra htime
      rw [arrived_accepted c t name [] hreg htime] at h1
      cases h1
      simp [emitted, errorEvent] at hmem
    · intro htime
      refine ⟨_, arrived_closed c t name [] hreg htime, ?_⟩
      simp [emitted, errorEvent]
  · intro hreg htime
    have hnone : c.clients.find name = none := by
      simpa [isClientInClub] using hreg
    refine ⟨_, arrived_accepted c t name [] hreg htime, ?_, ?_, ?_, rfl, rfl⟩
    · simp [emitted]
    · intro k
      simpa [Client.new] using ClientMap.find_emplace_of_none c.clients name _ hnone k
    · simp only
      rw [ClientMap.emplace_of_find_none _ _ _ hnone]
      exact ClientMap.insertOrdered_perm _ _ _
  · intro hreg htime
    refine ⟨_, arrived_closed c t name [] hreg htime, hreg, ?_⟩
    intro t2 ho hc
    have htime2 : ¬ (t2 < c.openTime ∨ t2 ≥ c.closeTime) := by
      simp only at ho hc
      omega
    have hnone : c.clients.find name = none := by
      simpa [isClientInClub] using hreg
    refine ⟨_, arrived_accepted _ t2 name [] hreg htime2, ?_, ?_⟩
    · simp [emitted]
    · simpa [Client.new] using ClientMap.find_emplace_of_none c.clients name _ hnone name

/-- Witness for C3: the scenario of the specification.  `client1` is turned
away at 08:48 and stays unregistered, so that an arrival inside the opening
hours is accepted afterwards. -/
theorem arrived_rule_witness :
    ∃ c1, exampleClub.processEvent ⟨528, 1, ["client1"]⟩ = some c1 ∧
      c1.isClientInClub "client1" = false ∧
      ∀ t2 : Int, c1.openTime ≤ t2 → t2 < c1.closeTime →
        ∃ c2, c1.processEvent ⟨t2, 1, ["client1"]⟩ = some c2 ∧
          emitted c1 c2 = [⟨t2, 1, ["client1"]⟩] ∧
          c2.clients.find "client1" =
            some { name := "client1", arrivalTime := t2, tableNumber := -1 } :=
  (arrived_rule exampleClub 528 "client1").2.2.2 (by decide) (by decide)

end ComputerClub

/-! ### The example states are states of a run -/

/-- The constructor builds `exampleClub`. -/
theorem exampleClub_new : ComputerClub.new 1 "09:00" "19:00" 10 = some exampleClub := by
  decide

/-- The run that leads to `exampleClubRejected`. -/
theorem exampleClubRejected_run :
    processEvents exampleClub [⟨528, 1, ["client1"]⟩] = some exampleClubRejected := by
  decide

/-- The run that leads to `exampleClubSeated`. -/
theorem exampleClubSeated_run :
    processEvents exampleClub [⟨540, 1, ["A"]⟩, ⟨541, 2, ["A", "1"]⟩] =
      some exampleClubSeated := by
  decide

/-! ### Taking a seat -/

/-- Reading `tables[n - 1]` for a positive `n`. -/
theorem vecGet_eq_getElem? (ts : List Table) (n : Int) (h1 : 1 ≤ n) :
    vecGet ts (n - 1) = ts[(n - 1).toNat]? := by
  simp [vecGet]; omega

/-- A table number within range names a table. -/
theorem vecGet_isSome (ts : List Table) (n : Int) (h1 : 1 ≤ n) (h2 : n ≤ ts.length) :
    ∃ T, vecGet ts (n - 1) = some T := by
  rw [vecGet_eq_getElem? ts n h1]
  have hlt : (n - 1).toNat < ts.length := by omega
  exact ⟨ts[(n - 1).toNat], List.getElem?_eq_getElem hlt⟩

/-- A subscript that names a table is within range. -/
theorem vecGet_some_bounds (ts : List Table) (i : Int) (T : Table)
    (h : vecGet ts i = some T) : 0 ≤ i ∧ i < ts.length := by
  unfold vecGet at h
  split_ifs at h with h0
  have := (List.getElem?_eq_some.1 h).1
  omega

namespace ComputerClub

/-- The method `isTableNumberValid` tests `1 ≤ n ≤ capacity`. -/
theorem isTableNumberValid_iff (c : ComputerClub) (n : Int) :
    c.isTableNumberValid n = true ↔ 1 ≤ n ∧ n ≤ c.tables.length := by
  simp [isTableNumberValid]

/-- A seat request of an unregistered client is answered with `ClientUnknown`. -/
theorem sat_unknown (c : ComputerClub) (t : Int) (name arg : String) (n : Int)
    (hst : stoi arg = some n) (hreg : c.isClientInClub name = false) :
    c.processEvent ⟨t, 2, [name, arg]⟩ = some
      { c with outputEvents :=
          c.outputEvents ++ [⟨t, 2, [name, arg]⟩, errorEvent t "ClientUnknown"] } := by
  have h : (c.clients.find name).isSome = false := hreg
  simp [processEvent, processClientSat, hst, isClientInClub, h, addErrorEvent, errorEvent]

/-- A seat request for a table number out of range is answered with `PlaceIsBusy`. -/
theorem sat_invalid (c : ComputerClub) (t : Int) (name arg : String) (n : Int)
    (hst : stoi arg = some n) (hreg : c.isClientInClub name = true)
    (hval : c.isTableNumberValid n = false) :
    c.processEvent ⟨t, 2, [name, arg]⟩ = some
      { c with outputEvents :=
          c.outputEvents ++ [⟨t, 2, [name, arg]⟩, errorEvent t "PlaceIsBusy"] } := by
  have h : (c.clients.find name).isSome = true := hreg
  have hv : (decide (1 ≤ n) && decide (n ≤ (c.tables.length : Int))) = false := hval
  simp [processEvent, processClientSat, hst, isClientInClub, h, isTableNumberValid, hv,
    addErrorEvent, errorEvent]

/-- A seat request for an occupied table is answered with `PlaceIsBusy`. -/
theorem sat_busy (c : ComputerClub) (t : Int) (name arg : String) (n : Int) (T : Table)
    (hst : stoi arg = some n) (hreg : c.isClientInClub name = true)
    (hval : c.isTableNumberValid n = true) (hget : vecGet c.tables (n - 1) = some T)
    (hocc : T.isOccupied = true) :
    c.processEvent ⟨t, 2, [name, arg]⟩ = some
      { c with outputEvents :=
          c.outputEvents ++ [⟨t, 2, [name, arg]⟩, errorEvent t "PlaceIsBusy"] } := by
  have h : (c.clients.find name).isSome = true := hreg
  have hv : (decide (1 ≤ n) && decide (n ≤ (c.tables.length : Int))) = true := hval
  simp [processEvent, processClientSat, hst, isClientInClub, h, isTableNumberValid, hv,
    hget, hocc, addErrorEvent, errorEvent]

/-- A seat request for a free table: the previous table of the client, if
any, is released, then the requested table is occupied. -/
theorem sat_free (c : ComputerClub) (t : Int) (name arg : String) (n : Int) (T : Table)
    (hst : stoi arg = some n) (hreg : c.isClientInClub name = true)
    (hval : c.isTableNumberValid n = true) (hget : vecGet c.tables (n - 1) = some T)
    (hfree : T.isOccupied = false) :
    c.processEvent ⟨t, 2, [name, arg]⟩ =
      match (if (c.clients.get name).isSeated = true then
          vecModify c.tables ((c.clients.get name).tableNumber - 1)
            (fun T => T.forceRelease t c.rent)
        else some c.tables) with
      | none => none
      | some tables1 =>
        match vecModify tables1 (n - 1) (fun T => T.occupy name t) with
        | none => none
        | some tables2 =>
          some { c with
            outputEvents := c.outputEvents ++ [⟨t, 2, [name, arg]⟩]
            tables := tables2
            clients := c.clients.update name (fun cl => cl.setTable n) } := by
  have h : (c.clients.find name).isSome = true := hreg
  have hv : (decide (1 ≤ n) && decide (n ≤ (c.tables.length : Int))) = true := hval
  simp [processEvent, processClientSat, hst, isClientInClub, h, isTableNumberValid, hv,
    hget, hfree]

/-- A seat request that is granted emits nothing beyond the echo. -/
theorem sat_free_emitted (c c1 : ComputerClub) (t : Int) (name arg : String) (n : Int)
    (T : Table) (hst : stoi arg = some n) (hreg : c.isClientInClub name = true)
    (hval : c.isTableNumberValid n = true) (hget : vecGet c.tables (n - 1) = some T)
    (hfree : T.isOccupied = false) (hp : c.processEvent ⟨t, 2, [name, arg]⟩ = some c1) :
    emitted c c1 = [⟨t, 2, [name, arg]⟩] := by
  rw [sat_free c t name arg n T hst hreg hval hget hfree] at hp
  repeat' split at hp
  all_goals first
    | (cases hp; done)
    | (cases hp; simp [emitted])

/-- C4. Sat error rule, for an event `Sat(name, n)` whose table argument
reads as the positive number `n`: `ClientUnknown` is emitted exactly when the
name is not registered; for a registered name `PlaceIsBusy` is emitted exactly
when `n` is outside `[1, capacity]` or table `n` is occupied, also when its
occupant is `name` itself; both cases produce the same code `PlaceIsBusy`. -/
theorem sat_error_rule (c : ComputerClub) (t : Int) (name arg : String) (n : Int)
    (hst : stoi arg = some n) (_hn : 0 < n) :
    (emitsError c ⟨t, 2, [name, arg]⟩ "ClientUnknown" ↔ c.isClientInClub name = false) ∧
    (c.isClientInClub name = true →
      (emitsError c ⟨t, 2, [name, arg]⟩ "PlaceIsBusy" ↔
        (¬ (1 ≤ n ∧ n ≤ c.tables.length) ∨
          ∃ T, vecGet c.tables (n - 1) = some T ∧ T.isOccupied = true))) ∧
    (c.isClientInClub name = true →
      ∀ T, vecGet c.tables (n - 1) = some T → T.isOccupied = true → T.currentClient = name →
        emitsError c ⟨t, 2, [name, arg]⟩ "PlaceIsBusy") := by
  have hbusy : c.isClientInClub name = true →
      (¬ (1 ≤ n ∧ n ≤ c.tables.length) ∨
          ∃ T, vecGet c.tables (n - 1) = some T ∧ T.isOccupied = true) →
      emitsError c ⟨t, 2, [name, arg]⟩ "PlaceIsBusy" := by
    intro hreg hcond
    by_cases hval : c.isTableNumberValid n = true
    · rcases hcond with hnv | ⟨T, hget, hocc⟩
      · exact absurd ((isTableNumberValid_iff c n).1 hval) hnv
      · exact ⟨_, sat_busy c t name arg n T hst hreg hval hget hocc, by simp [emitted, errorEvent]⟩
    · have hval : c.isTableNumberValid n = false := by simpa using hval
      exact ⟨_, sat_invalid c t name arg n hst hreg hval, by simp [emitted, errorEvent]⟩
  refine ⟨?_, ?_, ?_⟩
  · constructor
    · rintro ⟨c1, h1, hmem⟩
      by_contra hreg
      have hreg : c.isClientInClub name = true := by simpa using hreg
      by_cases hval : c.isTableNumberValid n = true
      · obtain ⟨h1n, h2n⟩ := (isTableNumberValid_iff c n).1 hval
        obtain ⟨T, hget⟩ := vecGet_isSome c.tables n h1n h2n
        by_cases hocc : T.isOccupied = true
        · rw [sat_busy c t name arg n T hst hreg hval hget hocc] at h1
          cases h1
          simp [emitted, errorEvent] at hmem
        · have hocc : T.isOccupied = false := by simpa using hocc
          rw [sat_free_emitted c c1 t name arg n T hst hreg hval hget hocc h1] at hmem
          simp [errorEvent] at hmem
      · have hval : c.isTableNumberValid n = false := by simpa using hval
        rw [sat_invalid c t name arg n hst hreg hval] at h1
        cases h1
        simp [emitted, errorEvent] at hmem
    · intro hreg
      exact ⟨_, sat_unknown c t name arg n hst hreg, by simp [emitted, errorEvent]⟩
  · intro hreg
    constructor
    · rintro ⟨c1, h1, hmem⟩
      by_contra hcond
      push_neg at hcond
      obtain ⟨⟨h1n, h2n⟩, hfreeAll⟩ := hcond
      have hval : c.isTableNumberValid n = true := (isTableNumberValid_iff c n).2 ⟨h1n, h2n⟩
      obtain ⟨T, hget⟩ := vecGet_isSome c.tables n h1n h2n
      have hocc : T.isOccupied = false := by simpa using hfreeAll T hget
      rw [sat_free_emitted c c1 t name arg n T hst hreg hval hget hocc h1] at hmem
      simp [errorEvent] at hmem
    · exact hbusy hreg
  · intro hreg T hget hocc _
    exact hbusy hreg (Or.inr ⟨T, hget, hocc⟩)

/-- Witness for C4: client `A` sits at table 1 and asks for table 1 again. -/
theorem sat_error_rule_witness :
    emitsError exampleClubSeated ⟨545, 2, ["A", "1"]⟩ "PlaceIsBusy" :=
  (sat_error_rule exampleClubSeated 545 "A" "1" 1 (by decide) (by decide)).2.2
    (by decide) ⟨1, true, "A", 541, 0, 0⟩ (by decide) (by decide) (by decide)

end ComputerClub

/-! ### Outcomes of `processEvent` -/

/-- A method call on `tables[i]` with `i` in range. -/
theorem vecModify_some (ts : List Table) (i : Int) (f : Table → Table)
    (h0 : 0 ≤ i) (h1 : i < ts.length) :
    vecModify ts i f = some (ts.modify f i.toNat) := by
  simp [vecModify, h0, h1]

/-- A method call on `tables[i]` that returns had `i` in range. -/
theorem vecModify_eq_some (ts ts1 : List Table) (i : Int) (f : Table → Table)
    (h : vecModify ts i f = some ts1) :
    0 ≤ i ∧ i < ts.length ∧ ts1 = ts.modify f i.toNat := by
  unfold vecModify at h
  split_ifs at h with hc
  cases h
  exact ⟨hc.1, hc.2, rfl⟩

namespace ComputerClub

/-- The method `isClientInClub` holds for the registered names. -/
theorem isClientInClub_eq_true (c : ComputerClub) (name : String) :
    c.isClientInClub name = true ↔ ∃ cl, c.clients.find name = some cl := by
  simp [isClientInClub, Option.isSome_iff_exists]

/-- The method `isClientInClub` fails for the other names. -/
theorem isClientInClub_eq_false (c : ComputerClub) (name : String) :
    c.isClientInClub name = false ↔ c.clients.find name = none := by
  simp [isClientInClub]

/-- A waiting request of an unregistered client is answered with `ClientUnknown`. -/
theorem waiting_unknown (c : ComputerClub) (t : Int) (name : String) (rest : List String)
    (hreg : c.isClientInClub name = false) :
    c.processEvent ⟨t, 3, name :: rest⟩ = some
      { c with outputEvents :=
          c.outputEvents ++ [⟨t, 3, name :: rest⟩, errorEvent t "ClientUnknown"] } := by
  have h : (c.clients.find name).isSome = false := hreg
  simp [processEvent, processClientWaiting, isClientInClub, h, addErrorEvent, errorEvent]

/-- A waiting request while a table is free is answered with `ICanWaitNoLonger!`. -/
theorem waiting_free (c : ComputerClub) (t : Int) (name : String) (rest : List String)
    (hreg : c.isClientInClub name = true) (hfree : c.hasFreeTables = true) :
    c.processEvent ⟨t, 3, name :: rest⟩ = some
      { c with outputEvents :=
          c.outputEvents ++ [⟨t, 3, name :: rest⟩, errorEvent t "ICanWaitNoLonger!"] } := by
  have h : (c.clients.find name).isSome = true := hreg
  have hf : (c.tables.any fun T => !T.isOccupied) = true := hfree
  simp [processEvent, processClientWaiting, isClientInClub, h, hasFreeTables, hf,
    addErrorEvent, errorEvent]

/-- A waiting request with a full queue: the client is sent away. -/
theorem waiting_overflow (c : ComputerClub) (t : Int) (name : String) (rest : List String)
    (hreg : c.isClientInClub name = true) (hfree : c.hasFreeTables = false)
    (hfull : c.tables.length ≤ c.waitingQueue.length) :
    c.processEvent ⟨t, 3, name :: rest⟩ = some
      { c with
        outputEvents := c.outputEvents ++ [⟨t, 3, name :: rest⟩, leftEvent t name]
        clients := c.clients.erase name } := by
  have h : (c.clients.find name).isSome = true := hreg
  have hf : (c.tables.any fun T => !T.isOccupied) = false := hfree
  simp only [processEvent, processClientWaiting, isClientInClub, h, hasFreeTables, hf]
  simp [hfull, leftEvent]

/-- A waiting request with room in the queue: the name is appended. -/
theorem waiting_enqueued (c : ComputerClub) (t : Int) (name : String) (rest : List String)
    (hreg : c.isClientInClub name = true) (hfree : c.hasFreeTables = false)
    (hroom : c.waitingQueue.length < c.tables.length) :
    c.processEvent ⟨t, 3, name :: rest⟩ = some
      { c with
        outputEvents := c.outputEvents ++ [⟨t, 3, name :: rest⟩]
        waitingQueue := c.waitingQueue ++ [name] } := by
  have h : (c.clients.find name).isSome = true := hreg
  have hf : (c.tables.any fun T => !T.isOccupied) = false := hfree
  have hnot : ¬ c.tables.length ≤ c.waitingQueue.length := by omega
  simp only [processEvent, processClientWaiting, isClientInClub, h, hasFreeTables, hf]
  simp [hnot]

/-- A departure of an unregistered client is answered with `ClientUnknown`. -/
theorem left_unknown (c : ComputerClub) (t : Int) (name : String) (rest : List String)
    (hreg : c.isClientInClub name = false) :
    c.processEvent ⟨t, 4, name :: rest⟩ = some
      { c with outputEvents :=
          c.outputEvents ++ [⟨t, 4, name :: rest⟩, errorEvent t "ClientUnknown"] } := by
  have h : (c.clients.find name).isSome = false := hreg
  simp [processEvent, processClientLeft, isClientInClub, h, addErrorEvent, errorEvent]

/-- A departure of a client without a seat removes the client. -/
theorem left_unseated (c : ComputerClub) (t : Int) (name : String) (rest : List String)
    (cl : Client) (hcl : c.clients.find name = some cl) (hs : cl.isSeated = false) :
    c.processEvent ⟨t, 4, name :: rest⟩ = some
      { c with
        outputEvents := c.outputEvents ++ [⟨t, 4, name :: rest⟩]
        clients := c.clients.erase name } := by
  have hg : c.clients.get name = cl := ClientMap.get_of_find_some _ _ _ hcl
  have hsub : c.clients.subscript name = c.clients := ClientMap.subscript_of_find_some _ _ _ hcl
  simp [processEvent, processClientLeft, isClientInClub, hcl, hg, hs, hsub]

/-- A departure of a seated client: the table is released and, when the
queue is not empty, handed to its first client. -/
theorem left_seated (c : ComputerClub) (t : Int) (name : String) (rest : List String)
    (cl : Client) (hcl : c.clients.find name = some cl) (hs : cl.isSeated = true) :
    c.processEvent ⟨t, 4, name :: rest⟩ =
      match vecModify c.tables (cl.tableNumber - 1) (fun P => P.release t c.rent) with
      | none => none
      | some tables1 =>
        match c.waitingQueue with
        | [] =>
          some { c with
            outputEvents := c.outputEvents ++ [⟨t, 4, name :: rest⟩]
            tables := tables1
            clients := c.clients.erase name }
        | nextClient :: more =>
          match vecModify tables1 (cl.tableNumber - 1) (fun P => P.occupy nextClient t) with
          | none => none
          | some tables2 =>
            some { c with
              outputEvents := c.outputEvents ++
                [⟨t, 4, name :: rest⟩,
                 { time := t, id := 12, body := [nextClient, to_string cl.tableNumber] }]
              tables := tables2
              waitingQueue := more
              clients :=
                (c.clients.update nextClient (fun x => x.setTable cl.tableNumber)).erase
                  name } := by
  have hg : c.clients.get name = cl := ClientMap.get_of_find_some _ _ _ hcl
  have hsub : c.clients.subscript name = c.clients := ClientMap.subscript_of_find_some _ _ _ hcl
  simp only [processEvent, processClientLeft, isClientInClub, hcl, hg, hs, hsub]
  simp only [show ¬ ((4 : Int) = 1) by decide, show ¬ ((4 : Int) = 2) by decide,
    show ¬ ((4 : Int) = 3) by decide, if_true, if_false, Option.isSome_some, Bool.not_true,
    Bool.false_eq_true]
  cases vecModify c.tables (cl.tableNumber - 1) (fun P => P.release t c.rent) with
  | none => rfl
  | some tables1 =>
    simp only
    cases c.waitingQueue with
    | nil => rfl
    | cons q more =>
      simp only
      cases vecModify tables1 (cl.tableNumber - 1) (fun P => P.occupy q t) with
      | none => rfl
      | some tables2 => simp

/-- Every return of `processEvent` on a valid event is one of the outcomes. -/
theorem processEvent_outcome (c c1 : ComputerClub) (e : Event) (hv : validEvent e = true)
    (hp : c.processEvent e = some c1) : Outcome c e c1 := by
  obtain ⟨t, k, body⟩ := e
  rcases validEvent_cases _ hv with ⟨name, hk, hb⟩ | ⟨name, arg, n, hk, hb, hst, hn⟩ |
    ⟨name, rest, hk, hb⟩ | ⟨name, hk, hb⟩
  · simp only at hk hb
    subst hk hb
    by_cases hreg : c.isClientInClub name = true
    · rw [arrived_registered c t name [] hreg] at hp
      cases hp
      exact Outcome.error _
    · have hreg : c.isClientInClub name = false := by simpa using hreg
      by_cases htime : t < c.openTime ∨ t ≥ c.closeTime
      · rw [arrived_closed c t name [] hreg htime] at hp
        cases hp
        exact Outcome.error _
      · rw [arrived_accepted c t name [] hreg htime] at hp
        cases hp
        exact Outcome.arrived name rfl rfl ((isClientInClub_eq_false c name).1 hreg)
          (by simp only; omega)
  · simp only at hk hb
    subst hk hb
    by_cases hreg : c.isClientInClub name = true
    · obtain ⟨cl, hcl⟩ := (isClientInClub_eq_true c name).1 hreg
      by_cases hval : c.isTableNumberValid n = true
      · obtain ⟨h1n, h2n⟩ := (isTableNumberValid_iff c n).1 hval
        obtain ⟨T, hget⟩ := vecGet_isSome c.tables n h1n h2n
        by_cases hocc : T.isOccupied = true
        · rw [sat_busy c t name arg n T hst hreg hval hget hocc] at hp
          cases hp
          exact Outcome.error _
        · have hocc : T.isOccupied = false := by simpa using hocc
          rw [sat_free c t name arg n T hst hreg hval hget hocc] at hp
          have hget2 : c.clients.get name = cl := ClientMap.get_of_find_some _ _ _ hcl
          rw [hget2] at hp
          have hupd : c.clients.update name (fun x => x.setTable n) =
              c.clients.modify name (fun x => x.setTable n) := by
            simp [ClientMap.update, ClientMap.subscript_of_find_some _ _ _ hcl]
          rw [hupd] at hp
          by_cases hs : cl.isSeated = true
          · simp only [hs, if_true] at hp
            split at hp
            · cases hp
            · rename_i tables1 h1
              obtain ⟨hb0, hb1, rfl⟩ := vecModify_eq_some _ _ _ _ h1
              split at hp
              · cases hp
              · rename_i tables2 h2
                obtain ⟨_, _, rfl⟩ := vecModify_eq_some _ _ _ _ h2
                cases hp
                have := Outcome.sat (c := c) (e := ⟨t, 2, [name, arg]⟩) name arg n cl T rfl rfl
                  hst hcl h1n h2n hget hocc (fun _ => ⟨hb0, hb1⟩)
                simpa [hs] using this
          · have hs : cl.isSeated = false := by simpa using hs
            simp only [hs] at hp
            split at hp
            · cases hp
            · rename_i tables1 h1
              simp only [Bool.false_eq_true, if_false, Option.some.injEq] at h1
              subst h1
              split at hp
              · cases hp
              · rename_i tables2 h2
                obtain ⟨_, _, rfl⟩ := vecModify_eq_some _ _ _ _ h2
                cases hp
                have := Outcome.sat (c := c) (e := ⟨t, 2, [name, arg]⟩) name arg n cl T rfl rfl
                  hst hcl h1n h2n hget hocc (fun h => by simp [hs] at h)
                simpa [hs] using this
      · have hval : c.isTableNumberValid n = false := by simpa using hval
        rw [sat_invalid c t name arg n hst hreg hval] at hp
        cases hp
        exact Outcome.error _
    · have hreg : c.isClientInClub name = false := by simpa using hreg
      rw [sat_unknown c t name arg n hst hreg] at hp
      cases hp
      exact Outcome.error _
  · simp only at hk hb
    subst hk hb
    by_cases hreg : c.isClientInClub name = true
    · obtain ⟨cl, hcl⟩ := (isClientInClub_eq_true c name).1 hreg
      by_cases hfree : c.hasFreeTables = true
      · rw [waiting_free c t name rest hreg hfree] at hp
        cases hp
        exact Outcome.error _
      · have hfree : c.hasFreeTables = false := by simpa using hfree
        by_cases hfull : c.tables.length ≤ c.waitingQueue.length
        · rw [waiting_overflow c t name rest hreg hfree hfull] at hp
          cases hp
          exact Outcome.overflow name rest cl rfl rfl hcl hfree hfull
        · have hroom : c.waitingQueue.length < c.tables.length := by omega
          rw [waiting_enqueued c t name rest hreg hfree hroom] at hp
          cases hp
          exact Outcome.enqueued name rest cl rfl rfl hcl hfree hroom
    · have hreg : c.isClientInClub name = false := by simpa using hreg
      rw [waiting_unknown c t name rest hreg] at hp
      cases hp
      exact Outcome.error _
  · simp only at hk hb
    subst hk hb
    by_cases hreg : c.isClientInClub name = true
    · obtain ⟨cl, hcl⟩ := (isClientInClub_eq_true c name).1 hreg
      by_cases hs : cl.isSeated = true
      · rw [left_seated c t name [] cl hcl hs] at hp
        split at hp
        · cases hp
        · rename_i tables1 h1
          obtain ⟨hb0, hb1, rfl⟩ := vecModify_eq_some _ _ _ _ h1
          split at hp
          · rename_i hq
            cases hp
            exact Outcome.leftFreed name cl rfl rfl hcl hs hb0 hb1 hq
          · rename_i q more hq
            split at hp
            · cases hp
            · rename_i tables2 h2
              obtain ⟨_, _, rfl⟩ := vecModify_eq_some _ _ _ _ h2
              cases hp
              exact Outcome.leftReseated name cl q more rfl rfl hcl hs hb0 hb1 hq
      · have hs : cl.isSeated = false := by simpa using hs
        rw [left_unseated c t name [] cl hcl hs] at hp
        cases hp
        exact Outcome.leftUnseated name cl rfl rfl hcl hs
    · have hreg : c.isClientInClub name = false := by simpa using hreg
      rw [left_unknown c t name [] hreg] at hp
      cases hp
      exact Outcome.error _

end ComputerClub

/-! ### Invariants of reachable states -/

/-- Reading a table after a method call on `tables[j]`. -/
theorem vecGet_modify (ts : List Table) (f : Table → Table) (j i : Int) (hj : 0 ≤ j) :
    vecGet (ts.modify f j.toNat) i = if i = j then (vecGet ts i).map f else vecGet ts i := by
  unfold vecGet
  by_cases hi : 0 ≤ i
  · simp only [hi, if_true, List.getElem?_modify]
    by_cases hij : i = j
    · subst hij
      simp
    · have hne : ¬ j.toNat = i.toNat := by omega
      simp [hij, hne]
  · simp only [hi, if_false]
    split_ifs <;> simp

/-- Reading `tables[j]` after a method call on it. -/
theorem vecGet_modify_self (ts : List Table) (f : Table → Table) (j : Int) (hj : 0 ≤ j) :
    vecGet (ts.modify f j.toNat) j = (vecGet ts j).map f := by
  rw [vecGet_modify ts f j j hj]; simp

/-- Reading another table after a method call on `tables[j]`. -/
theorem vecGet_modify_ne (ts : List Table) (f : Table → Table) (j i : Int) (hj : 0 ≤ j)
    (hne : i ≠ j) : vecGet (ts.modify f j.toNat) i = vecGet ts i := by
  rw [vecGet_modify ts f j i hj]; simp [hne]

/-- A client with a table number other than -1 is seated. -/
theorem Client.isSeated_setTable (cl : Client) (n : Int) (hn : n ≠ -1) :
    (cl.setTable n).isSeated = true := by
  simp [Client.isSeated, Client.setTable, hn]

namespace ComputerClub

/-- Every outcome of `processEvent` keeps the seat pointers consistent. -/
theorem seatsConsistent_step (c c1 : ComputerClub) (e : Event) (h : Outcome c e c1)
    (hinv : SeatsConsistent c) : SeatsConsistent c1 := by
  cases h with
  | error code => exact hinv
  | arrived name hid hb hnone =>
    intro k cl hk hs
    simp only at hk
    rw [ClientMap.find_emplace_of_none _ _ _ hnone] at hk
    split_ifs at hk with hkn
    · cases hk
      simp [Client.isSeated, Client.new] at hs
    · exact hinv k cl hk hs
  | sat name arg n cl T hid hb hst hcl h1 h2 hget hfree hrange =>
    intro k cl2 hk hs
    simp only at hk ⊢
    rw [ClientMap.find_modify] at hk
    have hn0 : 0 ≤ n - 1 := by omega
    by_cases hkn : k = name
    · subst hkn
      simp only [if_true, hcl, Option.map_some'] at hk
      cases hk
      simp only [Client.setTable]
      rw [vecGet_modify_self _ _ _ hn0]
      by_cases hseat : cl.isSeated = true
      · simp only [hseat, if_true]
        obtain ⟨hr0, hr1⟩ := hrange hseat
        rw [vecGet_modify _ _ _ _ hr0]
        split_ifs with heq
        · simp [hget, Table.occupy]
        · simp [hget, Table.occupy]
      · simp [hseat, hget, Table.occupy]
    · simp only [hkn, if_false] at hk
      obtain ⟨T2, hT2, hocc2, hname2⟩ := hinv k cl2 hk hs
      refine ⟨T2, ?_, hocc2, hname2⟩
      have hne1 : cl2.tableNumber - 1 ≠ n - 1 := by
        intro heq
        rw [heq, hget] at hT2
        cases hT2
        simp [hfree] at hocc2
      rw [vecGet_modify_ne _ _ _ _ hn0 hne1]
      by_cases hseat : cl.isSeated = true
      · simp only [hseat, if_true]
        obtain ⟨hr0, hr1⟩ := hrange hseat
        obtain ⟨T3, hT3, _, hname3⟩ := hinv name cl hcl hseat
        have hne2 : cl2.tableNumber - 1 ≠ cl.tableNumber - 1 := by
          intro heq
          rw [heq, hT3] at hT2
          cases hT2
          exact hkn (hname2.symm.trans hname3)
        rw [vecGet_modify_ne _ _ _ _ hr0 hne2]
        exact hT2
      · simpa [hseat] using hT2
  | overflow name rest cl hid hb hcl hfree hfull =>
    intro k cl2 hk hs
    simp only at hk ⊢
    rw [ClientMap.find_erase] at hk
    split_ifs at hk with hkn
    exact hinv k cl2 hk hs
  | enqueued name rest cl hid hb hcl hfree hroom => exact hinv
  | leftUnseated name cl hid hb hcl hs0 =>
    intro k cl2 hk hs
    simp only at hk ⊢
    rw [ClientMap.find_erase] at hk
    split_ifs at hk with hkn
    exact hinv k cl2 hk hs
  | leftFreed name cl hid hb hcl hs0 hr0 hr1 hq =>
    intro k cl2 hk hs
    simp only at hk ⊢
    rw [ClientMap.find_erase] at hk
    split_ifs at hk with hkn
    obtain ⟨T2, hT2, hocc2, hname2⟩ := hinv k cl2 hk hs
    obtain ⟨T3, hT3, _, hname3⟩ := hinv name cl hcl hs0
    have hne2 : cl2.tableNumber - 1 ≠ cl.tableNumber - 1 := by
      intro heq
      rw [heq, hT3] at hT2
      cases hT2
      exact hkn (hname2.symm.trans hname3)
    exact ⟨T2, by rw [vecGet_modify_ne _ _ _ _ hr0 hne2]; exact hT2, hocc2, hname2⟩
  | leftReseated name cl q rest hid hb hcl hs0 hr0 hr1 hq =>
    intro k cl2 hk hs
    simp only at hk ⊢
    rw [ClientMap.find_erase] at hk
    split_ifs at hk with hkn
    rw [ClientMap.find_update] at hk
    obtain ⟨T3, hT3, _, hname3⟩ := hinv name cl hcl hs0
    split_ifs at hk with hkq
    · cases hk
      subst hkq
      simp only [Client.setTable]
      rw [vecGet_modify_self _ _ _ hr0, vecGet_modify_self _ _ _ hr0, hT3]
      simp [Table.occupy]
    · obtain ⟨T2, hT2, hocc2, hname2⟩ := hinv k cl2 hk hs
      have hne2 : cl2.tableNumber - 1 ≠ cl.tableNumber - 1 := by
        intro heq
        rw [heq, hT3] at hT2
        cases hT2
        exact hkn (hname2.symm.trans hname3)
      refine ⟨T2, ?_, hocc2, hname2⟩
      rw [vecGet_modify_ne _ _ _ _ hr0 hne2, vecGet_modify_ne _ _ _ _ hr0 hne2]
      exact hT2

/-- Every outcome keeps the old output and appends the event first. -/
theorem outcome_output (c c1 : ComputerClub) (e : Event) (h : Outcome c e c1) :
    ∃ more, c1.outputEvents = c.outputEvents ++ e :: more := by
  cases h <;> exact ⟨_, rfl⟩

/-- Every outcome of `processEvent` keeps the start times of the occupied
tables among the times of the output events. -/
theorem startTimesEchoed_step (c c1 : ComputerClub) (e : Event) (h : Outcome c e c1)
    (hinv : StartTimesEchoed c) : StartTimesEchoed c1 := by
  obtain ⟨more, hout⟩ := outcome_output c c1 e h
  have hold : ∀ T : Table, (∃ x ∈ c.outputEvents, x.time = T.startTime) →
      ∃ x ∈ c1.outputEvents, x.time = T.startTime := by
    rintro T ⟨x, hx, hxt⟩
    exact ⟨x, by rw [hout]; exact List.mem_append_left _ hx, hxt⟩
  have hnew : ∀ T : Table, T.startTime = e.time →
      ∃ x ∈ c1.outputEvents, x.time = T.startTime := by
    intro T hT
    exact ⟨e, by rw [hout]; simp, hT.symm⟩
  have hrel : ∀ (P : Table) (t r : Int), (P.release t r).isOccupied = false := by
    intro P t r
    unfold Table.release
    split_ifs with hP
    · simpa using hP
    · rfl
  have hfrel : ∀ (P : Table) (t r : Int), (P.forceRelease t r).isOccupied = false := by
    intro P t r
    unfold Table.forceRelease
    split_ifs with hP
    · exact hrel P t r
    · simpa using hP
  cases h with
  | error code => exact fun i T hT hocc => hold T (hinv i T hT hocc)
  | arrived name hid hb hnone => exact fun i T hT hocc => hold T (hinv i T hT hocc)
  | sat name arg n cl T0 hid hb hst hcl h1 h2 hget hfree hrange =>
    intro i T hT hocc
    simp only at hT
    have hn0 : 0 ≤ n - 1 := by omega
    have hocc_new : ∀ (o : Option Table), o.map (fun P => P.occupy name e.time) = some T →
        T.startTime = e.time := by
      intro o ho
      obtain ⟨P, _, hPT⟩ := Option.map_eq_some'.1 ho
      subst hPT
      rfl
    by_cases hin : i = n - 1
    · subst hin
      rw [vecGet_modify_self _ _ _ hn0] at hT
      exact hnew T (hocc_new _ hT)
    · rw [vecGet_modify_ne _ _ _ _ hn0 hin] at hT
      by_cases hseat : cl.isSeated = true
      · rw [if_pos hseat] at hT
        obtain ⟨hr0, hr1⟩ := hrange hseat
        by_cases hip : i = cl.tableNumber - 1
        · subst hip
          rw [vecGet_modify_self _ _ _ hr0] at hT
          obtain ⟨P, _, hPT⟩ := Option.map_eq_some'.1 hT
          subst hPT
          rw [hfrel] at hocc
          cases hocc
        · rw [vecGet_modify_ne _ _ _ _ hr0 hip] at hT
          exact hold T (hinv i T hT hocc)
      · rw [if_neg hseat] at hT
        exact hold T (hinv i T hT hocc)
  | overflow name rest cl hid hb hcl hfree hfull =>
    exact fun i T hT hocc => hold T (hinv i T hT hocc)
  | enqueued name rest cl hid hb hcl hfree hroom =>
    exact fun i T hT hocc => hold T (hinv i T hT hocc)
  | leftUnseated name cl hid hb hcl hs0 =>
    exact fun i T hT hocc => hold T (hinv i T hT hocc)
  | leftFreed name cl hid hb hcl hs0 hr0 hr1 hq =>
    intro i T hT hocc
    simp only at hT
    rw [vecGet_modify _ _ _ _ hr0] at hT
    split_ifs at hT with hip
    · obtain ⟨P, _, hPT⟩ := Option.map_eq_some'.1 hT
      subst hPT
      rw [hrel] at hocc
      cases hocc
    · exact hold T (hinv i T hT hocc)
  | leftReseated name cl q rest hid hb hcl hs0 hr0 hr1 hq =>
    intro i T hT hocc
    simp only at hT
    rw [vecGet_modify _ _ _ _ hr0] at hT
    split_ifs at hT with hip
    · obtain ⟨P, _, hPT⟩ := Option.map_eq_some'.1 hT
      subst hPT
      exact hnew _ rfl
    · rw [vecGet_modify_ne _ _ _ _ hr0 hip] at hT
      exact hold T (hinv i T hT hocc)

/-- The constructor builds a club without clients, queue or output, whose
tables are all free. -/
theorem new_eq_some (numTables : Int) (openStr closeStr : String) (rate : Int)
    (c : ComputerClub) (h : ComputerClub.new numTables openStr closeStr rate = some c) :
    c.clients = [] ∧ c.waitingQueue = [] ∧ c.outputEvents = [] ∧ c.rent = rate ∧
    c.tables = (List.range numTables.toNat).map (fun i => Table.new ((i : Int) + 1)) := by
  unfold ComputerClub.new at h
  split at h
  · cases h
    exact ⟨rfl, rfl, rfl, rfl, rfl⟩
  · cases h

/-- All tables of a freshly constructed club are free. -/
theorem new_tables_free (numTables : Int) (openStr closeStr : String) (rate : Int)
    (c : ComputerClub) (h : ComputerClub.new numTables openStr closeStr rate = some c)
    (i : Int) (T : Table) (hT : vecGet c.tables i = some T) : T.isOccupied = false := by
  obtain ⟨_, _, _, _, htab⟩ := new_eq_some _ _ _ _ _ h
  unfold vecGet at hT
  split_ifs at hT
  have hmem : T ∈ c.tables := List.getElem?_mem hT
  rw [htab] at hmem
  obtain ⟨j, _, hj⟩ := List.mem_map.1 hmem
  subst hj
  rfl

end ComputerClub

/-- Reachable states have consistent seat pointers. -/
theorem Reachable.seatsConsistent {c : ComputerClub} (h : Reachable c) : SeatsConsistent c := by
  induction h with
  | start numTables openStr closeStr rate c hnew =>
    intro name cl hk _
    rw [(ComputerClub.new_eq_some _ _ _ _ _ hnew).1] at hk
    simp [ClientMap.find] at hk
  | step c e c1 _ hv hp ih =>
    exact ComputerClub.seatsConsistent_step c c1 e (ComputerClub.processEvent_outcome c c1 e hv hp) ih

/-- In a reachable state every occupied table was occupied at the time of an
event of the output. -/
theorem Reachable.startTimesEchoed {c : ComputerClub} (h : Reachable c) :
    StartTimesEchoed c := by
  induction h with
  | start numTables openStr closeStr rate c hnew =>
    intro i T hT hocc
    rw [ComputerClub.new_tables_free _ _ _ _ _ hnew i T hT] at hocc
    cases hocc
  | step c e c1 _ hv hp ih =>
    exact ComputerClub.startTimesEchoed_step c c1 e
      (ComputerClub.processEvent_outcome c c1 e hv hp) ih

/-! ### A granted seat -/

/-- A run of valid events from a reachable state ends in a reachable state. -/
theorem Reachable.processEvents {c c1 : ComputerClub} (h : Reachable c) (es : List Event)
    (hv : ∀ e ∈ es, validEvent e = true) (hp : processEvents c es = some c1) :
    Reachable c1 := by
  induction es generalizing c with
  | nil =>
    simp only [Club.processEvents, Option.some.injEq] at hp
    exact hp ▸ h
  | cons e rest ih =>
    simp only [Club.processEvents] at hp
    split at hp
    · cases hp
    · rename_i c2 h2
      exact ih (Reachable.step c e c2 h (hv e (List.mem_cons_self _ _)) h2)
        (fun x hx => hv x (List.mem_cons_of_mem _ hx)) hp

/-- The example club with one table is reachable. -/
theorem exampleClub_reachable : Reachable exampleClub :=
  Reachable.start 1 "09:00" "19:00" 10 _ (by decide)

/-- The example club with two tables is reachable. -/
theorem exampleClub2_reachable : Reachable exampleClub2 :=
  Reachable.start 2 "09:00" "19:00" 10 _ (by decide)

/-- The state `exampleClub2Seated` is reachable. -/
theorem exampleClub2Seated_reachable : Reachable exampleClub2Seated :=
  exampleClub2_reachable.processEvents [⟨540, 1, ["A"]⟩, ⟨541, 2, ["A", "1"]⟩]
    (by decide) (by decide)

namespace ComputerClub

/-- The state after a granted seat request. -/
theorem sat_granted (c : ComputerClub) (t : Int) (name arg : String) (n : Int) (cl : Client)
    (T : Table) (hst : stoi arg = some n) (hcl : c.clients.find name = some cl)
    (h1 : 1 ≤ n) (h2 : n ≤ c.tables.length)
    (hget : vecGet c.tables (n - 1) = some T) (hfree : T.isOccupied = false)
    (hrange : cl.isSeated = true →
      0 ≤ cl.tableNumber - 1 ∧ cl.tableNumber - 1 < c.tables.length) :
    c.processEvent ⟨t, 2, [name, arg]⟩ = some
      { c with
        outputEvents := c.outputEvents ++ [⟨t, 2, [name, arg]⟩]
        tables :=
          (if cl.isSeated = true then
            c.tables.modify (fun P => P.forceRelease t c.rent) (cl.tableNumber - 1).toNat
          else c.tables).modify (fun P => P.occupy name t) (n - 1).toNat
        clients := c.clients.modify name (fun x => x.setTable n) } := by
  have hreg : c.isClientInClub name = true := (isClientInClub_eq_true c name).2 ⟨cl, hcl⟩
  have hval : c.isTableNumberValid n = true := (isTableNumberValid_iff c n).2 ⟨h1, h2⟩
  rw [sat_free c t name arg n T hst hreg hval hget hfree]
  have hget2 : c.clients.get name = cl := ClientMap.get_of_find_some _ _ _ hcl
  have hupd : c.clients.update name (fun x => x.setTable n) =
      c.clients.modify name (fun x => x.setTable n) := by
    simp [ClientMap.update, ClientMap.subscript_of_find_some _ _ _ hcl]
  rw [hget2, hupd]
  by_cases hs : cl.isSeated = true
  · obtain ⟨hr0, hr1⟩ := hrange hs
    simp only [hs, if_true]
    rw [vecModify_some _ _ _ hr0 hr1]
    simp only
    rw [vecModify_some _ _ _ (by omega) (by simp; omega)]
  · have hs2 : cl.isSeated = false := by simpa using hs
    simp only [hs2, Bool.false_eq_true, if_false]
    rw [vecModify_some _ _ _ (by omega) (by omega)]

/-- The state `exampleClubDearSeated` is reachable. -/
theorem exampleClubDearSeated_reachable : Reachable exampleClubDearSeated :=
  (Reachable.start 2 "09:00" "19:00" 2000000000 exampleClubDear (by decide)).processEvents
    [⟨540, 1, ["A"]⟩, ⟨540, 2, ["A", "1"]⟩] (by decide) (by decide)

/-- C5, counterexample.  Client `A` sits at table 1 since 09:01, at the rate
10.  The request `08:01 2 A 2`, a valid line that is earlier than the events
before it, releases table 1 with an elapsed time of -60 minutes: the code
bills `(-60 + 59) / 60 = 0` hours and the revenue stays 0, whereas
`ceil(-60 / 60) * 10 = -10`.  At the rate 2000000000, with `A` at table 1
since 09:00, the request `10:01 2 A 2` bills two hours: the amount is not an
`int` and the revenue of table 1 becomes -294967296. -/
theorem sat_success_counterexample :
    (Reachable exampleClub2Seated ∧
      validEvent ⟨481, 2, ["A", "2"]⟩ = true ∧
      exampleClub2Seated.clients.find "A" = some ⟨"A", 540, 1⟩ ∧
      vecGet exampleClub2Seated.tables 0 = some ⟨1, true, "A", 541, 0, 0⟩ ∧
      vecGet exampleClub2Seated.tables 1 = some ⟨2, false, "", 0, 0, 0⟩ ∧
      (∃ c1, exampleClub2Seated.processEvent ⟨481, 2, ["A", "2"]⟩ = some c1 ∧
        vecGet c1.tables 0 = some ⟨1, false, "", 541, 0, -60⟩) ∧
      (0 : Int) ≠ 0 + ⌈((481 - 541 : Int) : ℚ) / 60⌉ * exampleClub2Seated.rent) ∧
    (Reachable exampleClubDearSeated ∧
      validEvent ⟨601, 2, ["A", "2"]⟩ = true ∧
      (∀ x ∈ exampleClubDearSeated.outputEvents, x.time ≤ 601) ∧
      exampleClubDearSeated.clients.find "A" = some ⟨"A", 540, 1⟩ ∧
      vecGet exampleClubDearSeated.tables 0 = some ⟨1, true, "A", 540, 0, 0⟩ ∧
      vecGet exampleClubDearSeated.tables 1 = some ⟨2, false, "", 0, 0, 0⟩ ∧
      (∃ c1, exampleClubDearSeated.processEvent ⟨601, 2, ["A", "2"]⟩ = some c1 ∧
        vecGet c1.tables 0 = some ⟨1, false, "", 540, -294967296, 61⟩) ∧
      (-294967296 : Int) ≠
        0 + ⌈((601 - 540 : Int) : ℚ) / 60⌉ * exampleClubDearSeated.rent) := by
  have hceil1 : ⌈((481 - 541 : Int) : ℚ) / 60⌉ = -1 := by
    rw [Int.ceil_eq_iff]
    norm_num
  have hceil2 : ⌈((601 - 540 : Int) : ℚ) / 60⌉ = 2 := by
    rw [Int.ceil_eq_iff]
    norm_num
  rw [hceil1, hceil2]
  exact ⟨⟨exampleClub2Seated_reachable, by decide, by decide, by decide, by decide,
      ⟨_, rfl, by decide⟩, by decide⟩,
    ⟨exampleClubDearSeated_reachable, by decide, by decide, by decide, by decide, by decide,
      ⟨_, rfl, by decide⟩, by decide⟩⟩

/-- C5, amended.  Sat success effect: in a reachable state, for a seat
request at a time that is not before any event processed so far, by a
registered client for a free table `n` in range, such that the release of the
table `p` at which the client may be seated stays within the range of a
32-bit `int`: afterwards table `n` is occupied by the client since `t` with
its revenue and busy minutes unchanged, the seat of the client is `n`; if the
client was seated at a table `p`, that table is free and its revenue and busy
minutes have grown by `ceil((t - since) / 60) * rate` and `t - since`; all
other tables, all other client records and the waiting queue are unchanged,
and only the echo is emitted. -/
theorem sat_success (c : ComputerClub) (hR : Reachable c) (t : Int) (name arg : String)
    (n : Int) (cl : Client) (T : Table)
    (hst : stoi arg = some n) (hchron : ∀ x ∈ c.outputEvents, x.time ≤ t)
    (hcl : c.clients.find name = some cl) (h1 : 1 ≤ n) (h2 : n ≤ c.tables.length)
    (hget : vecGet c.tables (n - 1) = some T) (hfree : T.isOccupied = false)
    (hfit : cl.isSeated = true →
      ∀ P, vecGet c.tables (cl.tableNumber - 1) = some P → P.ReleaseFits t c.rent) :
    ∃ c1, c.processEvent ⟨t, 2, [name, arg]⟩ = some c1 ∧
      vecGet c1.tables (n - 1) =
        some { T with isOccupied := true, currentClient := name, startTime := t } ∧
      c1.clients.find name = some { cl with tableNumber := n } ∧
      (cl.isSeated = true →
        ∃ P, vecGet c.tables (cl.tableNumber - 1) = some P ∧ P.isOccupied = true ∧
          cl.tableNumber ≠ n ∧
          vecGet c1.tables (cl.tableNumber - 1) =
            some { P with
              isOccupied := false
              currentClient := ""
              revenue := P.revenue + ⌈((t - P.startTime : Int) : ℚ) / 60⌉ * c.rent
              totalTime := P.totalTime + (t - P.startTime) }) ∧
      (∀ i, i ≠ n - 1 → (cl.isSeated = true → i ≠ cl.tableNumber - 1) →
        vecGet c1.tables i = vecGet c.tables i) ∧
      c1.tables.length = c.tables.length ∧
      (∀ k, k ≠ name → c1.clients.find k = c.clients.find k) ∧
      c1.waitingQueue = c.waitingQueue ∧
      emitted c c1 = [⟨t, 2, [name, arg]⟩] := by
  have hseats := hR.seatsConsistent
  have hstart := hR.startTimesEchoed
  have hrange : cl.isSeated = true →
      0 ≤ cl.tableNumber - 1 ∧ cl.tableNumber - 1 < c.tables.length := by
    intro hs
    obtain ⟨P, hP, _, _⟩ := hseats name cl hcl hs
    exact vecGet_some_bounds _ _ _ hP
  have hn0 : 0 ≤ n - 1 := by omega
  refine ⟨_, sat_granted c t name arg n cl T hst hcl h1 h2 hget hfree hrange,
    ?_, ?_, ?_, ?_, ?_, ?_, rfl, ?_⟩
  · simp only
    rw [vecGet_modify_self _ _ _ hn0]
    by_cases hs : cl.isSeated = true
    · obtain ⟨P, hP, hPocc, _⟩ := hseats name cl hcl hs
      have hne : n - 1 ≠ cl.tableNumber - 1 := by
        intro heq
        rw [← heq, hget] at hP
        cases hP
        simp [hfree] at hPocc
      rw [if_pos hs, vecGet_modify_ne _ _ _ _ (hrange hs).1 hne, hget]
      rfl
    · rw [if_neg hs, hget]
      rfl
  · simp only
    rw [ClientMap.find_modify, if_pos rfl, hcl]
    rfl
  · intro hs
    obtain ⟨P, hP, hPocc, _⟩ := hseats name cl hcl hs
    have hne : cl.tableNumber - 1 ≠ n - 1 := by
      intro heq
      rw [heq, hget] at hP
      cases hP
      simp [hfree] at hPocc
    refine ⟨P, hP, hPocc, fun h => hne (by rw [h]), ?_⟩
    simp only
    rw [vecGet_modify_ne _ _ _ _ hn0 hne, if_pos hs, vecGet_modify_self _ _ _ (hrange hs).1, hP]
    obtain ⟨x, hx, hxt⟩ := hstart _ P hP hPocc
    have hle : P.startTime ≤ t := by
      rw [← hxt]
      exact hchron x hx
    have hd : 0 ≤ t - P.startTime := by omega
    have hrel := Table.release_of_fits P t c.rent hPocc hle (hfit hs P hP)
    simp [Table.forceRelease, hPocc, hrel, tdiv_add_59_eq_ceil _ hd]
  · intro i hin hip
    simp only
    rw [vecGet_modify_ne _ _ _ _ hn0 hin]
    by_cases hs : cl.isSeated = true
    · rw [if_pos hs, vecGet_modify_ne _ _ _ _ (hrange hs).1 (hip hs)]
    · rw [if_neg hs]
  · simp only
    by_cases hs : cl.isSeated = true
    · simp [hs]
    · simp [hs]
  · intro k hk
    simp only
    rw [ClientMap.find_modify, if_neg hk]
  · simp [emitted]

/-- Witness for C5: client `A`, seated at table 1 since 09:01, moves to the
free table 2 at 10:02; table 1 is billed two hours and 61 busy minutes. -/
theorem sat_success_witness :
    ∃ c1, exampleClub2Seated.processEvent ⟨602, 2, ["A", "2"]⟩ = some c1 ∧
      vecGet c1.tables 1 = some ⟨2, true, "A", 602, 0, 0⟩ ∧
      vecGet c1.tables 0 = some ⟨1, false, "", 541, 20, 61⟩ := by
  obtain ⟨c1, hp, hn, _, hprev, _⟩ :=
    sat_success exampleClub2Seated exampleClub2Seated_reachable 602 "A" "2" 2 ⟨"A", 540, 1⟩
      ⟨2, false, "", 0, 0, 0⟩ (by decide) (by decide) (by decide) (by decide) (by decide)
      (by decide) (by decide)
      (by
        intro _ P hP
        have h2 : vecGet exampleClub2Seated.tables (1 - 1) = some ⟨1, true, "A", 541, 0, 0⟩ := by
          decide
        have hP2 : vecGet exampleClub2Seated.tables (1 - 1) = some P := hP
        rw [h2] at hP2
        cases hP2
        decide)
  obtain ⟨P, hP, _, _, hP1⟩ := hprev (by decide)
  have hPeq : P = ⟨1, true, "A", 541, 0, 0⟩ := by
    have h : vecGet exampleClub2Seated.tables 0 = some P := hP
    have h2 : vecGet exampleClub2Seated.tables 0 = some ⟨1, true, "A", 541, 0, 0⟩ := by decide
    rw [h2] at h
    exact (Option.some.inj h).symm
  subst hPeq
  refine ⟨c1, hp, hn, ?_⟩
  have hceil : ⌈(((602 - 541 : Int)) : ℚ) / 60⌉ = 2 := by
    rw [Int.ceil_eq_iff]
    norm_num
  have h0 : vecGet c1.tables 0 = _ := hP1
  rw [h0]
  simp only [exampleClub2Seated, exampleClub2]
  rw [hceil]
  rfl

end ComputerClub

/-! ### Waiting -/

namespace ComputerClub

/-- The state `exampleClubTwo` is reachable. -/
theorem exampleClubTwo_reachable : Reachable exampleClubTwo :=
  exampleClub_reachable.processEvents
    [⟨540, 1, ["A"]⟩, ⟨541, 2, ["A", "1"]⟩, ⟨542, 1, ["B"]⟩] (by decide) (by decide)

/-- The state `exampleClubQueued` is reachable. -/
theorem exampleClubQueued_reachable : Reachable exampleClubQueued :=
  exampleClub_reachable.processEvents
    [⟨540, 1, ["A"]⟩, ⟨541, 2, ["A", "1"]⟩, ⟨542, 1, ["B"]⟩, ⟨543, 3, ["B"]⟩]
    (by decide) (by decide)

/-- The method `hasFreeTables` holds when some table is free. -/
theorem hasFreeTables_iff (c : ComputerClub) :
    c.hasFreeTables = true ↔ ∃ T ∈ c.tables, T.isOccupied = false := by
  simp [hasFreeTables, List.any_eq_true]

/-- C6. Waiting rule, for a registered name: `ICanWaitNoLonger!` is emitted
exactly when some table is free; otherwise, when the queue holds at least as
many names as there are tables, one event of kind 11 with the time of the
event and the name is appended after the echo, the name leaves the registry
and the queue is unchanged; otherwise the name is appended at the back of the
queue and only the echo is emitted.  For an unregistered name `ClientUnknown`
is emitted. -/
theorem waiting_rule (c : ComputerClub) (t : Int) (name : String) (rest : List String) :
    (c.isClientInClub name = true →
      (emitsError c ⟨t, 3, name :: rest⟩ "ICanWaitNoLonger!" ↔
        ∃ T ∈ c.tables, T.isOccupied = false)) ∧
    (c.isClientInClub name = true → (¬ ∃ T ∈ c.tables, T.isOccupied = false) →
      c.tables.length ≤ c.waitingQueue.length →
      ∃ c1, c.processEvent ⟨t, 3, name :: rest⟩ = some c1 ∧
        emitted c c1 = [⟨t, 3, name :: rest⟩, { time := t, id := 11, body := [name] }] ∧
        c1.clients.find name = none ∧
        (∀ k, k ≠ name → c1.clients.find k = c.clients.find k) ∧
        c1.waitingQueue = c.waitingQueue ∧ c1.tables = c.tables) ∧
    (c.isClientInClub name = true → (¬ ∃ T ∈ c.tables, T.isOccupied = false) →
      c.waitingQueue.length < c.tables.length →
      ∃ c1, c.processEvent ⟨t, 3, name :: rest⟩ = some c1 ∧
        emitted c c1 = [⟨t, 3, name :: rest⟩] ∧
        c1.waitingQueue = c.waitingQueue ++ [name] ∧
        c1.clients = c.clients ∧ c1.tables = c.tables) ∧
    (c.isClientInClub name = false → emitsError c ⟨t, 3, name :: rest⟩ "ClientUnknown") := by
  refine ⟨?_, ?_, ?_, ?_⟩
  · intro hreg
    rw [← hasFreeTables_iff]
    constructor
    · rintro ⟨c1, h1, hmem⟩
      by_contra hfree
      have hfree : c.hasFreeTables = false := by simpa using hfree
      by_cases hfull : c.tables.length ≤ c.waitingQueue.length
      · rw [waiting_overflow c t name rest hreg hfree hfull] at h1
        cases h1
        simp [emitted, errorEvent, leftEvent] at hmem
      · rw [waiting_enqueued c t name rest hreg hfree (by omega)] at h1
        cases h1
        simp [emitted, errorEvent] at hmem
    · intro hfree
      exact ⟨_, waiting_free c t name rest hreg hfree, by simp [emitted, errorEvent]⟩
  · intro hreg hfree hfull
    rw [← hasFreeTables_iff] at hfree
    have hfree : c.hasFreeTables = false := by simpa using hfree
    refine ⟨_, waiting_overflow c t name rest hreg hfree hfull, ?_, ?_, ?_, rfl, rfl⟩
    · simp [emitted, leftEvent]
    · simp [ClientMap.find_erase]
    · intro k hk
      simp [ClientMap.find_erase, hk]
  · intro hreg hfree hroom
    rw [← hasFreeTables_iff] at hfree
    have hfree : c.hasFreeTables = false := by simpa using hfree
    refine ⟨_, waiting_enqueued c t name rest hreg hfree hroom, ?_, rfl, rfl, rfl⟩
    simp [emitted]
  · intro hreg
    exact ⟨_, waiting_unknown c t name rest hreg, by simp [emitted, errorEvent]⟩

/-- Witness for C6: `A` holds the only table and `B` asks to wait while the
queue is empty; `B` is put in the queue and nothing but the echo is emitted. -/
theorem waiting_rule_witness :
    ∃ c1, exampleClubTwo.processEvent ⟨543, 3, ["B"]⟩ = some c1 ∧
      emitted exampleClubTwo c1 = [⟨543, 3, ["B"]⟩] ∧
      c1.waitingQueue = exampleClubTwo.waitingQueue ++ ["B"] ∧
      c1.clients = exampleClubTwo.clients ∧ c1.tables = exampleClubTwo.tables :=
  (waiting_rule exampleClubTwo 543 "B" []).2.2.1 (by decide) (by decide) (by decide)

end ComputerClub

/-! ### Queue overflow -/

namespace ComputerClub

/-- C7, evaluation of the code at the failing input.  In a club with one
table, `A` sits at the table and `B` waits, so the queue is full.  When `A`
asks to wait, the overflow branch removes `A` from the registry, but table 1
stays occupied by `A`: no registered client points to it any more, and
`closeClub` neither releases nor bills it. -/
theorem overflow_keeps_seat :
    Reachable exampleClubQueued ∧
    validEvent ⟨544, 3, ["A"]⟩ = true ∧
    exampleClubQueued.isClientInClub "A" = true ∧
    exampleClubQueued.hasFreeTables = false ∧
    exampleClubQueued.tables.length ≤ exampleClubQueued.waitingQueue.length ∧
    exampleClubQueued.processEvent ⟨544, 3, ["A"]⟩ = some exampleClubDropped ∧
    exampleClubDropped.isClientInClub "A" = false ∧
    vecGet exampleClubDropped.tables 0 = some ⟨1, true, "A", 541, 0, 0⟩ ∧
    exampleClubDropped.closeClub = some exampleClubDroppedClosed ∧
    vecGet exampleClubDroppedClosed.tables 0 = some ⟨1, true, "A", 541, 0, 0⟩ :=
  ⟨exampleClubQueued_reachable, by decide, by decide, by decide, by decide, by decide,
    by decide, by decide, by decide, by decide⟩

end ComputerClub

/-! ### Departure -/

namespace ComputerClub

/-- The state `exampleClubSelfQueued` is reachable. -/
theorem exampleClubSelfQueued_reachable : Reachable exampleClubSelfQueued :=
  exampleClub_reachable.processEvents
    [⟨540, 1, ["A"]⟩, ⟨541, 2, ["A", "1"]⟩, ⟨545, 3, ["A"]⟩] (by decide) (by decide)

/-- C8, counterexample.  In a club with one table, `A` sits at table 1 and
is also the head of the queue.  After `10:00 4 A` the table is handed to the
head of the queue, `A`, but `A` is not registered, so the head of the queue
has no seat 1 although the claim gives it one.  With `A` at table 1 since
09:01 at the rate 10 and an empty queue, the departure `08:01 4 A`, a valid
line that is earlier than the events before it, releases the table with an
elapsed time of -60 minutes: the code bills `(-60 + 59) / 60 = 0` hours,
whereas `ceil(-60 / 60) * 10 = -10`.  At the rate 2000000000, with `A` at
table 1 since 09:00, the departure `10:01 4 A` bills two hours: the amount is
not an `int` and the revenue of table 1 becomes -294967296. -/
theorem left_rule_counterexample :
    (Reachable exampleClubSelfQueued ∧
      validEvent ⟨600, 4, ["A"]⟩ = true ∧
      (∀ x ∈ exampleClubSelfQueued.outputEvents, x.time ≤ 600) ∧
      exampleClubSelfQueued.clients.find "A" = some ⟨"A", 540, 1⟩ ∧
      exampleClubSelfQueued.waitingQueue = ["A"] ∧
      exampleClubSelfQueued.processEvent ⟨600, 4, ["A"]⟩ = some exampleClubSelfReseated ∧
      vecGet exampleClubSelfReseated.tables 0 = some ⟨1, true, "A", 600, 10, 59⟩ ∧
      ¬ ∃ cl, exampleClubSelfReseated.clients.find "A" = some cl ∧ cl.tableNumber = 1) ∧
    (Reachable exampleClubSeated ∧
      validEvent ⟨481, 4, ["A"]⟩ = true ∧
      exampleClubSeated.clients.find "A" = some ⟨"A", 540, 1⟩ ∧
      exampleClubSeated.waitingQueue = [] ∧
      vecGet exampleClubSeated.tables 0 = some ⟨1, true, "A", 541, 0, 0⟩ ∧
      (∃ c1, exampleClubSeated.processEvent ⟨481, 4, ["A"]⟩ = some c1 ∧
        vecGet c1.tables 0 = some ⟨1, false, "", 541, 0, -60⟩) ∧
      (0 : Int) ≠ 0 + ⌈((481 - 541 : Int) : ℚ) / 60⌉ * exampleClubSeated.rent) ∧
    (Reachable exampleClubDearSeated ∧
      validEvent ⟨601, 4, ["A"]⟩ = true ∧
      (∀ x ∈ exampleClubDearSeated.outputEvents, x.time ≤ 601) ∧
      exampleClubDearSeated.clients.find "A" = some ⟨"A", 540, 1⟩ ∧
      exampleClubDearSeated.waitingQueue = [] ∧
      vecGet exampleClubDearSeated.tables 0 = some ⟨1, true, "A", 540, 0, 0⟩ ∧
      (∃ c1, exampleClubDearSeated.processEvent ⟨601, 4, ["A"]⟩ = some c1 ∧
        vecGet c1.tables 0 = some ⟨1, false, "", 540, -294967296, 61⟩) ∧
      (-294967296 : Int) ≠
        0 + ⌈((601 - 540 : Int) : ℚ) / 60⌉ * exampleClubDearSeated.rent) := by
  have hceil1 : ⌈((481 - 541 : Int) : ℚ) / 60⌉ = -1 := by
    rw [Int.ceil_eq_iff]
    norm_num
  have hceil2 : ⌈((601 - 540 : Int) : ℚ) / 60⌉ = 2 := by
    rw [Int.ceil_eq_iff]
    norm_num
  rw [hceil1, hceil2]
  exact ⟨⟨exampleClubSelfQueued_reachable, by decide, by decide, by decide, by decide,
      by decide, by decide, by simp [exampleClubSelfReseated, ClientMap.find]⟩,
    ⟨exampleClub_reachable.processEvents [⟨540, 1, ["A"]⟩, ⟨541, 2, ["A", "1"]⟩]
        (by decide) (by decide),
      by decide, by decide, by decide, by decide, ⟨_, rfl, by decide⟩, by decide⟩,
    ⟨exampleClubDearSeated_reachable, by decide, by decide, by decide, by decide, by decide,
      ⟨_, rfl, by decide⟩, by decide⟩⟩

/-- The state after the departure of a seated client when nobody waits. -/
theorem left_freed (c : ComputerClub) (t : Int) (name : String) (cl : Client)
    (hcl : c.clients.find name = some cl) (hs : cl.isSeated = true)
    (hr0 : 0 ≤ cl.tableNumber - 1) (hr1 : cl.tableNumber - 1 < c.tables.length)
    (hq : c.waitingQueue = []) :
    c.processEvent ⟨t, 4, [name]⟩ = some
      { c with
        outputEvents := c.outputEvents ++ [⟨t, 4, [name]⟩]
        tables := c.tables.modify (fun P => P.release t c.rent) (cl.tableNumber - 1).toNat
        clients := c.clients.erase name } := by
  rw [left_seated c t name [] cl hcl hs, vecModify_some _ _ _ hr0 hr1]
  simp only [hq]

/-- The state after the departure of a seated client when somebody waits. -/
theorem left_reseated (c : ComputerClub) (t : Int) (name : String) (cl : Client)
    (q : String) (more : List String)
    (hcl : c.clients.find name = some cl) (hs : cl.isSeated = true)
    (hr0 : 0 ≤ cl.tableNumber - 1) (hr1 : cl.tableNumber - 1 < c.tables.length)
    (hq : c.waitingQueue = q :: more) :
    c.processEvent ⟨t, 4, [name]⟩ = some
      { c with
        outputEvents := c.outputEvents ++
          [⟨t, 4, [name]⟩, { time := t, id := 12, body := [q, to_string cl.tableNumber] }]
        tables :=
          (c.tables.modify (fun P => P.release t c.rent) (cl.tableNumber - 1).toNat).modify
            (fun P => P.occupy q t) (cl.tableNumber - 1).toNat
        waitingQueue := more
        clients := (c.clients.update q (fun x => x.setTable cl.tableNumber)).erase name } := by
  rw [left_seated c t name [] cl hcl hs, vecModify_some _ _ _ hr0 hr1]
  simp only [hq]
  rw [vecModify_some _ _ _ hr0 (by simpa using hr1)]

/-- C8, amended.  Left rule: in a reachable state, for a departure of a
registered client at a time that is not before any event processed so far,
such that a seated client is not itself the head of the queue and the release
of its table stays within the range of a 32-bit `int`, the name is not
registered afterwards.  If the client was seated at table `k`, that table is
billed for the stay up to `t`; then, if the queue was not empty with head
`q`, `q` is removed from the front of the queue, table `k` is occupied by `q`
since `t`, the seat of `q` is `k`, and one event of kind 12 with time `t` and
arguments `q` and `k` is appended after the echo; if the queue was empty,
table `k` is left free and only the echo is emitted.  If the client was not
seated, no table and no queue entry changes. -/
theorem left_rule (c : ComputerClub) (hR : Reachable c) (t : Int) (name : String)
    (cl : Client) (hchron : ∀ x ∈ c.outputEvents, x.time ≤ t)
    (hcl : c.clients.find name = some cl)
    (hhead : cl.isSeated = true → c.waitingQueue.head? ≠ some name)
    (hfit : cl.isSeated = true →
      ∀ P, vecGet c.tables (cl.tableNumber - 1) = some P → P.ReleaseFits t c.rent) :
    ∃ c1, c.processEvent ⟨t, 4, [name]⟩ = some c1 ∧
      c1.clients.find name = none ∧
      (cl.isSeated = false →
        c1.tables = c.tables ∧ c1.waitingQueue = c.waitingQueue ∧
        emitted c c1 = [⟨t, 4, [name]⟩] ∧
        (∀ k, k ≠ name → c1.clients.find k = c.clients.find k)) ∧
      (cl.isSeated = true →
        ∃ P, vecGet c.tables (cl.tableNumber - 1) = some P ∧ P.isOccupied = true ∧
          (∀ i, i ≠ cl.tableNumber - 1 → vecGet c1.tables i = vecGet c.tables i) ∧
          (c.waitingQueue = [] →
            vecGet c1.tables (cl.tableNumber - 1) =
              some { P with
                isOccupied := false
                currentClient := ""
                revenue := P.revenue + ⌈((t - P.startTime : Int) : ℚ) / 60⌉ * c.rent
                totalTime := P.totalTime + (t - P.startTime) } ∧
            c1.waitingQueue = [] ∧
            emitted c c1 = [⟨t, 4, [name]⟩] ∧
            (∀ k, k ≠ name → c1.clients.find k = c.clients.find k)) ∧
          (∀ q more, c.waitingQueue = q :: more →
            vecGet c1.tables (cl.tableNumber - 1) =
              some { P with
                isOccupied := true
                currentClient := q
                startTime := t
                revenue := P.revenue + ⌈((t - P.startTime : Int) : ℚ) / 60⌉ * c.rent
                totalTime := P.totalTime + (t - P.startTime) } ∧
            c1.waitingQueue = more ∧
            emitted c c1 =
              [⟨t, 4, [name]⟩,
               { time := t, id := 12, body := [q, to_string cl.tableNumber] }] ∧
            (∃ clq, c1.clients.find q = some clq ∧ clq.tableNumber = cl.tableNumber) ∧
            (∀ k, k ≠ name → k ≠ q → c1.clients.find k = c.clients.find k))) := by
  have hseats := hR.seatsConsistent
  have hstart := hR.startTimesEchoed
  by_cases hs : cl.isSeated = true
  · obtain ⟨P, hP, hPocc, _⟩ := hseats name cl hcl hs
    obtain ⟨hr0, hr1⟩ := vecGet_some_bounds _ _ _ hP
    obtain ⟨x, hx, hxt⟩ := hstart _ P hP hPocc
    have hle : P.startTime ≤ t := by
      rw [← hxt]
      exact hchron x hx
    have hd : 0 ≤ t - P.startTime := by omega
    have hrel := Table.release_of_fits P t c.rent hPocc hle (hfit hs P hP)
    cases hq : c.waitingQueue with
    | nil =>
      refine ⟨_, left_freed c t name cl hcl hs hr0 hr1 hq, ?_, ?_, ?_⟩
      · simp [ClientMap.find_erase]
      · intro hns
        rw [hs] at hns
        cases hns
      · intro _
        refine ⟨P, hP, hPocc, ?_, ?_, ?_⟩
        · intro i hi
          simp only
          rw [vecGet_modify_ne _ _ _ _ hr0 hi]
        · intro _
          refine ⟨?_, hq, ?_, ?_⟩
          · simp only
            rw [vecGet_modify_self _ _ _ hr0, hP]
            simp [hrel, tdiv_add_59_eq_ceil _ hd]
          · simp [emitted]
          · intro k hk
            simp [ClientMap.find_erase, hk]
        · intro q more hq2
          cases hq2
    | cons q more =>
      refine ⟨_, left_reseated c t name cl q more hcl hs hr0 hr1 hq, ?_, ?_, ?_⟩
      · simp [ClientMap.find_erase]
      · intro hns
        rw [hs] at hns
        cases hns
      · intro _
        refine ⟨P, hP, hPocc, ?_, ?_, ?_⟩
        · intro i hi
          simp only
          rw [vecGet_modify_ne _ _ _ _ hr0 hi, vecGet_modify_ne _ _ _ _ hr0 hi]
        · intro hq2
          cases hq2
        · intro q2 more2 hq2
          cases hq2
          refine ⟨?_, rfl, ?_, ?_, ?_⟩
          · simp only
            rw [vecGet_modify_self _ _ _ hr0, vecGet_modify_self _ _ _ hr0, hP]
            simp [hrel, Table.occupy, tdiv_add_59_eq_ceil _ hd]
          · simp [emitted]
          · have hqn : q ≠ name := by
              intro heq
              apply hhead hs
              rw [hq, heq]
              rfl
            refine ⟨(c.clients.get q).setTable cl.tableNumber, ?_, rfl⟩
            simp only
            rw [ClientMap.find_erase, if_neg hqn, ClientMap.find_update, if_pos rfl]
          · intro k hk hkq
            simp only
            rw [ClientMap.find_erase, if_neg hk, ClientMap.find_update, if_neg hkq]
  · have hs2 : cl.isSeated = false := by simpa using hs
    refine ⟨_, left_unseated c t name [] cl hcl hs2, ?_, ?_, ?_⟩
    · simp [ClientMap.find_erase]
    · intro _
      refine ⟨rfl, rfl, ?_, ?_⟩
      · simp [emitted]
      · intro k hk
        simp [ClientMap.find_erase, hk]
    · intro h
      exact absurd h hs

/-- Witness for C8: `A` leaves at 10:00 while `B` is queued; the table goes
to `B` at once, with an event of kind 12 at the time of the departure. -/
theorem left_rule_witness :
    ∃ c1, exampleClubQueued.processEvent ⟨600, 4, ["A"]⟩ = some c1 ∧
      c1.clients.find "A" = none ∧
      c1.waitingQueue = [] ∧
      emitted exampleClubQueued c1 = [⟨600, 4, ["A"]⟩, ⟨600, 12, ["B", "1"]⟩] ∧
      ∃ clq, c1.clients.find "B" = some clq ∧ clq.tableNumber = 1 := by
  obtain ⟨c1, hp, hgone, _, hseated⟩ :=
    left_rule exampleClubQueued exampleClubQueued_reachable 600 "A" ⟨"A", 540, 1⟩
      (by decide) (by decide) (by decide)
      (by
        intro _ P hP
        have h2 : vecGet exampleClubQueued.tables (1 - 1) = some ⟨1, true, "A", 541, 0, 0⟩ := by
          decide
        have hP2 : vecGet exampleClubQueued.tables (1 - 1) = some P := hP
        rw [h2] at hP2
        cases hP2
        decide)
  obtain ⟨P, _, _, _, _, hnext⟩ := hseated (by decide)
  obtain ⟨_, hqueue, hem, hseat, _⟩ := hnext "B" [] (by decide)
  exact ⟨c1, hp, hgone, hqueue, hem, hseat⟩

end ComputerClub

/-! ### The order of names -/

/-- Characters with the same code are equal. -/
theorem Char.toNat_eq_imp (a b : Char) (h : a.toNat = b.toNat) : a = b :=
  Char.ext (UInt32.toNat.inj h)

/-- No character sequence is less than itself. -/
theorem strLess_irrefl (a : List Char) : strLess a a = false := by
  induction a with
  | nil => rfl
  | cons x xs ih => simp [strLess, ih]

/-- The order of character sequences is transitive. -/
theorem strLess_trans (a b c : List Char) (hab : strLess a b = true)
    (hbc : strLess b c = true) : strLess a c = true := by
  induction a generalizing b c with
  | nil =>
    cases b with
    | nil => simp [strLess] at hab
    | cons y ys =>
      cases c with
      | nil => simp [strLess] at hbc
      | cons z zs => rfl
  | cons x xs ih =>
    cases b with
    | nil => simp [strLess] at hab
    | cons y ys =>
      cases c with
      | nil => simp [strLess] at hbc
      | cons z zs =>
        simp only [strLess] at hab hbc ⊢
        split_ifs at hab hbc ⊢ with h1 h2 h3 h4 h5 h6 <;>
          first
          | rfl
          | omega
          | exact ih _ _ hab hbc

/-- Of two different character sequences one is less than the other. -/
theorem strLess_total (a b : List Char) (hab : strLess a b = false) (hne : a ≠ b) :
    strLess b a = true := by
  induction a generalizing b with
  | nil =>
    cases b with
    | nil => exact absurd rfl hne
    | cons y ys => simp [strLess] at hab
  | cons x xs ih =>
    cases b with
    | nil => rfl
    | cons y ys =>
      simp only [strLess] at hab ⊢
      by_cases h1 : x.toNat < y.toNat
      · simp [h1] at hab
      · by_cases h2 : y.toNat < x.toNat
        · simp [h2]
        · have hxy : x = y := Char.toNat_eq_imp x y (by omega)
          subst hxy
          simp only [h1, if_false] at hab ⊢
          exact ih ys hab (fun h => hne (by rw [h]))

/-- Different strings have different character sequences. -/
theorem string_data_ne (a b : String) (h : a ≠ b) : a.data ≠ b.data := by
  intro hd
  apply h
  cases a; cases b
  simp only at hd
  rw [hd]

namespace ComputerClub

/-- Insertion into the sorted names adds one name and keeps the others. -/
theorem insertName_perm (x : String) (l : List String) :
    (insertName x l).Perm (x :: l) := by
  induction l with
  | nil => simp [insertName]
  | cons y ys ih =>
    unfold insertName
    split_ifs
    · exact List.Perm.refl _
    · exact (List.Perm.cons _ ih).trans (List.Perm.swap _ _ _)

/-- Sorting rearranges the names. -/
theorem sortNames_perm (l : List String) : (sortNames l).Perm l := by
  induction l with
  | nil => exact List.Perm.refl _
  | cons x xs ih =>
    unfold sortNames
    exact (insertName_perm x _).trans (List.Perm.cons _ ih)

/-- Insertion of a new name keeps the names strictly ascending. -/
theorem insertName_sorted (x : String) (l : List String)
    (hx : x ∉ l) (hl : l.Pairwise (fun a b => strLess a.data b.data = true)) :
    (insertName x l).Pairwise (fun a b => strLess a.data b.data = true) := by
  induction l with
  | nil => simp [insertName]
  | cons y ys ih =>
    rw [List.pairwise_cons] at hl
    unfold insertName
    split_ifs with hlt
    · rw [List.pairwise_cons]
      refine ⟨?_, List.pairwise_cons.2 hl⟩
      intro z hz
      rcases List.mem_cons.1 hz with hzy | hzys
      · rw [hzy]; exact hlt
      · exact strLess_trans _ _ _ hlt (hl.1 z hzys)
    · have hxy : x ≠ y := fun h => hx (by rw [h]; exact List.mem_cons_self _ _)
      have hyx : strLess y.data x.data = true :=
        strLess_total _ _ (by simpa using hlt) (string_data_ne _ _ hxy)
      rw [List.pairwise_cons]
      refine ⟨?_, ih (fun h => hx (List.mem_cons_of_mem _ h)) hl.2⟩
      intro z hz
      rcases List.mem_cons.1 ((insertName_perm x ys).subset hz) with hzx | hzys
      · rw [hzx]; exact hyx
      · exact hl.1 z hzys

/-- Sorting pairwise distinct names yields a strictly ascending sequence. -/
theorem sortNames_sorted (l : List String) (hl : l.Nodup) :
    (sortNames l).Pairwise (fun a b => strLess a.data b.data = true) := by
  induction l with
  | nil => exact List.Pairwise.nil
  | cons x xs ih =>
    rw [List.nodup_cons] at hl
    unfold sortNames
    exact insertName_sorted x _ (fun h => hl.1 ((sortNames_perm xs).subset h)) (ih hl.2)

end ComputerClub

/-! ### Keys of the registry -/

namespace ClientMap

/-- The registered names are the keys. -/
theorem find_isSome_iff_mem_keys (m : ClientMap) (k : String) :
    (m.find k).isSome = true ↔ k ∈ m.keys := by
  induction m with
  | nil => simp [find, keys]
  | cons p rest ih =>
    obtain ⟨a, b⟩ := p
    by_cases ha : a = k
    · simp [find, keys, ha]
    · have hka : ¬ k = a := fun h => ha h.symm
      simp only [keys] at ih
      simp [find, keys, ha, hka, ih]

/-- Insertion adds one key. -/
theorem keys_insertOrdered_perm (m : ClientMap) (k : String) (v : Client) :
    (m.insertOrdered k v).keys.Perm (k :: m.keys) :=
  (insertOrdered_perm m k v).map Prod.fst

/-- An assignment to a record keeps the keys. -/
theorem keys_modify (m : ClientMap) (k : String) (f : Client → Client) :
    (m.modify k f).keys = m.keys := by
  induction m with
  | nil => rfl
  | cons p rest ih =>
    obtain ⟨a, b⟩ := p
    simp only [keys] at ih
    by_cases ha : a = k <;> simp [modify, keys, ha, ih]

/-- Removal keeps only keys that were present. -/
theorem keys_erase_sublist (m : ClientMap) (k : String) :
    (m.erase k).keys.Sublist m.keys := by
  induction m with
  | nil => exact List.Sublist.refl _
  | cons p rest ih =>
    obtain ⟨a, b⟩ := p
    simp only [keys] at ih
    by_cases ha : a = k
    · simp only [erase, ha, if_true, keys, List.map_cons]
      exact List.Sublist.cons _ ih
    · simp only [erase, ha, if_false, keys, List.map_cons]
      exact List.Sublist.cons₂ _ ih

/-- The call `emplace` keeps the keys pairwise distinct. -/
theorem WF_emplace (m : ClientMap) (k : String) (v : Client) (h : m.WF) :
    (m.emplace k v).WF := by
  unfold emplace
  split_ifs with hk
  · exact h
  · unfold WF
    rw [(keys_insertOrdered_perm m k v).nodup_iff, List.nodup_cons]
    refine ⟨?_, h⟩
    intro hmem
    exact hk ((find_isSome_iff_mem_keys m k).2 hmem)

/-- The call `erase` keeps the keys pairwise distinct. -/
theorem WF_erase (m : ClientMap) (k : String) (h : m.WF) : (m.erase k).WF :=
  List.Nodup.sublist (keys_erase_sublist m k) h

/-- An assignment to a record keeps the keys pairwise distinct. -/
theorem WF_modify (m : ClientMap) (k : String) (f : Client → Client) (h : m.WF) :
    (m.modify k f).WF := by
  unfold WF
  rw [keys_modify]
  exact h

/-- An update through `m[k]` keeps the keys pairwise distinct. -/
theorem WF_update (m : ClientMap) (k : String) (f : Client → Client) (h : m.WF) :
    (m.update k f).WF :=
  WF_modify _ _ _ (WF_emplace _ _ _ h)

end ClientMap

namespace ComputerClub

/-- Every outcome of `processEvent` keeps the keys pairwise distinct. -/
theorem clientsWF_step (c c1 : ComputerClub) (e : Event) (h : Outcome c e c1)
    (hinv : c.clients.WF) : c1.clients.WF := by
  cases h with
  | error code => exact hinv
  | arrived name hid hb hnone => exact ClientMap.WF_emplace _ _ _ hinv
  | sat name arg n cl T hid hb hst hcl h1 h2 hget hfree hrange =>
    exact ClientMap.WF_modify _ _ _ hinv
  | overflow name rest cl hid hb hcl hfree hfull => exact ClientMap.WF_erase _ _ hinv
  | enqueued name rest cl hid hb hcl hfree hroom => exact hinv
  | leftUnseated name cl hid hb hcl hs0 => exact ClientMap.WF_erase _ _ hinv
  | leftFreed name cl hid hb hcl hs0 hr0 hr1 hq => exact ClientMap.WF_erase _ _ hinv
  | leftReseated name cl q rest hid hb hcl hs0 hr0 hr1 hq =>
    exact ClientMap.WF_erase _ _ (ClientMap.WF_update _ _ _ hinv)

end ComputerClub

/-- In a reachable state no name is registered twice. -/
theorem Reachable.clientsWF {c : ComputerClub} (h : Reachable c) : c.clients.WF := by
  induction h with
  | start numTables openStr closeStr rate c hnew =>
    rw [(ComputerClub.new_eq_some _ _ _ _ _ hnew).1]
    exact List.nodup_nil
  | step c e c1 _ hv hp ih =>
    exact ComputerClub.clientsWF_step c c1 e (ComputerClub.processEvent_outcome c c1 e hv hp) ih

/-! ### End-of-day settlement -/

/-- A table is free after `forceRelease`. -/
theorem Table.forceRelease_isOccupied (P : Table) (t r : Int) :
    (P.forceRelease t r).isOccupied = false := by
  unfold Table.forceRelease Table.release
  by_cases hP : P.isOccupied = true
  · simp [hP]
  · simp [hP]

/-- A second `forceRelease` changes nothing. -/
theorem Table.forceRelease_idem (P : Table) (t r : Int) :
    (P.forceRelease t r).forceRelease t r = P.forceRelease t r := by
  have h := Table.forceRelease_isOccupied P t r
  show (if (P.forceRelease t r).isOccupied = true then _ else _) = _
  rw [if_neg (by simp [h])]

namespace ComputerClub

/-- One iteration of the loop of `closeClub` for a registered name. -/
theorem closeClubStep_eq (c : ComputerClub) (name : String) (cl : Client)
    (hcl : c.clients.find name = some cl)
    (hrange : cl.isSeated = true →
      0 ≤ cl.tableNumber - 1 ∧ cl.tableNumber - 1 < c.tables.length) :
    closeClubStep c name = some
      { c with
        outputEvents := c.outputEvents ++ [leftEvent c.closeTime name]
        tables :=
          if cl.isSeated = true then
            c.tables.modify (fun P => P.forceRelease c.closeTime c.rent)
              (cl.tableNumber - 1).toNat
          else c.tables } := by
  have hg : c.clients.get name = cl := ClientMap.get_of_find_some _ _ _ hcl
  have hsub : c.clients.subscript name = c.clients := ClientMap.subscript_of_find_some _ _ _ hcl
  unfold closeClubStep
  simp only [hg, hsub]
  by_cases hs : cl.isSeated = true
  · obtain ⟨hr0, hr1⟩ := hrange hs
    simp only [hs, if_true]
    rw [vecModify_some _ _ _ hr0 hr1]
  · have hs2 : cl.isSeated = false := by simpa using hs
    simp [hs2]

/-- The loop of `closeClub` over registered names: it returns, appends one
event for each name in turn, force-releases the tables that the named clients
point to, and leaves everything else as it is. -/
theorem closeClubLoop_spec (names : List String) (c : ComputerClub)
    (hreg : ∀ n ∈ names, ∃ cl, c.clients.find n = some cl)
    (hrange : ∀ n cl, c.clients.find n = some cl → cl.isSeated = true →
      0 ≤ cl.tableNumber - 1 ∧ cl.tableNumber - 1 < c.tables.length) :
    ∃ c1, closeClubLoop c names = some c1 ∧
      c1.clients = c.clients ∧ c1.waitingQueue = c.waitingQueue ∧
      c1.openTime = c.openTime ∧ c1.closeTime = c.closeTime ∧ c1.rent = c.rent ∧
      c1.outputEvents = c.outputEvents ++ names.map (leftEvent c.closeTime) ∧
      c1.tables.length = c.tables.length ∧
      (∀ i, (∃ n ∈ names, ∃ cl, c.clients.find n = some cl ∧ cl.isSeated = true ∧
          cl.tableNumber - 1 = i) →
        vecGet c1.tables i =
          (vecGet c.tables i).map (fun P => P.forceRelease c.closeTime c.rent)) ∧
      (∀ i, (¬ ∃ n ∈ names, ∃ cl, c.clients.find n = some cl ∧ cl.isSeated = true ∧
          cl.tableNumber - 1 = i) →
        vecGet c1.tables i = vecGet c.tables i) := by
  induction names generalizing c with
  | nil =>
    exact ⟨c, rfl, rfl, rfl, rfl, rfl, rfl, by simp, rfl,
      fun i h => by simp at h, fun i _ => rfl⟩
  | cons n rest ih =>
    obtain ⟨cl, hcl⟩ := hreg n (List.mem_cons_self _ _)
    have hstep := closeClubStep_eq c n cl hcl (hrange n cl hcl)
    obtain ⟨c1, hloop, hclients, hqueue, hopen, hclose, hrent, hout, hlen, htouched, hrest⟩ :=
      ih
        { c with
          outputEvents := c.outputEvents ++ [leftEvent c.closeTime n]
          tables :=
            if cl.isSeated = true then
              c.tables.modify (fun P => P.forceRelease c.closeTime c.rent)
                (cl.tableNumber - 1).toNat
            else c.tables }
        (fun m hm => hreg m (List.mem_cons_of_mem _ hm))
        (fun m cm hm hs => by
          have := hrange m cm hm hs
          by_cases hseat : cl.isSeated = true <;> simpa [hseat] using this)
    -- the tables after the first iteration
    have hfirst : ∀ i, vecGet (if cl.isSeated = true then
            c.tables.modify (fun P => P.forceRelease c.closeTime c.rent)
              (cl.tableNumber - 1).toNat
          else c.tables) i =
        if cl.isSeated = true ∧ i = cl.tableNumber - 1 then
          (vecGet c.tables i).map (fun P => P.forceRelease c.closeTime c.rent)
        else vecGet c.tables i := by
      intro i
      by_cases hseat : cl.isSeated = true
      · rw [if_pos hseat, vecGet_modify _ _ _ _ (hrange n cl hcl hseat).1]
        by_cases hi : i = cl.tableNumber - 1 <;> simp [hseat, hi]
      · simp [hseat]
    refine ⟨c1, ?_, hclients, hqueue, hopen, hclose, hrent, ?_, ?_, ?_, ?_⟩
    · simp only [closeClubLoop, hstep]
      exact hloop
    · rw [hout]
      simp [List.append_assoc]
    · rw [hlen]
      by_cases hseat : cl.isSeated = true <;> simp [hseat]
    · rintro i ⟨m, hm, cm, hcm, hsm, him⟩
      by_cases htail : ∃ n ∈ rest, ∃ cl, c.clients.find n = some cl ∧ cl.isSeated = true ∧
          cl.tableNumber - 1 = i
      · rw [htouched i htail]
        simp only
        rw [hfirst i]
        split_ifs
        · rw [Option.map_map]
          congr 1
          funext P
          exact Table.forceRelease_idem P _ _
        · rfl
      · rw [hrest i htail]
        simp only
        rw [hfirst i]
        rcases List.mem_cons.1 hm with hmn | hmrest
        · subst hmn
          rw [hcl] at hcm
          cases hcm
          rw [if_pos ⟨hsm, him.symm⟩]
        · exact absurd ⟨m, hmrest, cm, hcm, hsm, him⟩ htail
    · intro i hnone
      have htail : ¬ ∃ n ∈ rest, ∃ cl, c.clients.find n = some cl ∧ cl.isSeated = true ∧
          cl.tableNumber - 1 = i := by
        rintro ⟨m, hm, rest2⟩
        exact hnone ⟨m, List.mem_cons_of_mem _ hm, rest2⟩
      rw [hrest i htail]
      simp only
      rw [hfirst i]
      have hnot : ¬ (cl.isSeated = true ∧ i = cl.tableNumber - 1) := by
        rintro ⟨hs, hi⟩
        exact hnone ⟨n, List.mem_cons_self _ _, cl, hcl, hs, hi.symm⟩
      rw [if_neg hnot]

end ComputerClub

namespace ComputerClub

/-- The state `exampleClubLate` is reachable. -/
theorem exampleClubLate_reachable : Reachable exampleClubLate :=
  exampleClub_reachable.processEvents [⟨1080, 1, ["A"]⟩, ⟨1200, 2, ["A", "1"]⟩]
    (by decide) (by decide)

/-- The state `exampleClub2Pair` is reachable. -/
theorem exampleClub2Pair_reachable : Reachable exampleClub2Pair :=
  exampleClub2_reachable.processEvents
    [⟨540, 1, ["bob"]⟩, ⟨545, 1, ["alice"]⟩, ⟨550, 2, ["bob", "1"]⟩] (by decide) (by decide)

/-- The state `exampleClubLongSeated` is reachable. -/
theorem exampleClubLongSeated_reachable : Reachable exampleClubLongSeated :=
  (Reachable.start 1 "00:00" "35791394:07" 1 exampleClubLong (by decide)).processEvents
    [⟨0, 1, ["A"]⟩, ⟨0, 2, ["A", "1"]⟩] (by decide) (by decide)

/-- C9, counterexample.  The club closes at 19:00; `A` arrives at 18:00 and
takes table 1 at 20:00.  `closeClub` releases the table at 19:00 with an
elapsed time of -60 minutes: the code bills `(-60 + 59) / 60 = 0` hours, so
the revenue stays 0, whereas `ceil(-60 / 60) * 10 = -10`.  At the rate
2000000000, with `A` at table 1 from 09:00 to the closing time 19:00, ten
hours are billed: the amount is not an `int` and the revenue becomes
-1474836480.  With the closing time `35791394:07`, the largest `int`, and `A`
at table 1 since 00:00 at the rate 1, the elapsed time plus 59 is not an
`int` and -35791393 hours are billed. -/
theorem closeClub_counterexample :
    (Reachable exampleClubLate ∧
      exampleClubLate.clients.find "A" = some ⟨"A", 1080, 1⟩ ∧
      vecGet exampleClubLate.tables 0 = some ⟨1, true, "A", 1200, 0, 0⟩ ∧
      exampleClubLate.closeClub = some exampleClubLateClosed ∧
      vecGet exampleClubLateClosed.tables 0 = some ⟨1, false, "", 1200, 0, -60⟩ ∧
      (⟨1, false, "", 1200, 0, -60⟩ : Table).revenue ≠
        (⟨1, true, "A", 1200, 0, 0⟩ : Table).revenue +
          ⌈((exampleClubLate.closeTime -
              (⟨1, true, "A", 1200, 0, 0⟩ : Table).startTime : Int) : ℚ) / 60⌉ *
            exampleClubLate.rent) ∧
    (Reachable exampleClubDearSeated ∧
      exampleClubDearSeated.clients.find "A" = some ⟨"A", 540, 1⟩ ∧
      vecGet exampleClubDearSeated.tables 0 = some ⟨1, true, "A", 540, 0, 0⟩ ∧
      (∃ c1, exampleClubDearSeated.closeClub = some c1 ∧
        vecGet c1.tables 0 = some ⟨1, false, "", 540, -1474836480, 600⟩) ∧
      (-1474836480 : Int) ≠
        0 + ⌈((exampleClubDearSeated.closeTime - 540 : Int) : ℚ) / 60⌉ *
          exampleClubDearSeated.rent) ∧
    (Reachable exampleClubLongSeated ∧
      exampleClubLongSeated.clients.find "A" = some ⟨"A", 0, 1⟩ ∧
      vecGet exampleClubLongSeated.tables 0 = some ⟨1, true, "A", 0, 0, 0⟩ ∧
      (∃ c1, exampleClubLongSeated.closeClub = some c1 ∧
        vecGet c1.tables 0 = some ⟨1, false, "", 0, -35791393, 2147483647⟩) ∧
      (-35791393 : Int) ≠
        0 + ⌈((exampleClubLongSeated.closeTime - 0 : Int) : ℚ) / 60⌉ *
          exampleClubLongSeated.rent) := by
  have hceil : ⌈(((1140 - 1200 : Int)) : ℚ) / 60⌉ = -1 := by
    rw [Int.ceil_eq_iff]
    norm_num
  have hceil2 : ⌈(((1140 - 540 : Int)) : ℚ) / 60⌉ = 10 := by
    rw [Int.ceil_eq_iff]
    norm_num
  have hceil3 : ⌈(((2147483647 - 0 : Int)) : ℚ) / 60⌉ = 35791395 := by
    rw [Int.ceil_eq_iff]
    norm_num
  refine ⟨⟨exampleClubLate_reachable, by decide, by decide, by decide, by decide, ?_⟩,
    ⟨exampleClubDearSeated_reachable, by decide, by decide, ⟨_, rfl, by decide⟩, ?_⟩,
    ⟨exampleClubLongSeated_reachable, by decide, by decide, ⟨_, rfl, by decide⟩, ?_⟩⟩
  · simp only [exampleClubLate, exampleClub]
    rw [hceil]
    decide
  · simp only [exampleClubDearSeated, exampleClubDear, exampleClub2]
    rw [hceil2]
    decide
  · simp only [exampleClubLongSeated, exampleClubLong]
    rw [hceil3]
    decide

/-- C9, amended.  End-of-day settlement, for every state whose registry holds
no name twice and whose seat pointers are consistent (as in every reachable
state): `closeClub` returns and appends to `outputEvents` exactly one event
for each registered client, of kind 11 with time `closeTime` and the name of
the client as its argument, in strictly ascending order of the names, and no
other event; for every registered client seated at a table that is occupied
since a time not after `closeTime` and whose release at `closeTime` stays
within the range of a 32-bit `int`, that table is released with billing up to
`closeTime`; tables that no registered client points to are untouched. -/
theorem closeClub_settlement (c : ComputerClub) (hwf : c.clients.WF)
    (hseats : SeatsConsistent c) :
    ∃ (c1 : ComputerClub) (names : List String), c.closeClub = some c1 ∧
      c1.outputEvents = c.outputEvents ++
        names.map (fun n => ({ time := c.closeTime, id := 11, body := [n] } : Event)) ∧
      names.Nodup ∧
      (∀ n, n ∈ names ↔ c.isClientInClub n = true) ∧
      names.Pairwise (fun a b => strLess a.data b.data = true) ∧
      (∀ name cl, c.clients.find name = some cl → cl.isSeated = true →
        ∃ P, vecGet c.tables (cl.tableNumber - 1) = some P ∧ P.isOccupied = true ∧
          (P.startTime ≤ c.closeTime → P.ReleaseFits c.closeTime c.rent →
            vecGet c1.tables (cl.tableNumber - 1) =
              some { P with
                isOccupied := false
                currentClient := ""
                revenue :=
                  P.revenue + ⌈((c.closeTime - P.startTime : Int) : ℚ) / 60⌉ * c.rent
                totalTime := P.totalTime + (c.closeTime - P.startTime) })) ∧
      (∀ i, (¬ ∃ name cl, c.clients.find name = some cl ∧ cl.isSeated = true ∧
          cl.tableNumber - 1 = i) → vecGet c1.tables i = vecGet c.tables i) ∧
      c1.tables.length = c.tables.length ∧ c1.clients = c.clients ∧
      c1.waitingQueue = c.waitingQueue := by
  have hperm := sortNames_perm c.clients.keys
  have hmem : ∀ n, n ∈ sortNames c.clients.keys ↔ c.isClientInClub n = true := by
    intro n
    rw [hperm.mem_iff]
    exact (ClientMap.find_isSome_iff_mem_keys c.clients n).symm
  have hrange : ∀ n cl, c.clients.find n = some cl → cl.isSeated = true →
      0 ≤ cl.tableNumber - 1 ∧ cl.tableNumber - 1 < c.tables.length := by
    intro n cl hcl hs
    obtain ⟨P, hP, _, _⟩ := hseats n cl hcl hs
    exact vecGet_some_bounds _ _ _ hP
  obtain ⟨c1, hloop, hclients, hqueue, _, _, _, hout, hlen, htouched, hrest⟩ :=
    closeClubLoop_spec (sortNames c.clients.keys) c
      (fun n hn => (isClientInClub_eq_true c n).1 ((hmem n).1 hn)) hrange
  refine ⟨c1, sortNames c.clients.keys, hloop, ?_, ?_, hmem, ?_, ?_, ?_, hlen, hclients, hqueue⟩
  · rw [hout]
    rfl
  · exact hperm.nodup_iff.2 hwf
  · exact sortNames_sorted _ hwf
  · intro name cl hcl hs
    obtain ⟨P, hP, hPocc, _⟩ := hseats name cl hcl hs
    refine ⟨P, hP, hPocc, ?_⟩
    intro hle hfit
    have hd : 0 ≤ c.closeTime - P.startTime := by omega
    have hin : name ∈ sortNames c.clients.keys :=
      (hmem name).2 ((isClientInClub_eq_true c name).2 ⟨cl, hcl⟩)
    have hrel := Table.release_of_fits P c.closeTime c.rent hPocc hle hfit
    rw [htouched _ ⟨name, hin, cl, hcl, hs, rfl⟩, hP]
    simp [Table.forceRelease, hPocc, hrel, tdiv_add_59_eq_ceil _ hd]
  · intro i hnone
    apply hrest
    rintro ⟨n, _, cl, hcl, hs, hi⟩
    exact hnone ⟨n, cl, hcl, hs, hi⟩

/-- Witness for C9: `bob` arrived before `alice`; at closing time the events
of kind 11 name `alice` first, and the table of `bob`, occupied since 09:10,
is billed ten hours. -/
theorem closeClub_settlement_witness :
    ∃ (c1 : ComputerClub) (names : List String), exampleClub2Pair.closeClub = some c1 ∧
      c1.outputEvents = exampleClub2Pair.outputEvents ++
        names.map (fun n =>
          ({ time := exampleClub2Pair.closeTime, id := 11, body := [n] } : Event)) ∧
      names.Nodup ∧
      (∀ n, n ∈ names ↔ exampleClub2Pair.isClientInClub n = true) ∧
      names.Pairwise (fun a b => strLess a.data b.data = true) := by
  obtain ⟨c1, names, h1, h2, h3, h4, h5, _⟩ :=
    closeClub_settlement exampleClub2Pair
      (show List.Nodup (ClientMap.keys exampleClub2Pair.clients) by decide)
      exampleClub2Pair_reachable.seatsConsistent
  exact ⟨c1, names, h1, h2, h3, h4, h5⟩

end ComputerClub

/-! ### Rendering order -/

namespace ComputerClub

/-- The comparison of `printResults` orders events by time and, at equal
times, by kind: `b` is not less than `a` exactly when the pair of `a` comes
first or the pairs are equal. -/
theorem eventLess_eq_false_iff (a b : Event) :
    eventLess b a = false ↔ a.time < b.time ∨ (a.time = b.time ∧ a.id ≤ b.id) := by
  unfold eventLess
  split_ifs <;> simp only [decide_eq_false_iff_not] <;> omega

/-- C10. Rendering order: whatever implementation of `std::sort` is used, the
sequence of events that `printResults` prints is a rearrangement of
`outputEvents`, nothing dropped, added or duplicated, in non-decreasing order
of the pair (time, kind); in particular, of two printed events with the same
time, one of kind 11, 12 or 13 never precedes one of kind 1 to 4.  The method
works on a copy, the state is not changed. -/
theorem printResults_order (S : StdSort Event eventLess) (c : ComputerClub) :
    (c.sortedEvents S).Perm c.outputEvents ∧
    (c.sortedEvents S).Pairwise
      (fun a b => a.time < b.time ∨ (a.time = b.time ∧ a.id ≤ b.id)) ∧
    (∀ a b, [a, b].Sublist (c.sortedEvents S) → a.time = b.time → b.id ≤ 4 → a.id ≤ 4) := by
  have hsorted : (c.sortedEvents S).Pairwise
      (fun a b => a.time < b.time ∨ (a.time = b.time ∧ a.id ≤ b.id)) :=
    (S.ordered c.outputEvents).imp (fun {a b} h => (eventLess_eq_false_iff a b).1 h)
  refine ⟨S.perm c.outputEvents, hsorted, ?_⟩
  intro a b hsub htime hb
  have h := List.pairwise_iff_forall_sublist.1 hsorted hsub
  omega

/-- Witness for C10: the output of the example club that was closed after a
late seat request, printed with insertion sort, is a rearrangement of
`outputEvents`. -/
theorem printResults_order_witness :
    (exampleClubLateClosed.sortedEvents insertionStdSort).Perm
      exampleClubLateClosed.outputEvents :=
  (printResults_order insertionStdSort exampleClubLateClosed).1

/-- The printed order of the events of that club: the closing event of 19:00
moves before the seat request of 20:00. -/
theorem exampleClubLateClosed_sorted :
    exampleClubLateClosed.sortedEvents insertionStdSort =
      [⟨1080, 1, ["A"]⟩, ⟨1140, 11, ["A"]⟩, ⟨1200, 2, ["A", "1"]⟩] := by
  decide

end ComputerClub

/-! ### Idempotence of `release` -/

/-- A table is free after `release`. -/
theorem Table.release_isOccupied (P : Table) (t r : Int) :
    (P.release t r).isOccupied = false := by
  unfold Table.release
  by_cases hP : P.isOccupied = true
  · simp [hP]
  · simp [hP]

/-- C14. `release` is idempotent: a second `release`, at whatever time,
leaves the table as the first one left it, so nothing is billed twice and no
busy minutes are added; `release` on a table that is not occupied returns the
table unchanged. -/
theorem release_idempotent (T : Table) (t1 t2 r : Int) :
    (T.release t1 r).release t2 r = T.release t1 r ∧
    ((T.release t1 r).release t2 r).revenue = (T.release t1 r).revenue ∧
    ((T.release t1 r).release t2 r).totalTime = (T.release t1 r).totalTime ∧
    (T.isOccupied = false → T.release t1 r = T) := by
  have h := Table.release_isOccupied T t1 r
  have hsame : (T.release t1 r).release t2 r = T.release t1 r := by
    show (if (!(T.release t1 r).isOccupied) = true then _ else _) = _
    rw [if_pos (by simp [h])]
  refine ⟨hsame, by rw [hsame], by rw [hsame], ?_⟩
  intro hfree
  unfold Table.release
  simp [hfree]

/-- Witness for C14: a table occupied since 09:00 and released at 10:01 is
not billed again by a release at 12:00, and a free table is left as it is. -/
theorem release_idempotent_witness :
    ((⟨1, true, "a", 540, 0, 0⟩ : Table).release 601 10).release 720 10 =
      ⟨1, false, "", 540, 20, 61⟩ ∧
    (Table.new 1).release 601 10 = Table.new 1 :=
  ⟨(release_idempotent ⟨1, true, "a", 540, 0, 0⟩ 601 720 10).1.trans (by decide),
    (release_idempotent (Table.new 1) 601 720 10).2.2.2 (by decide)⟩

/-! ### `processEvent` returns on reachable states -/

namespace ComputerClub

/-- With consistent seat pointers no vector subscript is out of range, so
`processEvent` returns for every valid event. -/
theorem processEvent_returns (c : ComputerClub) (hseats : SeatsConsistent c) (e : Event)
    (hv : validEvent e = true) : ∃ c1, c.processEvent e = some c1 := by
  obtain ⟨t, k, body⟩ := e
  have hrange : ∀ name cl, c.clients.find name = some cl → cl.isSeated = true →
      0 ≤ cl.tableNumber - 1 ∧ cl.tableNumber - 1 < c.tables.length := by
    intro name cl hcl hs
    obtain ⟨P, hP, _, _⟩ := hseats name cl hcl hs
    exact vecGet_some_bounds _ _ _ hP
  rcases validEvent_cases _ hv with ⟨name, hk, hb⟩ | ⟨name, arg, n, hk, hb, hst, hn⟩ |
    ⟨name, rest, hk, hb⟩ | ⟨name, hk, hb⟩
  · simp only at hk hb
    subst hk hb
    by_cases hreg : c.isClientInClub name = true
    · exact ⟨_, arrived_registered c t name [] hreg⟩
    · have hreg : c.isClientInClub name = false := by simpa using hreg
      by_cases htime : t < c.openTime ∨ t ≥ c.closeTime
      · exact ⟨_, arrived_closed c t name [] hreg htime⟩
      · exact ⟨_, arrived_accepted c t name [] hreg htime⟩
  · simp only at hk hb
    subst hk hb
    by_cases hreg : c.isClientInClub name = true
    · obtain ⟨cl, hcl⟩ := (isClientInClub_eq_true c name).1 hreg
      by_cases hval : c.isTableNumberValid n = true
      · obtain ⟨h1n, h2n⟩ := (isTableNumberValid_iff c n).1 hval
        obtain ⟨T, hget⟩ := vecGet_isSome c.tables n h1n h2n
        by_cases hocc : T.isOccupied = true
        · exact ⟨_, sat_busy c t name arg n T hst hreg hval hget hocc⟩
        · have hocc : T.isOccupied = false := by simpa using hocc
          exact ⟨_, sat_granted c t name arg n cl T hst hcl h1n h2n hget hocc
            (hrange name cl hcl)⟩
      · have hval : c.isTableNumberValid n = false := by simpa using hval
        exact ⟨_, sat_invalid c t name arg n hst hreg hval⟩
    · have hreg : c.isClientInClub name = false := by simpa using hreg
      exact ⟨_, sat_unknown c t name arg n hst hreg⟩
  · simp only at hk hb
    subst hk hb
    by_cases hreg : c.isClientInClub name = true
    · by_cases hfree : c.hasFreeTables = true
      · exact ⟨_, waiting_free c t name rest hreg hfree⟩
      · have hfree : c.hasFreeTables = false := by simpa using hfree
        by_cases hfull : c.tables.length ≤ c.waitingQueue.length
        · exact ⟨_, waiting_overflow c t name rest hreg hfree hfull⟩
        · exact ⟨_, waiting_enqueued c t name rest hreg hfree (by omega)⟩
    · have hreg : c.isClientInClub name = false := by simpa using hreg
      exact ⟨_, waiting_unknown c t name rest hreg⟩
  · simp only at hk hb
    subst hk hb
    by_cases hreg : c.isClientInClub name = true
    · obtain ⟨cl, hcl⟩ := (isClientInClub_eq_true c name).1 hreg
      by_cases hs : cl.isSeated = true
      · obtain ⟨hr0, hr1⟩ := hrange name cl hcl hs
        cases hq : c.waitingQueue with
        | nil => exact ⟨_, left_freed c t name cl hcl hs hr0 hr1 hq⟩
        | cons q more => exact ⟨_, left_reseated c t name cl q more hcl hs hr0 hr1 hq⟩
      · have hs : cl.isSeated = false := by simpa using hs
        exact ⟨_, left_unseated c t name [] cl hcl hs⟩
    · have hreg : c.isClientInClub name = false := by simpa using hreg
      exact ⟨_, left_unknown c t name [] hreg⟩

/-- Every outcome of `processEvent` keeps the number of tables. -/
theorem outcome_tables_length (c c1 : ComputerClub) (e : Event) (h : Outcome c e c1) :
    c1.tables.length = c.tables.length := by
  cases h with
  | sat name arg n cl T hid hb hst hcl h1 h2 hget hfree hrange =>
    by_cases hs : cl.isSeated = true <;> simp [hs]
  | leftFreed name cl hid hb hcl hs0 hr0 hr1 hq => simp
  | leftReseated name cl q rest hid hb hcl hs0 hr0 hr1 hq => simp
  | _ => rfl

/-- Every outcome of `processEvent` keeps the configuration. -/
theorem outcome_config (c c1 : ComputerClub) (e : Event) (h : Outcome c e c1) :
    c1.openTime = c.openTime ∧ c1.closeTime = c.closeTime ∧ c1.rent = c.rent := by
  cases h <;> exact ⟨rfl, rfl, rfl⟩

end ComputerClub

/-- From a reachable state `processEvent` returns for every valid event. -/
theorem Reachable.step_returns {c : ComputerClub} (h : Reachable c) (e : Event)
    (hv : validEvent e = true) : ∃ c1, c.processEvent e = some c1 :=
  ComputerClub.processEvent_returns c h.seatsConsistent e hv

/-- From a reachable state the run over a list of valid events returns. -/
theorem Reachable.processEvents_returns {c : ComputerClub} (h : Reachable c) (es : List Event)
    (hv : ∀ e ∈ es, validEvent e = true) : ∃ c1, Club.processEvents c es = some c1 := by
  induction es generalizing c with
  | nil => exact ⟨c, rfl⟩
  | cons e rest ih =>
    obtain ⟨c2, h2⟩ := h.step_returns e (hv e (List.mem_cons_self _ _))
    obtain ⟨c1, h1⟩ := ih (Reachable.step c e c2 h (hv e (List.mem_cons_self _ _)) h2)
      (fun x hx => hv x (List.mem_cons_of_mem _ hx))
    exact ⟨c1, by simp only [Club.processEvents, h2]; exact h1⟩

/-! ### The waiting queue -/

/-- Every table of the vector can be read with `vecGet`. -/
theorem vecGet_of_mem (ts : List Table) (T : Table) (h : T ∈ ts) :
    ∃ i, vecGet ts i = some T := by
  obtain ⟨n, hn⟩ := List.mem_iff_getElem?.1 h
  refine ⟨(n : Int), ?_⟩
  simp [vecGet, hn]

/-- What `vecGet` reads is a table of the vector. -/
theorem mem_of_vecGet (ts : List Table) (i : Int) (T : Table) (h : vecGet ts i = some T) :
    T ∈ ts := by
  unfold vecGet at h
  split_ifs at h
  exact List.getElem?_mem h

namespace ComputerClub

/-- The method `hasFreeTables` fails when every table is occupied. -/
theorem hasFreeTables_eq_false_iff (c : ComputerClub) :
    c.hasFreeTables = false ↔ ∀ T ∈ c.tables, T.isOccupied = true := by
  simp [hasFreeTables, List.any_eq_false]

/-- Every outcome of `processEvent` keeps the queue within the capacity. -/
theorem queueBounded_step (c c1 : ComputerClub) (e : Event) (h : Outcome c e c1)
    (hinv : c.waitingQueue.length ≤ c.tables.length) :
    c1.waitingQueue.length ≤ c1.tables.length := by
  rw [outcome_tables_length c c1 e h]
  cases h with
  | enqueued name rest cl hid hb hcl hfree hroom =>
    simp only [List.length_append, List.length_singleton]
    omega
  | leftReseated name cl q rest hid hb hcl hs0 hr0 hr1 hq =>
    simp only
    rw [hq] at hinv
    simp only [List.length_cons] at hinv
    omega
  | _ => exact hinv

/-- C15. Queue bound: in every state reachable by valid events the waiting
queue holds at most as many names as the club has tables. -/
theorem queue_bound (c : ComputerClub) (h : Reachable c) :
    c.waitingQueue.length ≤ c.tables.length := by
  induction h with
  | start numTables openStr closeStr rate c hnew =>
    rw [(new_eq_some _ _ _ _ _ hnew).2.1]
    exact Nat.zero_le _
  | step c e c1 _ hv hp ih =>
    exact queueBounded_step c c1 e (processEvent_outcome c c1 e hv hp) ih

/-- Witness for C15: with one table and `B` waiting the queue is full. -/
theorem queue_bound_witness :
    exampleClubQueued.waitingQueue.length ≤ exampleClubQueued.tables.length :=
  queue_bound exampleClubQueued exampleClubQueued_reachable

/-- Every outcome of `processEvent` keeps all tables occupied while somebody
waits. -/
theorem queuedFull_step (c c1 : ComputerClub) (e : Event) (h : Outcome c e c1)
    (hinv : c.waitingQueue ≠ [] → ∀ T ∈ c.tables, T.isOccupied = true) :
    c1.waitingQueue ≠ [] → ∀ T ∈ c1.tables, T.isOccupied = true := by
  cases h with
  | error code => exact hinv
  | arrived name hid hb hnone => exact hinv
  | sat name arg n cl T0 hid hb hst hcl h1 h2 hget hfree hrange =>
    intro hq
    have hall := hinv hq T0 (mem_of_vecGet _ _ _ hget)
    rw [hfree] at hall
    cases hall
  | overflow name rest cl hid hb hcl hfree hfull => exact hinv
  | enqueued name rest cl hid hb hcl hfree hroom =>
    intro _
    exact (hasFreeTables_eq_false_iff c).1 hfree
  | leftUnseated name cl hid hb hcl hs0 => exact hinv
  | leftFreed name cl hid hb hcl hs0 hr0 hr1 hq =>
    intro hne
    exact absurd hq hne
  | leftReseated name cl q rest hid hb hcl hs0 hr0 hr1 hq =>
    intro _ T hT
    have hall := hinv (by rw [hq]; exact List.cons_ne_nil _ _)
    obtain ⟨i, hi⟩ := vecGet_of_mem _ T hT
    simp only at hi
    by_cases hidx : i = cl.tableNumber - 1
    · subst hidx
      rw [vecGet_modify_self _ _ _ hr0] at hi
      obtain ⟨P, _, hPT⟩ := Option.map_eq_some'.1 hi
      subst hPT
      rfl
    · rw [vecGet_modify_ne _ _ _ _ hr0 hidx, vecGet_modify_ne _ _ _ _ hr0 hidx] at hi
      exact hall T (mem_of_vecGet _ _ _ hi)

/-- C19. No waiting while a seat is open: in every state reachable by valid
events, if the waiting queue is not empty then every table is occupied. -/
theorem no_waiting_while_free (c : ComputerClub) (h : Reachable c)
    (hq : c.waitingQueue ≠ []) : ∀ T ∈ c.tables, T.isOccupied = true := by
  revert hq
  induction h with
  | start numTables openStr closeStr rate c hnew =>
    intro hne
    exact absurd (new_eq_some _ _ _ _ _ hnew).2.1 hne
  | step c e c1 _ hv hp ih =>
    exact queuedFull_step c c1 e (processEvent_outcome c c1 e hv hp) ih

/-- Witness for C19: `B` waits and the only table is occupied by `A`. -/
theorem no_waiting_while_free_witness :
    exampleClubQueued.waitingQueue ≠ [] ∧
    (⟨1, true, "A", 541, 0, 0⟩ : Table) ∈ exampleClubQueued.tables ∧
    (⟨1, true, "A", 541, 0, 0⟩ : Table).isOccupied = true :=
  ⟨by decide, by decide,
    no_waiting_while_free exampleClubQueued exampleClubQueued_reachable (by decide)
      ⟨1, true, "A", 541, 0, 0⟩ (by decide)⟩

end ComputerClub

/-! ### What a call does to a table -/

/-- On an occupied table `forceRelease` is `release`. -/
theorem Table.forceRelease_of_occupied (P : Table) (t r : Int) (h : P.isOccupied = true) :
    P.forceRelease t r = P.release t r := by
  simp [Table.forceRelease, h]

namespace ComputerClub

/-- With consistent seat pointers, a call of `processEvent` leaves a table as
it is, or occupies a free table for the client of the event, or releases a
table held by the client of the event, handing it to the head of the queue
when there is one. -/
theorem outcome_table_cases (c c1 : ComputerClub) (e : Event) (h : Outcome c e c1)
    (hseats : SeatsConsistent c) (i : Int) (T : Table) (hT : vecGet c.tables i = some T) :
    vecGet c1.tables i = some T ∨
    (T.isOccupied = false ∧ ∃ name rest, e.body = name :: rest ∧
      vecGet c1.tables i = some (T.occupy name e.time)) ∨
    (T.isOccupied = true ∧ ∃ name rest, e.body = name :: rest ∧ T.currentClient = name ∧
      (vecGet c1.tables i = some (T.release e.time c.rent) ∨
        ∃ q more, c.waitingQueue = q :: more ∧
          vecGet c1.tables i = some ((T.release e.time c.rent).occupy q e.time))) := by
  cases h with
  | error code => exact Or.inl hT
  | arrived name hid hb hnone => exact Or.inl hT
  | sat name arg n cl T0 hid hb hst hcl h1 h2 hget hfree hrange =>
    have hn0 : 0 ≤ n - 1 := by omega
    simp only
    by_cases hs : cl.isSeated = true
    · obtain ⟨P, hP, hPocc, hPname⟩ := hseats name cl hcl hs
      obtain ⟨hr0, hr1⟩ := hrange hs
      have hne : cl.tableNumber - 1 ≠ n - 1 := by
        intro heq
        rw [heq, hget] at hP
        cases hP
        simp [hfree] at hPocc
      rw [if_pos hs]
      by_cases hin : i = n - 1
      · subst hin
        rw [hget] at hT
        cases hT
        right; left
        refine ⟨hfree, name, [arg], hb, ?_⟩
        rw [vecGet_modify_self _ _ _ hn0, vecGet_modify_ne _ _ _ _ hr0 (Ne.symm hne), hget]
        rfl
      · rw [vecGet_modify_ne _ _ _ _ hn0 hin]
        by_cases hip : i = cl.tableNumber - 1
        · subst hip
          rw [hP] at hT
          cases hT
          right; right
          refine ⟨hPocc, name, [arg], hb, hPname, Or.inl ?_⟩
          rw [vecGet_modify_self _ _ _ hr0, hP, Option.map_some',
            Table.forceRelease_of_occupied _ _ _ hPocc]
        · left
          rw [vecGet_modify_ne _ _ _ _ hr0 hip]
          exact hT
    · rw [if_neg hs]
      by_cases hin : i = n - 1
      · subst hin
        rw [hget] at hT
        cases hT
        right; left
        refine ⟨hfree, name, [arg], hb, ?_⟩
        rw [vecGet_modify_self _ _ _ hn0, hget]
        rfl
      · left
        rw [vecGet_modify_ne _ _ _ _ hn0 hin]
        exact hT
  | overflow name rest cl hid hb hcl hfree hfull => exact Or.inl hT
  | enqueued name rest cl hid hb hcl hfree hroom => exact Or.inl hT
  | leftUnseated name cl hid hb hcl hs0 => exact Or.inl hT
  | leftFreed name cl hid hb hcl hs0 hr0 hr1 hq =>
    obtain ⟨P, hP, hPocc, hPname⟩ := hseats name cl hcl hs0
    simp only
    by_cases hip : i = cl.tableNumber - 1
    · subst hip
      rw [hP] at hT
      cases hT
      right; right
      refine ⟨hPocc, name, [], hb, hPname, Or.inl ?_⟩
      rw [vecGet_modify_self _ _ _ hr0, hP]
      rfl
    · left
      rw [vecGet_modify_ne _ _ _ _ hr0 hip]
      exact hT
  | leftReseated name cl q rest hid hb hcl hs0 hr0 hr1 hq =>
    obtain ⟨P, hP, hPocc, hPname⟩ := hseats name cl hcl hs0
    simp only
    by_cases hip : i = cl.tableNumber - 1
    · subst hip
      rw [hP] at hT
      cases hT
      right; right
      refine ⟨hPocc, name, [], hb, hPname, Or.inr ⟨q, rest, hq, ?_⟩⟩
      rw [vecGet_modify_self _ _ _ hr0, vecGet_modify_self _ _ _ hr0, hP]
      rfl
    · left
      rw [vecGet_modify_ne _ _ _ _ hr0 hip, vecGet_modify_ne _ _ _ _ hr0 hip]
      exact hT

end ComputerClub

/-! ### Seat pointers -/

namespace ComputerClub

/-- C18. Seat-pointer consistency: in every state reachable by valid events,
a registered client whose seat is table `k` has `1 ≤ k ≤ capacity` and table
`k` is occupied with that client as its occupant; hence no two registered
clients have the same seat.  An occupied table that a call of `processEvent`
changes is held by the client of the event, and `closeClub` returns and
changes only tables that are the seat of a registered client and held by that
client, which it releases. -/
theorem seat_pointer_consistency (c : ComputerClub) (h : Reachable c) :
    (∀ name cl, c.clients.find name = some cl → cl.isSeated = true →
      1 ≤ cl.tableNumber ∧ cl.tableNumber ≤ c.tables.length ∧
      ∃ T, vecGet c.tables (cl.tableNumber - 1) = some T ∧
        T.isOccupied = true ∧ T.currentClient = name) ∧
    (∀ n1 n2 cl1 cl2, c.clients.find n1 = some cl1 → c.clients.find n2 = some cl2 →
      cl1.isSeated = true → cl1.tableNumber = cl2.tableNumber → n1 = n2) ∧
    (∀ e c1, validEvent e = true → c.processEvent e = some c1 →
      ∀ i T, vecGet c.tables i = some T → T.isOccupied = true →
        vecGet c1.tables i ≠ some T →
        ∃ name rest, e.body = name :: rest ∧ T.currentClient = name) ∧
    (∃ c1, c.closeClub = some c1 ∧
      ∀ i T, vecGet c.tables i = some T → vecGet c1.tables i ≠ some T →
        ∃ name cl, c.clients.find name = some cl ∧ cl.isSeated = true ∧
          cl.tableNumber - 1 = i ∧ T.isOccupied = true ∧ T.currentClient = name ∧
          vecGet c1.tables i = some (T.release c.closeTime c.rent)) := by
  have hseats := h.seatsConsistent
  have hrange : ∀ n cl, c.clients.find n = some cl → cl.isSeated = true →
      0 ≤ cl.tableNumber - 1 ∧ cl.tableNumber - 1 < c.tables.length := by
    intro n cl hcl hs
    obtain ⟨P, hP, _, _⟩ := hseats n cl hcl hs
    exact vecGet_some_bounds _ _ _ hP
  refine ⟨?_, ?_, ?_, ?_⟩
  · intro name cl hcl hs
    obtain ⟨hr0, hr1⟩ := hrange name cl hcl hs
    exact ⟨by omega, by omega, hseats name cl hcl hs⟩
  · intro n1 n2 cl1 cl2 h1 h2 hs1 heq
    have hs2 : cl2.isSeated = true := by
      simpa [Client.isSeated, heq] using hs1
    obtain ⟨T1, hT1, _, hname1⟩ := hseats n1 cl1 h1 hs1
    obtain ⟨T2, hT2, _, hname2⟩ := hseats n2 cl2 h2 hs2
    rw [heq, hT2] at hT1
    cases hT1
    exact hname1.symm.trans hname2
  · intro e c1 hv hp i T hT hocc hchanged
    rcases outcome_table_cases c c1 e (processEvent_outcome c c1 e hv hp) hseats i T hT with
      hsame | ⟨hfree, _⟩ | ⟨_, name, rest, hb, hname, _⟩
    · exact absurd hsame hchanged
    · rw [hocc] at hfree
      cases hfree
    · exact ⟨name, rest, hb, hname⟩
  · have hperm := sortNames_perm c.clients.keys
    have hmem : ∀ n, n ∈ sortNames c.clients.keys → ∃ cl, c.clients.find n = some cl := by
      intro n hn
      have hk : n ∈ c.clients.keys := hperm.mem_iff.1 hn
      exact (isClientInClub_eq_true c n).1
        ((ClientMap.find_isSome_iff_mem_keys c.clients n).2 hk)
    obtain ⟨c1, hloop, _, _, _, _, _, _, _, htouched, hrest⟩ :=
      closeClubLoop_spec (sortNames c.clients.keys) c hmem hrange
    refine ⟨c1, hloop, ?_⟩
    intro i T hT hchanged
    by_cases htouch : ∃ n ∈ sortNames c.clients.keys, ∃ cl, c.clients.find n = some cl ∧
        cl.isSeated = true ∧ cl.tableNumber - 1 = i
    · obtain ⟨n, _, cl, hcl, hs, hi⟩ := htouch
      obtain ⟨P, hP, hPocc, hPname⟩ := hseats n cl hcl hs
      rw [hi, hT] at hP
      cases hP
      refine ⟨n, cl, hcl, hs, hi, hPocc, hPname, ?_⟩
      rw [htouched i ⟨n, ‹_›, cl, hcl, hs, hi⟩, hT, Option.map_some',
        Table.forceRelease_of_occupied _ _ _ hPocc]
    · exact absurd ((hrest i htouch).trans hT) hchanged

/-- Witness for C18: in the club where `A` sits at table 1 and `B` waits,
the seat of `A` is within range and names a table held by `A`. -/
theorem seat_pointer_consistency_witness :
    1 ≤ (⟨"A", 540, 1⟩ : Client).tableNumber ∧
    (⟨"A", 540, 1⟩ : Client).tableNumber ≤ exampleClubQueued.tables.length ∧
    ∃ T, vecGet exampleClubQueued.tables ((⟨"A", 540, 1⟩ : Client).tableNumber - 1) = some T ∧
      T.isOccupied = true ∧ T.currentClient = "A" :=
  (seat_pointer_consistency exampleClubQueued exampleClubQueued_reachable).1 "A"
    ⟨"A", 540, 1⟩ (by decide) (by decide)

end ComputerClub

/-! ### The occupied flag and the occupant -/

/-- A valid client name is not empty. -/
theorem isValidClientName_ne_empty (name : String) (h : isValidClientName name = true) :
    name ≠ "" := by
  intro hempty
  subst hempty
  simp [isValidClientName] at h

/-- The first argument of a valid event is a client name that is not empty. -/
theorem validEvent_head_ne_empty (e : Event) (hv : validEvent e = true)
    (name : String) (rest : List String) (hb : e.body = name :: rest) : name ≠ "" := by
  apply isValidClientName_ne_empty
  obtain ⟨t, k, body⟩ := e
  simp only at hb
  subst hb
  unfold validEvent at hv
  simp only [Bool.and_eq_true, decide_eq_true_eq] at hv
  obtain ⟨_, hshape⟩ := hv
  split_ifs at hshape
  · split at hshape
    · rename_i heq
      cases heq
      exact hshape
    · cases hshape
  · split at hshape
    · rename_i heq
      cases heq
      simp only [Bool.and_eq_true] at hshape
      exact hshape.1
    · cases hshape
  · exact hshape
  · split at hshape
    · rename_i heq
      cases heq
      exact hshape
    · cases hshape

/-- A fresh table satisfies the invariant. -/
theorem Table.flagMatches_new (num : Int) : (Table.new num).FlagMatches := by
  simp [Table.FlagMatches, Table.new]

/-- The method `occupy` with a name that is not empty establishes the invariant. -/
theorem Table.flagMatches_occupy (T : Table) (client : String) (t : Int)
    (h : client ≠ "") : (T.occupy client t).FlagMatches := by
  simp [Table.FlagMatches, Table.occupy, h]

/-- The method `release` preserves the invariant. -/
theorem Table.flagMatches_release (T : Table) (t r : Int) (h : T.FlagMatches) :
    (T.release t r).FlagMatches := by
  unfold Table.release
  by_cases hocc : T.isOccupied = true
  · simp [Table.FlagMatches, hocc]
  · simpa [hocc] using h

/-- The method `forceRelease` preserves the invariant. -/
theorem Table.flagMatches_forceRelease (T : Table) (t r : Int) (h : T.FlagMatches) :
    (T.forceRelease t r).FlagMatches := by
  unfold Table.forceRelease
  split_ifs
  · exact Table.flagMatches_release T t r h
  · exact h

/-- An element of a list after a method call on one position is an old
element or the result of the call on an old element. -/
theorem mem_modify_cases (f : Table → Table) (n : Nat) (l : List Table) (x : Table)
    (h : x ∈ l.modify f n) : x ∈ l ∨ ∃ y ∈ l, x = f y := by
  obtain ⟨m, hm⟩ := List.mem_iff_getElem?.1 h
  rw [List.getElem?_modify] at hm
  cases hlm : l[m]? with
  | none => simp [hlm] at hm
  | some y =>
    have hy : y ∈ l := List.getElem?_mem hlm
    simp only [hlm, Option.map_eq_map, Option.map_some', Option.some.injEq] at hm
    split_ifs at hm
    · exact Or.inr ⟨y, hy, hm.symm⟩
    · exact Or.inl (hm ▸ hy)

namespace ComputerClub

/-- Every outcome of `processEvent` on a valid event keeps the invariant of
the tables and keeps the empty name out of the queue. -/
theorem flagMatches_step (c c1 : ComputerClub) (e : Event) (h : Outcome c e c1)
    (hv : validEvent e = true)
    (hinv : (∀ T ∈ c.tables, T.FlagMatches) ∧ (∀ q ∈ c.waitingQueue, q ≠ "")) :
    (∀ T ∈ c1.tables, T.FlagMatches) ∧ (∀ q ∈ c1.waitingQueue, q ≠ "") := by
  obtain ⟨htab, hqueue⟩ := hinv
  cases h with
  | error code => exact ⟨htab, hqueue⟩
  | arrived name hid hb hnone => exact ⟨htab, hqueue⟩
  | sat name arg n cl T0 hid hb hst hcl h1 h2 hget hfree hrange =>
    refine ⟨?_, hqueue⟩
    have hname := validEvent_head_ne_empty e hv name [arg] hb
    have hmid : ∀ T ∈ (if cl.isSeated = true then
        c.tables.modify (fun P => P.forceRelease e.time c.rent) (cl.tableNumber - 1).toNat
      else c.tables), T.FlagMatches := by
      intro T hT
      split_ifs at hT
      · rcases mem_modify_cases _ _ _ _ hT with hold | ⟨y, hy, rfl⟩
        · exact htab T hold
        · exact Table.flagMatches_forceRelease y _ _ (htab y hy)
      · exact htab T hT
    intro T hT
    rcases mem_modify_cases _ _ _ _ hT with hold | ⟨y, _, rfl⟩
    · exact hmid T hold
    · exact Table.flagMatches_occupy y name _ hname
  | overflow name rest cl hid hb hcl hfree hfull => exact ⟨htab, hqueue⟩
  | enqueued name rest cl hid hb hcl hfree hroom =>
    refine ⟨htab, ?_⟩
    intro q hq
    rcases List.mem_append.1 hq with hold | hnew
    · exact hqueue q hold
    · rw [List.mem_singleton.1 hnew]
      exact validEvent_head_ne_empty e hv name rest hb
  | leftUnseated name cl hid hb hcl hs0 => exact ⟨htab, hqueue⟩
  | leftFreed name cl hid hb hcl hs0 hr0 hr1 hq =>
    refine ⟨?_, hqueue⟩
    intro T hT
    rcases mem_modify_cases _ _ _ _ hT with hold | ⟨y, hy, rfl⟩
    · exact htab T hold
    · exact Table.flagMatches_release y _ _ (htab y hy)
  | leftReseated name cl q rest hid hb hcl hs0 hr0 hr1 hq =>
    have hqne : q ≠ "" := hqueue q (by rw [hq]; exact List.mem_cons_self _ _)
    refine ⟨?_, fun x hx => hqueue x (by rw [hq]; exact List.mem_cons_of_mem _ hx)⟩
    intro T hT
    rcases mem_modify_cases _ _ _ _ hT with hold | ⟨y, _, rfl⟩
    · rcases mem_modify_cases _ _ _ _ hold with hold2 | ⟨y, hy, rfl⟩
      · exact htab T hold2
      · exact Table.flagMatches_release y _ _ (htab y hy)
    · exact Table.flagMatches_occupy y q _ hqne

/-- One iteration of the loop of `closeClub` keeps the invariant of the
tables and the queue. -/
theorem flagMatches_closeClubStep (c c1 : ComputerClub) (name : String)
    (h : closeClubStep c name = some c1)
    (hinv : (∀ T ∈ c.tables, T.FlagMatches) ∧ (∀ q ∈ c.waitingQueue, q ≠ "")) :
    (∀ T ∈ c1.tables, T.FlagMatches) ∧ (∀ q ∈ c1.waitingQueue, q ≠ "") := by
  obtain ⟨htab, hqueue⟩ := hinv
  unfold closeClubStep at h
  simp only at h
  split_ifs at h
  · split at h
    · cases h
    · rename_i tables1 hmod
      obtain ⟨_, _, rfl⟩ := vecModify_eq_some _ _ _ _ hmod
      cases h
      refine ⟨?_, hqueue⟩
      intro T hT
      rcases mem_modify_cases _ _ _ _ hT with hold | ⟨y, hy, rfl⟩
      · exact htab T hold
      · exact Table.flagMatches_forceRelease y _ _ (htab y hy)
  · cases h
    exact ⟨htab, hqueue⟩

/-- The loop of `closeClub` keeps the invariant of the tables and the queue. -/
theorem flagMatches_closeClubLoop (names : List String) (c c1 : ComputerClub)
    (h : closeClubLoop c names = some c1)
    (hinv : (∀ T ∈ c.tables, T.FlagMatches) ∧ (∀ q ∈ c.waitingQueue, q ≠ "")) :
    (∀ T ∈ c1.tables, T.FlagMatches) ∧ (∀ q ∈ c1.waitingQueue, q ≠ "") := by
  induction names generalizing c with
  | nil =>
    simp only [closeClubLoop, Option.some.injEq] at h
    exact h ▸ hinv
  | cons n rest ih =>
    simp only [closeClubLoop] at h
    split at h
    · cases h
    · rename_i c2 hstep
      exact ih c2 h (flagMatches_closeClubStep c c2 n hstep hinv)

/-- C16. Table invariant: in every state reachable by `processEvent` on valid
events, whose client names are not empty, and by `closeClub`, every table is
occupied exactly when its stored occupant name is not empty; `occupy` with a
name that is not empty and `release` each preserve this. -/
theorem table_invariant (c : ComputerClub) (h : ReachableClosing c) :
    (∀ T ∈ c.tables, (T.isOccupied = true ↔ T.currentClient ≠ "")) ∧
    (∀ (T : Table) (client : String) (t : Int), client ≠ "" →
      ((T.occupy client t).isOccupied = true ↔ (T.occupy client t).currentClient ≠ "")) ∧
    (∀ (T : Table) (t r : Int), (T.isOccupied = true ↔ T.currentClient ≠ "") →
      ((T.release t r).isOccupied = true ↔ (T.release t r).currentClient ≠ "")) := by
  refine ⟨?_, fun T client t hne => Table.flagMatches_occupy T client t hne,
    fun T t r hT => Table.flagMatches_release T t r hT⟩
  have hboth : (∀ T ∈ c.tables, T.FlagMatches) ∧ (∀ q ∈ c.waitingQueue, q ≠ "") := by
    induction h with
    | start numTables openStr closeStr rate c hnew =>
      obtain ⟨_, hq, _, _, htab⟩ := new_eq_some _ _ _ _ _ hnew
      refine ⟨?_, by rw [hq]; simp⟩
      intro T hT
      rw [htab] at hT
      obtain ⟨j, _, rfl⟩ := List.mem_map.1 hT
      exact Table.flagMatches_new _
    | step c e c1 _ hv hp ih =>
      exact flagMatches_step c c1 e (processEvent_outcome c c1 e hv hp) hv ih
    | close c c1 _ hclose ih =>
      exact flagMatches_closeClubLoop _ c c1 hclose ih
  exact hboth.1

/-- The state `exampleClubDroppedClosed` is reached by events and `closeClub`. -/
theorem exampleClubDroppedClosed_reachableClosing : ReachableClosing exampleClubDroppedClosed := by
  have h0 : ReachableClosing exampleClub := ReachableClosing.start 1 "09:00" "19:00" 10 _ (by decide)
  have h1 : ReachableClosing _ := ReachableClosing.step _ ⟨540, 1, ["A"]⟩ _ h0 (by decide) rfl
  have h2 : ReachableClosing _ := ReachableClosing.step _ ⟨541, 2, ["A", "1"]⟩ _ h1 (by decide) rfl
  have h3 : ReachableClosing _ := ReachableClosing.step _ ⟨542, 1, ["B"]⟩ _ h2 (by decide) rfl
  have h4 : ReachableClosing _ := ReachableClosing.step _ ⟨543, 3, ["B"]⟩ _ h3 (by decide) rfl
  have h5 : ReachableClosing _ := ReachableClosing.step _ ⟨544, 3, ["A"]⟩ _ h4 (by decide) rfl
  exact ReachableClosing.close _ _ h5 (by decide)

/-- Witness for C16: after the run and `closeClub` the table of the example
club, still held by `A`, is occupied and names an occupant. -/
theorem table_invariant_witness :
    (⟨1, true, "A", 541, 0, 0⟩ : Table) ∈ exampleClubDroppedClosed.tables ∧
    ((⟨1, true, "A", 541, 0, 0⟩ : Table).isOccupied = true ↔
      (⟨1, true, "A", 541, 0, 0⟩ : Table).currentClient ≠ "") :=
  ⟨by decide,
    (table_invariant exampleClubDroppedClosed exampleClubDroppedClosed_reachableClosing).1
      ⟨1, true, "A", 541, 0, 0⟩ (by decide)⟩

end ComputerClub

/-! ### Stability of the final sort -/

namespace ComputerClub

/-- C11, evaluation of the code at the failing input.  The whole run of
`main` on a club in which nine clients arrive between 09:00 and 09:08 and stay
until the club closes at 19:00.  `closeClub` appends their events of kind 11
in the order of the names, from `c1` to `c9`.  All nine have the time 19:00
and the kind 11, so the comparison of `printResults` does not order them.
With 18 events, more than the 16 up to which `std::sort` of libstdc++ only
inserts, the range is partitioned first, and the partition swaps events that
the comparison does not order: the printed sequence is a rearrangement of
`outputEvents` in the order of time and kind, as `std::sort` promises, but
the events of kind 11 are printed from `c9` down to `c1`, the reverse of the
order in which they were inserted. -/
theorem sort_not_stable :
    ComputerClub.new 1 "09:00" "19:00" 10 = some exampleClub ∧
    (∀ e ∈ [(⟨540, 1, ["c1"]⟩ : Event), ⟨541, 1, ["c2"]⟩, ⟨542, 1, ["c3"]⟩,
        ⟨543, 1, ["c4"]⟩, ⟨544, 1, ["c5"]⟩, ⟨545, 1, ["c6"]⟩, ⟨546, 1, ["c7"]⟩,
        ⟨547, 1, ["c8"]⟩, ⟨548, 1, ["c9"]⟩],
      validEvent e = true) ∧
    processEvents exampleClub
        [⟨540, 1, ["c1"]⟩, ⟨541, 1, ["c2"]⟩, ⟨542, 1, ["c3"]⟩, ⟨543, 1, ["c4"]⟩,
         ⟨544, 1, ["c5"]⟩, ⟨545, 1, ["c6"]⟩, ⟨546, 1, ["c7"]⟩, ⟨547, 1, ["c8"]⟩,
         ⟨548, 1, ["c9"]⟩] =
      some exampleClubNine ∧
    exampleClubNine.closeClub = some exampleClubNineClosed ∧
    [(⟨1140, 11, ["c1"]⟩ : Event), ⟨1140, 11, ["c9"]⟩].Sublist
      exampleClubNineClosed.outputEvents ∧
    eventLess ⟨1140, 11, ["c1"]⟩ ⟨1140, 11, ["c9"]⟩ = false ∧
    eventLess ⟨1140, 11, ["c9"]⟩ ⟨1140, 11, ["c1"]⟩ = false ∧
    exampleClubNineClosed.sortedEventsLibstdcxx = some exampleClubNinePrinted ∧
    exampleClubNinePrinted.Perm exampleClubNineClosed.outputEvents ∧
    exampleClubNinePrinted.Pairwise (fun a b => eventLess b a = false) ∧
    [(⟨1140, 11, ["c9"]⟩ : Event), ⟨1140, 11, ["c1"]⟩].Sublist exampleClubNinePrinted ∧
    exampleClubNinePrinted.drop 9 =
      [⟨1140, 11, ["c9"]⟩, ⟨1140, 11, ["c8"]⟩, ⟨1140, 11, ["c7"]⟩, ⟨1140, 11, ["c6"]⟩,
       ⟨1140, 11, ["c5"]⟩, ⟨1140, 11, ["c4"]⟩, ⟨1140, 11, ["c3"]⟩, ⟨1140, 11, ["c2"]⟩,
       ⟨1140, 11, ["c1"]⟩] :=
  ⟨by decide, by decide, by decide, by decide, by decide, by decide, by decide, by decide,
    by decide, by decide, by decide, by decide⟩

end ComputerClub

/-! ### Seats and queue entries of one name -/

/-- Orderly runs are runs. -/
theorem ReachableOrderly.reachable {c : ComputerClub} (h : ReachableOrderly c) :
    Reachable c := by
  induction h with
  | start numTables openStr closeStr rate c hnew =>
    exact Reachable.start numTables openStr closeStr rate c hnew
  | step c e c1 _ hv _ hp ih => exact Reachable.step c e c1 ih hv hp

namespace ComputerClub

/-- Every outcome of `processEvent` on an orderly event keeps the occupants
seated, the queue free of repetitions and the queue apart from the tables. -/
theorem orderly_step (c c1 : ComputerClub) (e : Event) (h : Outcome c e c1)
    (hord : OrderlyWaiting c e) (hseats : SeatsConsistent c)
    (hfull : c.waitingQueue ≠ [] → ∀ T ∈ c.tables, T.isOccupied = true)
    (hinv : OccupantsSeated c ∧ c.waitingQueue.Nodup ∧ QueueApart c) :
    OccupantsSeated c1 ∧ c1.waitingQueue.Nodup ∧ QueueApart c1 := by
  obtain ⟨hF, hN, hX⟩ := hinv
  cases h with
  | error code => exact ⟨hF, hN, hX⟩
  | arrived name hid hb hnone =>
    refine ⟨?_, hN, hX⟩
    intro i T hT hocc
    obtain ⟨cl, hcl, hidx⟩ := hF i T hT hocc
    refine ⟨cl, ?_, hidx⟩
    simp only
    rw [ClientMap.find_emplace_of_none _ _ _ hnone, if_neg]
    · exact hcl
    · intro heq
      rw [heq, hnone] at hcl
      cases hcl
  | sat name arg n cl T0 hid hb hst hcl h1 h2 hget hfree hrange =>
    have hn0 : 0 ≤ n - 1 := by omega
    have hqueue : c.waitingQueue = [] := by
      by_contra hne
      have hall := hfull hne T0 (mem_of_vecGet _ _ _ hget)
      rw [hfree] at hall
      cases hall
    refine ⟨?_, hN, ?_⟩
    · intro i T hT hocc
      simp only at hT ⊢
      by_cases hin : i = n - 1
      · subst hin
        rw [vecGet_modify_self _ _ _ hn0] at hT
        obtain ⟨P, _, hPT⟩ := Option.map_eq_some'.1 hT
        subst hPT
        refine ⟨cl.setTable n, ?_, rfl⟩
        simp only [Table.occupy]
        rw [ClientMap.find_modify, if_pos rfl, hcl]
        rfl
      · rw [vecGet_modify_ne _ _ _ _ hn0 hin] at hT
        have hold : vecGet c.tables i = some T ∧ i ≠ cl.tableNumber - 1 := by
          by_cases hs : cl.isSeated = true
          · rw [if_pos hs] at hT
            obtain ⟨hr0, _⟩ := hrange hs
            by_cases hip : i = cl.tableNumber - 1
            · subst hip
              rw [vecGet_modify_self _ _ _ hr0] at hT
              obtain ⟨P, _, hPT⟩ := Option.map_eq_some'.1 hT
              subst hPT
              rw [Table.forceRelease_isOccupied] at hocc
              cases hocc
            · rw [vecGet_modify_ne _ _ _ _ hr0 hip] at hT
              exact ⟨hT, hip⟩
          · rw [if_neg hs] at hT
            refine ⟨hT, ?_⟩
            intro hip
            have hb0 := (vecGet_some_bounds _ _ _ hT).1
            have hseat : cl.tableNumber = -1 := by
              simpa [Client.isSeated] using hs
            omega
        obtain ⟨cl2, hcl2, hidx⟩ := hF i T hold.1 hocc
        refine ⟨cl2, ?_, hidx⟩
        rw [ClientMap.find_modify, if_neg]
        · exact hcl2
        · intro heq
          rw [heq, hcl] at hcl2
          cases hcl2
          exact hold.2 hidx.symm
    · intro q hq
      simp only at hq
      rw [hqueue] at hq
      cases hq
  | overflow name rest cl hid hb hcl hfree hfullq =>
    obtain ⟨_, hnot⟩ := hord hid name rest hb
    refine ⟨?_, hN, hX⟩
    intro i T hT hocc
    obtain ⟨cl2, hcl2, hidx⟩ := hF i T hT hocc
    refine ⟨cl2, ?_, hidx⟩
    simp only
    rw [ClientMap.find_erase, if_neg (hnot T (mem_of_vecGet _ _ _ hT) hocc)]
    exact hcl2
  | enqueued name rest cl hid hb hcl hfree hroom =>
    obtain ⟨hnq, hnot⟩ := hord hid name rest hb
    refine ⟨hF, ?_, ?_⟩
    · simp only
      rw [List.nodup_append]
      refine ⟨hN, List.nodup_singleton _, ?_⟩
      intro x hx hx2
      rw [List.mem_singleton.1 hx2] at hx
      exact hnq hx
    · intro q hq i T hT hocc
      rcases List.mem_append.1 hq with hold | hnew
      · exact hX q hold i T hT hocc
      · rw [List.mem_singleton.1 hnew]
        exact hnot T (mem_of_vecGet _ _ _ hT) hocc
  | leftUnseated name cl hid hb hcl hs0 =>
    refine ⟨?_, hN, hX⟩
    intro i T hT hocc
    obtain ⟨cl2, hcl2, hidx⟩ := hF i T hT hocc
    refine ⟨cl2, ?_, hidx⟩
    simp only
    rw [ClientMap.find_erase, if_neg]
    · exact hcl2
    · intro heq
      rw [heq, hcl] at hcl2
      cases hcl2
      have hb0 := (vecGet_some_bounds _ _ _ hT).1
      have hseat : cl.tableNumber = -1 := by
        simpa [Client.isSeated] using hs0
      omega
  | leftFreed name cl hid hb hcl hs0 hr0 hr1 hq =>
    refine ⟨?_, hN, ?_⟩
    · intro i T hT hocc
      simp only at hT ⊢
      by_cases hip : i = cl.tableNumber - 1
      · subst hip
        rw [vecGet_modify_self _ _ _ hr0] at hT
        obtain ⟨P, _, hPT⟩ := Option.map_eq_some'.1 hT
        subst hPT
        rw [Table.release_isOccupied] at hocc
        cases hocc
      · rw [vecGet_modify_ne _ _ _ _ hr0 hip] at hT
        obtain ⟨cl2, hcl2, hidx⟩ := hF i T hT hocc
        refine ⟨cl2, ?_, hidx⟩
        rw [ClientMap.find_erase, if_neg]
        · exact hcl2
        · intro heq
          rw [heq, hcl] at hcl2
          cases hcl2
          exact hip hidx.symm
    · intro q hq2
      simp only at hq2
      rw [hq] at hq2
      cases hq2
  | leftReseated name cl q rest hid hb hcl hs0 hr0 hr1 hq =>
    obtain ⟨P, hP, hPocc, hPname⟩ := hseats name cl hcl hs0
    have hqmem : q ∈ c.waitingQueue := by rw [hq]; exact List.mem_cons_self _ _
    have hqn : q ≠ name := by
      intro heq
      exact hX q hqmem _ P hP hPocc (hPname.trans heq.symm)
    rw [hq, List.nodup_cons] at hN
    refine ⟨?_, hN.2, ?_⟩
    · intro i T hT hocc
      simp only at hT ⊢
      by_cases hip : i = cl.tableNumber - 1
      · subst hip
        rw [vecGet_modify_self _ _ _ hr0, vecGet_modify_self _ _ _ hr0] at hT
        obtain ⟨Q, _, hQT⟩ := Option.map_eq_some'.1 hT
        subst hQT
        refine ⟨(c.clients.get q).setTable cl.tableNumber, ?_, rfl⟩
        simp only [Table.occupy]
        rw [ClientMap.find_erase, if_neg hqn, ClientMap.find_update, if_pos rfl]
      · rw [vecGet_modify_ne _ _ _ _ hr0 hip, vecGet_modify_ne _ _ _ _ hr0 hip] at hT
        obtain ⟨cl2, hcl2, hidx⟩ := hF i T hT hocc
        refine ⟨cl2, ?_, hidx⟩
        have hne1 : T.currentClient ≠ name := by
          intro heq
          rw [heq, hcl] at hcl2
          cases hcl2
          exact hip hidx.symm
        have hne2 : T.currentClient ≠ q := hX q hqmem i T hT hocc
        rw [ClientMap.find_erase, if_neg hne1, ClientMap.find_update, if_neg hne2]
        exact hcl2
    · intro x hx i T hT hocc
      simp only at hx hT
      have hxq : x ∈ c.waitingQueue := by rw [hq]; exact List.mem_cons_of_mem _ hx
      by_cases hip : i = cl.tableNumber - 1
      · subst hip
        rw [vecGet_modify_self _ _ _ hr0, vecGet_modify_self _ _ _ hr0] at hT
        obtain ⟨Q, _, hQT⟩ := Option.map_eq_some'.1 hT
        subst hQT
        simp only [Table.occupy]
        intro heq
        exact hN.1 (heq ▸ hx)
      · rw [vecGet_modify_ne _ _ _ _ hr0 hip, vecGet_modify_ne _ _ _ _ hr0 hip] at hT
        exact hX x hxq i T hT hocc

end ComputerClub

/-- In a reachable state all tables are occupied while somebody waits. -/
theorem Reachable.allOccupiedIfQueued {c : ComputerClub} (h : Reachable c) :
    c.waitingQueue ≠ [] → ∀ T ∈ c.tables, T.isOccupied = true := by
  induction h with
  | start numTables openStr closeStr rate c hnew =>
    intro hne
    exact absurd (ComputerClub.new_eq_some _ _ _ _ _ hnew).2.1 hne
  | step c e c1 _ hv hp ih =>
    exact ComputerClub.queuedFull_step c c1 e (ComputerClub.processEvent_outcome c c1 e hv hp) ih

/-- An event of a kind other than 3 is orderly. -/
theorem orderlyWaiting_of_ne (c : ComputerClub) (e : Event) (hid : e.id ≠ 3) :
    OrderlyWaiting c e :=
  fun h => absurd h hid

/-- A waiting request of a client that is neither queued nor the occupant
of a table is orderly. -/
theorem orderlyWaiting_of_head (c : ComputerClub) (e : Event) (name : String)
    (rest : List String) (hb : e.body = name :: rest) (hq : name ∉ c.waitingQueue)
    (ht : ∀ T ∈ c.tables, T.isOccupied = true → T.currentClient ≠ name) :
    OrderlyWaiting c e := by
  intro _ name2 rest2 hb2
  rw [hb] at hb2
  cases hb2
  exact ⟨hq, ht⟩

namespace ComputerClub

/-- C12, counterexample.  `processClientWaiting` looks at the registry, the
free tables and the length of the queue only, not at the seat of the client
or at the names already queued.  First run: with one table, the seated client
`A` asks to wait and is queued, so `A` is the occupant of table 1 and an
entry of the queue at the same time.  Second run: with two tables taken by
`A` and `B`, client `C` asks to wait twice and is queued twice; when `A` and
`B` leave, both tables are handed to `C`, who then is the occupant of two
tables.  All events are valid and in chronological order. -/
theorem exclusivity_counterexample :
    processEvents exampleClub [⟨540, 1, ["A"]⟩, ⟨541, 2, ["A", "1"]⟩, ⟨545, 3, ["A"]⟩] =
      some exampleClubSelfQueued ∧
    (∀ e ∈ [(⟨540, 1, ["A"]⟩ : Event), ⟨541, 2, ["A", "1"]⟩, ⟨545, 3, ["A"]⟩],
      validEvent e = true) ∧
    vecGet exampleClubSelfQueued.tables 0 = some ⟨1, true, "A", 541, 0, 0⟩ ∧
    "A" ∈ exampleClubSelfQueued.waitingQueue ∧
    processEvents exampleClub2
        [⟨540, 1, ["A"]⟩, ⟨540, 1, ["B"]⟩, ⟨540, 1, ["C"]⟩, ⟨541, 2, ["A", "1"]⟩,
         ⟨542, 2, ["B", "2"]⟩, ⟨543, 3, ["C"]⟩, ⟨544, 3, ["C"]⟩] =
      some exampleClub2Double ∧
    (∀ e ∈ [(⟨540, 1, ["A"]⟩ : Event), ⟨540, 1, ["B"]⟩, ⟨540, 1, ["C"]⟩,
        ⟨541, 2, ["A", "1"]⟩, ⟨542, 2, ["B", "2"]⟩, ⟨543, 3, ["C"]⟩, ⟨544, 3, ["C"]⟩,
        ⟨550, 4, ["A"]⟩, ⟨560, 4, ["B"]⟩],
      validEvent e = true) ∧
    exampleClub2Double.waitingQueue = ["C", "C"] ∧
    ¬ exampleClub2Double.waitingQueue.Nodup ∧
    processEvents exampleClub2Double [⟨550, 4, ["A"]⟩, ⟨560, 4, ["B"]⟩] =
      some exampleClub2Both ∧
    vecGet exampleClub2Both.tables 0 = some ⟨1, true, "C", 550, 10, 9⟩ ∧
    vecGet exampleClub2Both.tables 1 = some ⟨2, true, "C", 560, 10, 18⟩ :=
  ⟨by decide, by decide, by decide, by decide, by decide, by decide, by decide, by decide,
    by decide, by decide, by decide⟩

/-- C12, amended.  Seat and queue exclusivity: in every state reachable by
valid events in which a waiting request is sent only by a client that neither
occupies a table nor is in the queue already, every client name is the
occupant of at most one table, occurs at most once in the waiting queue, and
is never at the same time the occupant of a table and an entry of the waiting
queue. -/
theorem exclusivity_orderly (c : ComputerClub) (h : ReachableOrderly c) :
    (∀ i j T1 T2, vecGet c.tables i = some T1 → vecGet c.tables j = some T2 →
      T1.isOccupied = true → T2.isOccupied = true →
      T1.currentClient = T2.currentClient → i = j) ∧
    c.waitingQueue.Nodup ∧
    (∀ q ∈ c.waitingQueue, ∀ T ∈ c.tables, T.isOccupied = true → T.currentClient ≠ q) := by
  have hinv : OccupantsSeated c ∧ c.waitingQueue.Nodup ∧ QueueApart c := by
    induction h with
    | start numTables openStr closeStr rate c hnew =>
      obtain ⟨_, hq, _, _, _⟩ := new_eq_some _ _ _ _ _ hnew
      refine ⟨?_, by rw [hq]; exact List.nodup_nil, ?_⟩
      · intro i T hT hocc
        rw [new_tables_free _ _ _ _ _ hnew i T hT] at hocc
        cases hocc
      · intro q hqm
        rw [hq] at hqm
        cases hqm
    | step c e c1 hprev hv hord hp ih =>
      exact orderly_step c c1 e (processEvent_outcome c c1 e hv hp) hord
        hprev.reachable.seatsConsistent hprev.reachable.allOccupiedIfQueued ih
  obtain ⟨hF, hN, hX⟩ := hinv
  refine ⟨?_, hN, ?_⟩
  · intro i j T1 T2 h1 h2 ho1 ho2 heq
    obtain ⟨cl1, hcl1, hi⟩ := hF i T1 h1 ho1
    obtain ⟨cl2, hcl2, hj⟩ := hF j T2 h2 ho2
    rw [heq, hcl2] at hcl1
    cases hcl1
    omega
  · intro q hq T hT hocc
    obtain ⟨i, hi⟩ := vecGet_of_mem _ T hT
    exact hX q hq i T hi hocc

/-- The state `exampleClubQueued` is reached by an orderly run. -/
theorem exampleClubQueued_orderly : ReachableOrderly exampleClubQueued := by
  have h0 : ReachableOrderly exampleClub :=
    ReachableOrderly.start 1 "09:00" "19:00" 10 _ (by decide)
  have h1 : ReachableOrderly _ := ReachableOrderly.step _ ⟨540, 1, ["A"]⟩ _ h0 (by decide)
    (orderlyWaiting_of_ne _ _ (by decide)) rfl
  have h2 : ReachableOrderly _ := ReachableOrderly.step _ ⟨541, 2, ["A", "1"]⟩ _ h1 (by decide)
    (orderlyWaiting_of_ne _ _ (by decide)) rfl
  have h3 : ReachableOrderly _ := ReachableOrderly.step _ ⟨542, 1, ["B"]⟩ _ h2 (by decide)
    (orderlyWaiting_of_ne _ _ (by decide)) rfl
  exact ReachableOrderly.step _ ⟨543, 3, ["B"]⟩ _ h3 (by decide)
    (orderlyWaiting_of_head _ _ "B" [] rfl (by decide) (by decide)) (by decide)

/-- Witness for C12: `A` sits at the only table and `B`, who has no seat,
waits; no name is queued twice and the queued name holds no table. -/
theorem exclusivity_orderly_witness :
    exampleClubQueued.waitingQueue.Nodup ∧
    (∀ q ∈ exampleClubQueued.waitingQueue, ∀ T ∈ exampleClubQueued.tables,
      T.isOccupied = true → T.currentClient ≠ q) :=
  (exclusivity_orderly exampleClubQueued exampleClubQueued_orderly).2

end ComputerClub

/-! ### Tables left occupied at closing time -/

namespace ComputerClub

/-- C17, evaluation of the code at the failing input.  The whole run of
`main` on a club with one table: `A` takes the table, `B` waits, and `A` asks
to wait while the queue is full.  The overflow branch removes `A` from the
registry and leaves the table occupied; `closeClub` visits the registered
clients only, so after it table 1 is still occupied by `A`, with no revenue
and no busy minutes for the stay that began at 09:01. -/
theorem closing_leaves_table_occupied :
    ComputerClub.new 1 "09:00" "19:00" 10 = some exampleClub ∧
    (∀ e ∈ [(⟨540, 1, ["A"]⟩ : Event), ⟨541, 2, ["A", "1"]⟩, ⟨542, 1, ["B"]⟩,
        ⟨543, 3, ["B"]⟩, ⟨544, 3, ["A"]⟩],
      validEvent e = true) ∧
    processEvents exampleClub
        [⟨540, 1, ["A"]⟩, ⟨541, 2, ["A", "1"]⟩, ⟨542, 1, ["B"]⟩, ⟨543, 3, ["B"]⟩,
         ⟨544, 3, ["A"]⟩] =
      some exampleClubDropped ∧
    exampleClubDropped.closeClub = some exampleClubDroppedClosed ∧
    exampleClubDroppedClosed.tables = [⟨1, true, "A", 541, 0, 0⟩] ∧
    (∃ T ∈ exampleClubDroppedClosed.tables, T.isOccupied = true) :=
  ⟨by decide, by decide, by decide, by decide, by decide, by decide⟩

end ComputerClub

/-! ### Revenue -/

/-- In a vector of the same length the same subscripts are in range. -/
theorem vecGet_isSome_of_length (ts ts1 : List Table) (hlen : ts1.length = ts.length)
    (i : Int) (T : Table) (h : vecGet ts i = some T) : ∃ T1, vecGet ts1 i = some T1 := by
  obtain ⟨h0, h1⟩ := vecGet_some_bounds _ _ _ h
  have := vecGet_isSome ts1 (i + 1) (by omega) (by omega)
  simpa using this

namespace ComputerClub

end ComputerClub

/-! ### Busy minutes -/

namespace ComputerClub

/-- Every event that a call appends carries the time of the processed event. -/
theorem outcome_output_times (c c1 : ComputerClub) (e : Event) (h : Outcome c e c1) :
    ∀ x ∈ c1.outputEvents, x ∈ c.outputEvents ∨ x.time = e.time := by
  intro x hx
  cases h <;>
    (simp only [List.mem_append, List.mem_cons, List.mem_singleton, List.not_mem_nil,
        or_false] at hx
     rcases hx with hold | hnew
     · exact Or.inl hold
     · right
       first
         | (rw [hnew])
         | (rcases hnew with hnew | hnew <;> rw [hnew] <;> rfl))

/-- A call that changes the tables was made for a registered client. -/
theorem outcome_tables_or_registered (c c1 : ComputerClub) (e : Event) (h : Outcome c e c1) :
    c1.tables = c.tables ∨ ∃ name cl, c.clients.find name = some cl := by
  cases h with
  | sat name arg n cl T hid hb hst hcl h1 h2 hget hfree hrange => exact Or.inr ⟨name, cl, hcl⟩
  | leftFreed name cl hid hb hcl hs0 hr0 hr1 hq => exact Or.inr ⟨name, cl, hcl⟩
  | leftReseated name cl q rest hid hb hcl hs0 hr0 hr1 hq => exact Or.inr ⟨name, cl, hcl⟩
  | _ => exact Or.inl rfl

/-- Every outcome of `processEvent` keeps `ArrivalSeen`. -/
theorem arrivalSeen_step (c c1 : ComputerClub) (e : Event) (h : Outcome c e c1)
    (hinv : ArrivalSeen c) : ArrivalSeen c1 := by
  obtain ⟨more, hout⟩ := outcome_output c c1 e h
  have hconf := outcome_config c c1 e h
  have hkeep : (∃ x ∈ c.outputEvents, c.openTime ≤ x.time) →
      ∃ x ∈ c1.outputEvents, c1.openTime ≤ x.time := by
    rintro ⟨x, hx, hxt⟩
    exact ⟨x, by rw [hout]; exact List.mem_append_left _ hx, by rw [hconf.1]; exact hxt⟩
  cases h with
  | error code => exact fun hpre => hkeep (hinv hpre)
  | arrived name hid hb hnone htime =>
    intro _
    exact ⟨e, by simp, htime.1⟩
  | sat name arg n cl T hid hb hst hcl h1 h2 hget hfree hrange =>
    exact fun _ => hkeep (hinv (Or.inl ⟨name, cl, hcl⟩))
  | overflow name rest cl hid hb hcl hfree hfull =>
    exact fun _ => hkeep (hinv (Or.inl ⟨name, cl, hcl⟩))
  | enqueued name rest cl hid hb hcl hfree hroom =>
    exact fun _ => hkeep (hinv (Or.inl ⟨name, cl, hcl⟩))
  | leftUnseated name cl hid hb hcl hs0 =>
    exact fun _ => hkeep (hinv (Or.inl ⟨name, cl, hcl⟩))
  | leftFreed name cl hid hb hcl hs0 hr0 hr1 hq =>
    exact fun _ => hkeep (hinv (Or.inl ⟨name, cl, hcl⟩))
  | leftReseated name cl q rest hid hb hcl hs0 hr0 hr1 hq =>
    exact fun _ => hkeep (hinv (Or.inl ⟨name, cl, hcl⟩))

/-- The time of a valid event lies within one day. -/
theorem validEvent_time (e : Event) (hv : validEvent e = true) :
    0 ≤ e.time ∧ e.time < 1440 := by
  unfold validEvent at hv
  simp only [Bool.and_eq_true, decide_eq_true_eq] at hv
  exact hv.1

/-- The opening and the closing time of a freshly constructed club are in the
range of `int`. -/
theorem new_times_fit (numTables : Int) (openStr closeStr : String) (rate : Int)
    (c : ComputerClub) (h : ComputerClub.new numTables openStr closeStr rate = some c) :
    fitsInt c.openTime ∧ fitsInt c.closeTime := by
  unfold ComputerClub.new at h
  split at h
  · rename_i o cl ho hcl
    cases h
    have hfit : ∀ (str : String) (v : Int), TimeUtils.timeToMinutes str = some v →
        fitsInt v := by
      intro str v hv
      unfold TimeUtils.timeToMinutes at hv
      simp only at hv
      split at hv
      · cases hv
        exact fitsInt_wrapInt _
      · cases hv
    exact ⟨hfit _ _ ho, hfit _ _ hcl⟩
  · cases h

/-- Every outcome of `processEvent` on an event of one day that is not before
the events already processed keeps `BusyWithin`. -/
theorem busyWithin_step (c c1 : ComputerClub) (e : Event) (h : Outcome c e c1)
    (hseats : SeatsConsistent c) (hstart : StartTimesEchoed c) (hseen : ArrivalSeen c)
    (hchron : ∀ x ∈ c.outputEvents, x.time ≤ e.time)
    (htime : 0 ≤ e.time ∧ e.time < 1440) (hinv : BusyWithin c) :
    BusyWithin c1 := by
  obtain ⟨more, hout⟩ := outcome_output c c1 e h
  have hconf := outcome_config c c1 e h
  have hlen := outcome_tables_length c c1 e h
  have hemem : e ∈ c1.outputEvents := by rw [hout]; simp
  have hold : ∀ x ∈ c.outputEvents, x ∈ c1.outputEvents :=
    fun x hx => by rw [hout]; exact List.mem_append_left _ hx
  intro i T1 hT1
  rw [hconf.1]
  obtain ⟨T, hT⟩ := vecGet_isSome_of_length c1.tables c.tables hlen.symm i T1 hT1
  obtain ⟨h0, hocc, hfree⟩ := hinv i T hT
  have hkeep : vecGet c1.tables i = some T →
      0 ≤ T1.totalTime ∧
      (T1.isOccupied = true →
        c.openTime ≤ T1.startTime ∧ T1.totalTime ≤ T1.startTime - c.openTime ∧
        0 ≤ T1.startTime ∧ T1.totalTime ≤ T1.startTime) ∧
      (T1.isOccupied = false →
        T1.totalTime = 0 ∨
          ∃ x ∈ c1.outputEvents, T1.totalTime ≤ x.time - c.openTime ∧
            T1.totalTime ≤ x.time) := by
    intro hsame
    rw [hT1] at hsame
    cases hsame
    refine ⟨h0, hocc, ?_⟩
    intro hf
    rcases hfree hf with hz | ⟨x, hx, hxt⟩
    · exact Or.inl hz
    · exact Or.inr ⟨x, hold x hx, hxt⟩
  rcases outcome_tables_or_registered c c1 e h with htabs | ⟨name0, cl0, hcl0⟩
  · apply hkeep
    rw [htabs]
    exact hT
  · obtain ⟨y, hy, hyt⟩ := hseen (Or.inl ⟨name0, cl0, hcl0⟩)
    have hopen : c.openTime ≤ e.time := le_trans hyt (hchron y hy)
    -- the busy minutes after a release at the time of the event
    have hrelease : T.isOccupied = true →
        (T.release e.time c.rent).totalTime = T.totalTime + (e.time - T.startTime) ∧
        T.startTime ≤ e.time ∧ c.openTime ≤ T.startTime ∧
        T.totalTime ≤ T.startTime - c.openTime ∧ 0 ≤ T.startTime ∧
        T.totalTime ≤ T.startTime := by
      intro hTocc
      obtain ⟨hs1, hs2, hs3, hs4⟩ := hocc hTocc
      obtain ⟨x, hx, hxt⟩ := hstart i T hT hTocc
      have hle : T.startTime ≤ e.time := by rw [← hxt]; exact hchron x hx
      refine ⟨?_, hle, hs1, hs2, hs3, hs4⟩
      apply Table.release_totalTime_of_fits _ _ _ hTocc
      · constructor <;> omega
      · constructor <;> omega
    rcases outcome_table_cases c c1 e h hseats i T hT with
      hsame | ⟨hTfree, name, rest, _, hocc1⟩ |
      ⟨hTocc, name, rest, _, _, hrel | ⟨q, more2, _, hrel⟩⟩
    · exact hkeep hsame
    · rw [hT1] at hocc1
      cases hocc1
      refine ⟨h0, ?_, ?_⟩
      · intro _
        refine ⟨hopen, ?_, htime.1, ?_⟩
        · show T.totalTime ≤ e.time - c.openTime
          rcases hfree hTfree with hz | ⟨x, hx, hxt⟩
          · omega
          · have := hchron x hx
            omega
        · show T.totalTime ≤ e.time
          rcases hfree hTfree with hz | ⟨x, hx, hxt⟩
          · omega
          · have := hchron x hx
            omega
      · intro hf
        simp [Table.occupy] at hf
    · rw [hT1] at hrel
      cases hrel
      obtain ⟨htot, hle, hs1, hs2, hs3, hs4⟩ := hrelease hTocc
      refine ⟨by rw [htot]; omega, ?_, ?_⟩
      · intro hf
        rw [Table.release_isOccupied] at hf
        cases hf
      · intro _
        exact Or.inr ⟨e, hemem, by rw [htot]; omega, by rw [htot]; omega⟩
    · rw [hT1] at hrel
      cases hrel
      obtain ⟨htot0, hle, hs1, hs2, hs3, hs4⟩ := hrelease hTocc
      have htot : ((T.release e.time c.rent).occupy q e.time).totalTime =
          T.totalTime + (e.time - T.startTime) := htot0
      refine ⟨by rw [htot]; omega, ?_, ?_⟩
      · intro _
        refine ⟨hopen, ?_, htime.1, ?_⟩
        · rw [htot]
          show T.totalTime + (e.time - T.startTime) ≤ e.time - c.openTime
          omega
        · rw [htot]
          show T.totalTime + (e.time - T.startTime) ≤ e.time
          omega
      · intro hf
        simp [Table.occupy] at hf

end ComputerClub

/-- The closing time of a reachable state is in the range of `int`. -/
theorem Reachable.closeTime_fits {c : ComputerClub} (h : Reachable c) :
    fitsInt c.closeTime := by
  induction h with
  | start numTables openStr closeStr rate c hnew =>
    exact (ComputerClub.new_times_fit _ _ _ _ _ hnew).2
  | step c e c1 _ hv hp ih =>
    rw [(ComputerClub.outcome_config c c1 e
      (ComputerClub.processEvent_outcome c c1 e hv hp)).2.1]
    exact ih

namespace ComputerClub

/-- A chronological run of valid events from a reachable state returns and
keeps `BusyWithin`, `ArrivalSeen` and a bound on the times of the output. -/
theorem run_busyWithin (es : List Event) (c : ComputerClub) (hR : Reachable c)
    (hM : BusyWithin c) (hL : ArrivalSeen c) (B : Int)
    (hB : ∀ x ∈ c.outputEvents, x.time ≤ B)
    (hvalid : ∀ e ∈ es, validEvent e = true)
    (hchron : es.Pairwise (fun a b => a.time ≤ b.time))
    (hfirst : ∀ x ∈ c.outputEvents, ∀ e ∈ es, x.time ≤ e.time)
    (hesB : ∀ e ∈ es, e.time ≤ B) :
    ∃ c1, processEvents c es = some c1 ∧ Reachable c1 ∧ BusyWithin c1 ∧
      (∀ x ∈ c1.outputEvents, x.time ≤ B) ∧
      c1.openTime = c.openTime ∧ c1.closeTime = c.closeTime := by
  induction es generalizing c with
  | nil => exact ⟨c, rfl, hR, hM, hB, rfl, rfl⟩
  | cons e rest ih =>
    have hve := hvalid e (List.mem_cons_self _ _)
    obtain ⟨c2, hp⟩ := hR.step_returns e hve
    have hout := processEvent_outcome c c2 e hve hp
    have hchron_e : ∀ x ∈ c.outputEvents, x.time ≤ e.time :=
      fun x hx => hfirst x hx e (List.mem_cons_self _ _)
    rw [List.pairwise_cons] at hchron
    have htimes := outcome_output_times c c2 e hout
    have hconf := outcome_config c c2 e hout
    obtain ⟨c1, hrun, hR1, hM1, hB1, hopen1, hclose1⟩ :=
      ih c2 (Reachable.step c e c2 hR hve hp)
        (busyWithin_step c c2 e hout hR.seatsConsistent hR.startTimesEchoed hL hchron_e
          (validEvent_time e hve) hM)
        (arrivalSeen_step c c2 e hout hL)
        (fun x hx => by
          rcases htimes x hx with hold | hnew
          · exact hB x hold
          · rw [hnew]; exact hesB e (List.mem_cons_self _ _))
        (fun x hx => hvalid x (List.mem_cons_of_mem _ hx))
        hchron.2
        (fun x hx y hy => by
          rcases htimes x hx with hold | hnew
          · exact hfirst x hold y (List.mem_cons_of_mem _ hy)
          · rw [hnew]; exact hchron.1 y hy)
        (fun x hx => hesB x (List.mem_cons_of_mem _ hx))
    refine ⟨c1, ?_, hR1, hM1, hB1, hopen1.trans hconf.1, hclose1.trans hconf.2.1⟩
    simp only [processEvents, hp]
    exact hrun

/-- After a run that keeps `BusyWithin` and has no event later than
`closeTime`, `closeClub` returns and the busy minutes of every table lie
between 0 and the length of the working day. -/
theorem closeClub_busy (c : ComputerClub) (hR : Reachable c) (hM : BusyWithin c)
    (hB : ∀ x ∈ c.outputEvents, x.time ≤ c.closeTime) (hopen : c.openTime < c.closeTime) :
    ∃ c1, c.closeClub = some c1 ∧
      ∀ T ∈ c1.tables, 0 ≤ T.totalTime ∧ T.totalTime ≤ c.closeTime - c.openTime := by
  have hseats := hR.seatsConsistent
  have hstart := hR.startTimesEchoed
  have hcfit := hR.closeTime_fits
  have hrange : ∀ n cl, c.clients.find n = some cl → cl.isSeated = true →
      0 ≤ cl.tableNumber - 1 ∧ cl.tableNumber - 1 < c.tables.length := by
    intro n cl hcl hs
    obtain ⟨P, hP, _, _⟩ := hseats n cl hcl hs
    exact vecGet_some_bounds _ _ _ hP
  have hperm := sortNames_perm c.clients.keys
  have hmem : ∀ n, n ∈ sortNames c.clients.keys → ∃ cl, c.clients.find n = some cl := by
    intro n hn
    have hk : n ∈ c.clients.keys := hperm.mem_iff.1 hn
    exact (isClientInClub_eq_true c n).1
      ((ClientMap.find_isSome_iff_mem_keys c.clients n).2 hk)
  obtain ⟨c1, hloop, _, _, _, _, _, _, hlen, htouched, hrest⟩ :=
    closeClubLoop_spec (sortNames c.clients.keys) c hmem hrange
  refine ⟨c1, hloop, ?_⟩
  intro T1 hT1mem
  obtain ⟨i, hT1⟩ := vecGet_of_mem _ T1 hT1mem
  obtain ⟨T, hT⟩ := vecGet_isSome_of_length c1.tables c.tables hlen.symm i T1 hT1
  obtain ⟨h0, hocc, hfree⟩ := hM i T hT
  have hsame : vecGet c1.tables i = some T →
      0 ≤ T1.totalTime ∧ T1.totalTime ≤ c.closeTime - c.openTime := by
    intro hs
    rw [hT1] at hs
    cases hs
    refine ⟨h0, ?_⟩
    by_cases ho : T1.isOccupied = true
    · obtain ⟨_, hs2, _, _⟩ := hocc ho
      obtain ⟨x, hx, hxt⟩ := hstart i T1 hT ho
      have := hB x hx
      omega
    · rcases hfree (by simpa using ho) with hz | ⟨x, hx, hxt, _⟩
      · omega
      · have := hB x hx
        omega
  by_cases htouch : ∃ n ∈ sortNames c.clients.keys, ∃ cl, c.clients.find n = some cl ∧
      cl.isSeated = true ∧ cl.tableNumber - 1 = i
  · have hnew := htouched i htouch
    rw [hT, Option.map_some', hT1] at hnew
    cases hnew
    by_cases ho : T.isOccupied = true
    · obtain ⟨hs1, hs2, hs3, hs4⟩ := hocc ho
      obtain ⟨x, hx, hxt⟩ := hstart i T hT ho
      have hle : T.startTime ≤ c.closeTime := by rw [← hxt]; exact hB x hx
      obtain ⟨hc1, hc2⟩ := hcfit
      have htot : (T.forceRelease c.closeTime c.rent).totalTime =
          T.totalTime + (c.closeTime - T.startTime) := by
        rw [Table.forceRelease_of_occupied _ _ _ ho]
        apply Table.release_totalTime_of_fits _ _ _ ho
        · constructor <;> omega
        · constructor <;> omega
      rw [htot]
      omega
    · apply hsame
      have hsameT : T.forceRelease c.closeTime c.rent = T := by
        simp [Table.forceRelease, ho]
      rw [hT1, hsameT]
  · exact hsame ((hrest i htouch).trans hT)

/-- C20. Busy-time bound: for every configuration with `openTime < closeTime`
and every sequence of valid events in chronological order whose times are all
at most `closeTime`, the run returns, `closeClub` returns, and afterwards the
busy minutes of every table lie between 0 and `closeTime - openTime`. -/
theorem busy_time_bound (numTables : Int) (openStr closeStr : String) (rate : Int)
    (c0 : ComputerClub) (es : List Event)
    (hnew : ComputerClub.new numTables openStr closeStr rate = some c0)
    (hopen : c0.openTime < c0.closeTime)
    (hvalid : ∀ e ∈ es, validEvent e = true)
    (hchron : es.Pairwise (fun a b => a.time ≤ b.time))
    (hclose : ∀ e ∈ es, e.time ≤ c0.closeTime) :
    ∃ c c1, processEvents c0 es = some c ∧ c.closeClub = some c1 ∧
      ∀ T ∈ c1.tables, 0 ≤ T.totalTime ∧ T.totalTime ≤ c0.closeTime - c0.openTime := by
  obtain ⟨hclients, hqueue, houtput, _, htab⟩ := new_eq_some _ _ _ _ _ hnew
  have hM0 : BusyWithin c0 := by
    intro i T hT
    have hfree := new_tables_free _ _ _ _ _ hnew i T hT
    have hmemT := mem_of_vecGet _ _ _ hT
    rw [htab] at hmemT
    obtain ⟨j, _, hj⟩ := List.mem_map.1 hmemT
    have htot : T.totalTime = 0 := by rw [← hj]; rfl
    refine ⟨by omega, ?_, fun _ => Or.inl htot⟩
    intro ho
    rw [hfree] at ho
    cases ho
  have hL0 : ArrivalSeen c0 := by
    rintro (⟨name, cl, hcl⟩ | hq)
    · rw [hclients] at hcl
      simp [ClientMap.find] at hcl
    · exact absurd hqueue hq
  obtain ⟨c, hrun, hR, hM, hB, ho, hc⟩ :=
    run_busyWithin es c0 (Reachable.start _ _ _ _ _ hnew) hM0 hL0 c0.closeTime
      (by rw [houtput]; simp) hvalid hchron (by rw [houtput]; simp) hclose
  obtain ⟨c1, hcl, hbound⟩ := closeClub_busy c hR hM (by rw [hc]; exact hB) (by rw [ho, hc]; exact hopen)
  refine ⟨c, c1, hrun, hcl, ?_⟩
  intro T hT
  have := hbound T hT
  rw [ho, hc] at this
  exact this

/-- Witness for C20: the run of the club with two tables in which `bob`
takes table 1 at 09:10 and stays until closing time. -/
theorem busy_time_bound_witness :
    ∃ c c1,
      processEvents exampleClub2
        [⟨540, 1, ["bob"]⟩, ⟨545, 1, ["alice"]⟩, ⟨550, 2, ["bob", "1"]⟩] = some c ∧
      c.closeClub = some c1 ∧
      ∀ T ∈ c1.tables,
        0 ≤ T.totalTime ∧ T.totalTime ≤ exampleClub2.closeTime - exampleClub2.openTime :=
  busy_time_bound 2 "09:00" "19:00" 10 exampleClub2
    [⟨540, 1, ["bob"]⟩, ⟨545, 1, ["alice"]⟩, ⟨550, 2, ["bob", "1"]⟩]
    (by decide) (by decide) (by decide) (by decide) (by decide)

end ComputerClub

end Club
